import Mathlib

/-!
Verification of the sparse-merkle-tree library (src/src/tree.rs and friends).

Keys and values are 256-bit words, embedded as natural numbers below 2 ^ 256.
The modules h256.rs, merge.rs and merkle_proof.rs are not part of the staged
sources; their definitions (bit operations on Nat, MergeValue and the merge
rule) are modelled from the specification, as noted on each definition.
The store is embedded functionally: branch and leaf maps are functions into
Option, the root is a plain number, and the backing store never fails, so the
Rust Result-returning operations become total functions; Rust panics
(assertion failures and out-of-bounds indexing) are modelled by Option.
-/

set_option maxRecDepth 8000

namespace Smt

/-- Modelled from the spec (3.1): get_bit. -/
def getBit (k : Nat) (h : Nat) : Bool := k.testBit h

/-- Modelled from the spec (3.1): set_bit, a bitwise or with 2 ^ h. -/
def setBit (h : Nat) (k : Nat) : Nat := k ||| 2 ^ h

/-- Modelled from the spec (3.1): is_right h is get_bit h. -/
def isRight (h : Nat) (k : Nat) : Bool := k.testBit h

/-- Clear all bits at indices strictly below h (helper for parent paths). -/
def clearLow (h : Nat) (k : Nat) : Nat := (k >>> h) <<< h

/-- Modelled from the spec (3.1) and the use sites in tree.rs: parent_path at
height h clears every bit of the key at indices up to and including h, so that
the two children of a branch share the branch node key.  For keys below
2 ^ 256 this also yields zero at height 255. -/
def parentPath (height : Nat) (k : Nat) : Nat := clearLow (height + 1) k

/-- Modelled from the spec (3.1): fork_height scans bit indices from 255 down
to 0 and returns the first index where the two keys differ, or 0. -/
def forkFrom (a b : Nat) : Nat → Nat
  | 0 => 0
  | h + 1 => if a.testBit (h + 1) != b.testBit (h + 1) then h + 1 else forkFrom a b h

/-- Modelled from the spec (3.1): fork_height, the highest differing bit. -/
def forkHeight (a b : Nat) : Nat := forkFrom a b 255

/-- Modelled from the spec (3.2): MergeValue with the Zero and Value variants
(the reference implementation uses the explicit-hash merge, no shortcut). -/
inductive MergeValue where
  | zero : MergeValue
  | value : Nat → MergeValue
deriving DecidableEq

namespace MergeValue

/-- Modelled from the spec (3.2): is_zero. -/
def isZero : MergeValue → Bool
  | .zero => true
  | .value _ => false

/-- Modelled from the spec (3.2): hash; Zero hashes to the zero word. -/
def hash : MergeValue → Nat
  | .zero => 0
  | .value v => v

/-- Modelled from the spec (4.2 step 1): from_h256, zero maps to Zero. -/
def fromH256 (v : Nat) : MergeValue := if v = 0 then .zero else .value v

end MergeValue

/-- The hash capability: height, parent key and the two child hashes go in,
a 32-byte digest comes out (spec 6.1 framing, abstracted). -/
def HashFn := Nat → Nat → Nat → Nat → Nat

/-- Modelled from the spec (4.1): the merge rule.  Both children Zero gives
Zero; otherwise the explicit hash of (height, parent_key, left, right). -/
def merge (Hf : HashFn) (height : Nat) (parentKey : Nat)
    (l r : MergeValue) : MergeValue :=
  if l.isZero && r.isZero then .zero
  else .value (Hf height parentKey l.hash r.hash)

/-- The branch key: height paired with the node key (tree.rs BranchKey). -/
abbrev BranchKey := Nat × Nat

/-- A branch in the SMT (tree.rs BranchNode). -/
structure BranchNode where
  left : MergeValue
  right : MergeValue
deriving DecidableEq

/-- The backing store (default_store.rs DefaultStore), embedded functionally:
branch and leaf maps as functions into Option and the root cell (initially
zero, matching get_root's unwrap_or_else default). -/
structure Store where
  branches : BranchKey → Option BranchNode
  leaves : Nat → Option Nat
  root : Nat

/-- A fresh store: empty maps, zero root. -/
def emptyStore : Store := ⟨fun _ => none, fun _ => none, 0⟩

def insertBranch (s : Store) (bk : BranchKey) (b : BranchNode) : Store :=
  ⟨fun j => if j = bk then some b else s.branches j, s.leaves, s.root⟩

def removeBranch (s : Store) (bk : BranchKey) : Store :=
  ⟨fun j => if j = bk then none else s.branches j, s.leaves, s.root⟩

def insertLeaf (s : Store) (k v : Nat) : Store :=
  ⟨s.branches, fun j => if j = k then some v else s.leaves j, s.root⟩

def removeLeaf (s : Store) (k : Nat) : Store :=
  ⟨s.branches, fun j => if j = k then none else s.leaves j, s.root⟩

def updateRoot (s : Store) (r : Nat) : Store := ⟨s.branches, s.leaves, r⟩

/-- Write-or-remove of a branch, as both recompute loops do it: the branch is
persisted when at least one child is non-Zero and removed otherwise
(tree.rs lines 123-135 and 220-230). -/
def writeBranch (s : Store) (bk : BranchKey) (l r : MergeValue) : Store :=
  if !l.isZero || !r.isZero then insertBranch s bk ⟨l, r⟩ else removeBranch s bk

/-- The child-pair computation shared by both recompute loops (tree.rs lines
110-121 and 203-218): place the current value on the node's side of its
parent branch and take the sibling from the store, defaulting to Zero. -/
def fetchChildren (s : Store) (height : Nat) (ck : Nat) (cv : MergeValue) :
    MergeValue × MergeValue :=
  match s.branches (height, parentPath height ck) with
  | some br => if isRight height ck then (br.left, cv) else (cv, br.right)
  | none => if isRight height ck then (.zero, cv) else (cv, .zero)

/-- The shared per-node body of both recompute loops (tree.rs lines 107-138,
repeated at lines 203-231): fetch the sibling from the store or default it to
Zero, persist or remove the branch, and emit the parent key with the merge of
the two children. -/
def levelNode (Hf : HashFn) (height : Nat) (s : Store) (ck : Nat)
    (cv : MergeValue) : Store × (Nat × MergeValue) :=
  let lr := fetchChildren s height ck cv
  (writeBranch s (height, parentPath height ck) lr.1 lr.2,
   (parentPath height ck, merge Hf height (parentPath height ck) lr.1 lr.2))

/-- One height of hash_recompute (tree.rs lines 107-139): state is the
current key, current merge value and the store. -/
def recomputeStep (Hf : HashFn) (st : Nat × MergeValue × Store) (height : Nat) :
    Nat × MergeValue × Store :=
  let r := levelNode Hf height st.2.2 st.1 st.2.1
  (r.2.1, r.2.2, r.1)

/-- hash_recompute (tree.rs lines 103-143): fold the step over heights
0..=255, then store and return the hash of the final merge value. -/
def hashRecompute (Hf : HashFn) (key : Nat) (node : MergeValue) (s : Store) :
    Store × Nat :=
  let fin := (List.range 256).foldl (recomputeStep Hf) (key, node, s)
  (updateRoot fin.2.2 fin.2.1.hash, fin.2.1.hash)

/-- update (tree.rs lines 90-101): store or delete the leaf, then recompute.
Values are Nat (the Value impl for Nat is the identity). -/
def update (Hf : HashFn) (key value : Nat) (s : Store) : Store × Nat :=
  let node := MergeValue.fromH256 value
  let s1 := if !node.isZero then insertLeaf s key value else removeLeaf s key
  hashRecompute Hf key node s1

/-- remove (tree.rs lines 82-86): delete the leaf, recompute with Zero. -/
def removeKey (Hf : HashFn) (key : Nat) (s : Store) : Store × Nat :=
  hashRecompute Hf key .zero (removeLeaf s key)

/-- get (tree.rs lines 244-250): None when the root is zero, otherwise the
stored leaf. -/
def get (s : Store) (key : Nat) : Option Nat :=
  if s.root = 0 then none else s.leaves key

/-- Stable insertion into a key-sorted pair list (insertion goes after equal
keys, preserving the relative order of equal-keyed pairs). -/
def insertPair (x : Nat × Nat) : List (Nat × Nat) → List (Nat × Nat)
  | [] => [x]
  | y :: ys => if x.1 ≤ y.1 then x :: y :: ys else y :: insertPair x ys

/-- Stable sort by key; stable sorts are unique, so this is the model of the
Vec sort_by_key call in update_all (tree.rs line 164). -/
def sortPairs : List (Nat × Nat) → List (Nat × Nat)
  | [] => []
  | x :: xs => insertPair x (sortPairs xs)

/-- The run-collapsing worker of Vec dedup_by_key: x is the survivor of the
current run; later pairs with the same key are dropped, a new key starts a
new run. -/
def dedupFrom (x : Nat × Nat) : List (Nat × Nat) → List (Nat × Nat)
  | [] => [x]
  | y :: rest => if x.1 = y.1 then dedupFrom x rest else x :: dedupFrom y rest

/-- Vec dedup_by_key (tree.rs line 165): drop consecutive pairs with equal
keys, keeping the first of each run. -/
def dedupPairs : List (Nat × Nat) → List (Nat × Nat)
  | [] => []
  | x :: rest => dedupFrom x rest

/-- The normalization of update_all (tree.rs lines 163-165): reverse, stable
sort by key, dedup consecutive keys keeping the first survivor (which, after
the reverse, is the last pair the caller submitted for that key). -/
def normalizePairs (l : List (Nat × Nat)) : List (Nat × Nat) :=
  dedupPairs (sortPairs l.reverse)

/-- Sorted insertion for plain keys. -/
def insertNat (x : Nat) : List Nat → List Nat
  | [] => [x]
  | y :: ys => if x ≤ y then x :: y :: ys else y :: insertNat x ys

/-- Sorting for plain key lists (remove_all line 148, merkle_proof line 259;
the elements are plain words so stability is vacuous). -/
def sortNats : List Nat → List Nat
  | [] => []
  | x :: xs => insertNat x (sortNats xs)

/-- The run-collapsing worker of Vec dedup for plain keys. -/
def dedupNFrom (x : Nat) : List Nat → List Nat
  | [] => [x]
  | y :: rest => if x = y then dedupNFrom x rest else x :: dedupNFrom y rest

/-- Vec dedup for plain keys (remove_all, tree.rs line 149). -/
def dedupNats : List Nat → List Nat
  | [] => []
  | x :: rest => dedupNFrom x rest

/-- The normalization of remove_all (tree.rs lines 147-149). -/
def normalizeKeys (l : List Nat) : List Nat := dedupNats (sortNats l.reverse)

/-- One height pass of hash_recompute_all (tree.rs lines 183-233): walk the
node list left to right; a left node whose right sibling is the next list
entry consumes it (lines 192-201), otherwise the sibling comes from the
store; each group emits one parent node. -/
def levelRun (Hf : HashFn) (height : Nat) (s : Store) :
    List (Nat × MergeValue) → Store × List (Nat × MergeValue)
  | [] => (s, [])
  | [(ck, cv)] =>
      let r := levelNode Hf height s ck cv
      (r.1, [r.2])
  | (ck, cv) :: (nk, nv) :: rest =>
      if !isRight height ck && (setBit height ck == nk) then
        let pk := parentPath height ck
        let s1 := writeBranch s (height, pk) cv nv
        let r := levelRun Hf height s1 rest
        (r.1, (pk, merge Hf height pk cv nv) :: r.2)
      else
        let r0 := levelNode Hf height s ck cv
        let r := levelRun Hf height r0.1 ((nk, nv) :: rest)
        (r.1, r0.2 :: r.2)

/-- The 256 height passes of hash_recompute_all (tree.rs lines 182-234). -/
def levelsRun (Hf : HashFn) (nodes : List (Nat × MergeValue)) (s : Store) :
    Store × List (Nat × MergeValue) :=
  (List.range 256).foldl (fun st h => levelRun Hf h st.1 st.2) (s, nodes)

/-- hash_recompute_all (tree.rs lines 181-240).  After the passes the node
list is asserted to be a singleton and its merge value's hash becomes the new
root; indexing an empty list is a panic, modelled as none. -/
def hashRecomputeAll (Hf : HashFn) (nodes : List (Nat × MergeValue))
    (s : Store) : Option (Store × Nat) :=
  let fin := levelsRun Hf nodes s
  match fin.2 with
  | nd :: _ => some (updateRoot fin.1 nd.2.hash, nd.2.hash)
  | [] => none

/-- One step of the leaf-writing loop of update_all (tree.rs lines 168-175):
persist a non-zero value or remove the key, and append the node. -/
def writeLeafStep (st : Store × List (Nat × MergeValue)) (p : Nat × Nat) :
    Store × List (Nat × MergeValue) :=
  let value := MergeValue.fromH256 p.2
  let s1 := if !value.isZero then insertLeaf st.1 p.1 p.2
            else removeLeaf st.1 p.1
  (s1, st.2 ++ [(p.1, value)])

/-- The leaf-writing loop of update_all (tree.rs lines 167-176). -/
def writeLeaves (pairs : List (Nat × Nat)) (s : Store) :
    Store × List (Nat × MergeValue) :=
  pairs.foldl writeLeafStep (s, [])

/-- update_all (tree.rs lines 161-179). -/
def updateAll (Hf : HashFn) (leaves : List (Nat × Nat)) (s : Store) :
    Option (Store × Nat) :=
  let pairs := normalizePairs leaves
  let wd := writeLeaves pairs s
  hashRecomputeAll Hf wd.2 wd.1

/-- One step of the leaf-removal loop of remove_all (tree.rs lines 152-155). -/
def removeLeafStep (st : Store × List (Nat × MergeValue)) (k : Nat) :
    Store × List (Nat × MergeValue) :=
  (removeLeaf st.1 k, st.2 ++ [(k, MergeValue.zero)])

/-- remove_all (tree.rs lines 145-158). -/
def removeAll (Hf : HashFn) (keys : List Nat) (s : Store) :
    Option (Store × Nat) :=
  let wd := (normalizeKeys keys).foldl removeLeafStep
    ((s, []) : Store × List (Nat × MergeValue))
  hashRecomputeAll Hf wd.2 wd.1

/-- The bitmap-collection walk of merkle_proof for one key (tree.rs lines
263-281): bit h of the bitmap is set when the branch at (h, parent_path h k)
exists and the sibling child is non-Zero. -/
def bitmapOf (s : Store) (k : Nat) : Nat :=
  (List.range 256).foldl
    (fun bm h =>
      match s.branches (h, parentPath h k) with
      | some br =>
          if !(if isRight h k then br.left else br.right).isZero
          then setBit h bm else bm
      | none => bm)
    0

/-- One height of the proof sibling walk (tree.rs lines 300-322): pop the
fork stack when its top equals the height; otherwise, when the bitmap bit is
set, fetch the branch and append the non-Zero sibling to the proof (a Zero
sibling there is the unreachable branch, modelled as none). -/
def walkStep (s : Store) (k bm : Nat) (st : List Nat × List MergeValue)
    (h : Nat) : Option (List Nat × List MergeValue) :=
  match st.1 with
  | t :: stack2 =>
      if t = h then some (stack2, st.2)
      else if getBit bm h then
        match s.branches (h, parentPath h k) with
        | some br =>
            let sib := if isRight h k then br.left else br.right
            if sib.isZero then none else some (st.1, st.2 ++ [sib])
        | none => some st
      else some st
  | [] =>
      if getBit bm h then
        match s.branches (h, parentPath h k) with
        | some br =>
            let sib := if isRight h k then br.left else br.right
            if sib.isZero then none else some (st.1, st.2 ++ [sib])
        | none => some st
      else some st

/-- The inner height loop of the proof sibling walk over a list of heights. -/
def walkHeights (s : Store) (k bm : Nat) :
    List Nat → List Nat × List MergeValue → Option (List Nat × List MergeValue)
  | [], st => some st
  | h :: rest, st =>
      match walkStep s k bm st h with
      | some st1 => walkHeights s k bm rest st1
      | none => none

/-- The proof sibling walk over the sorted (key, bitmap) list (tree.rs lines
284-330).  The stack is a list with its head as the top; the public fork
height of a key is taken against the next key, or 255 for the last one (the
final key walks heights 0..=255 and then pushes 255; for a non-final key the
loop stops just before the fork height against the next key, which is then
pushed).  The push into the 257-entry fork-height array is in bounds only
when the stack is shorter than 257 entries; an out-of-bounds write is a
panic, modelled as none. -/
def proofWalk (s : Store) :
    List (Nat × Nat) → List Nat → List MergeValue →
    Option (List Nat × List MergeValue)
  | [], stack, acc => some (stack, acc)
  | [(k, bm)], stack, acc =>
      match walkHeights s k bm (List.range 256) (stack, acc) with
      | some st1 =>
          if st1.1.length < 257 then some (255 :: st1.1, st1.2)
          else none
      | none => none
  | (k, bm) :: (k2, bm2) :: rest2, stack, acc =>
      match walkHeights s k bm (List.range (forkHeight k k2)) (stack, acc) with
      | some st1 =>
          if st1.1.length < 257
          then proofWalk s ((k2, bm2) :: rest2) (forkHeight k k2 :: st1.1) st1.2
          else none
      | none => none

/-- merkle_proof (tree.rs lines 253-335): reject empty key lists, sort the
keys, collect one bitmap per key, run the sibling walk, and return the
bitmaps with the collected proof.  The none result covers the EmptyKeys
error and the panics of the walk. -/
def merkleProof (s : Store) (keys : List Nat) :
    Option (List Nat × List MergeValue) :=
  if keys = [] then none
  else
    let sk := sortNats keys
    let bms := sk.map (bitmapOf s)
    match proofWalk s (sk.zip bms) [] [] with
    | some st => some (bms, st.2)
    | none => none

/-! ### The double-keyed variant (SparseMerkleTree2 over DefaultStore2)

The maps of DefaultStore2 are double-keyed: every entry is indexed by the
domain id first.  remove_x drops the root entry and every branch and leaf
under the domain (default_store.rs lines 226-232). -/

/-- DefaultStore2, embedded functionally over a domain type X. -/
structure Store2 (X : Type) where
  branches : X × BranchKey → Option BranchNode
  leaves : X × Nat → Option Nat
  roots : X → Option Nat

def emptyStore2 (X : Type) : Store2 X := ⟨fun _ => none, fun _ => none, fun _ => none⟩

variable {X : Type} [DecidableEq X]

def insertBranch2 (s : Store2 X) (x : X) (bk : BranchKey) (b : BranchNode) :
    Store2 X :=
  ⟨fun j => if j = (x, bk) then some b else s.branches j, s.leaves, s.roots⟩

def removeBranch2 (s : Store2 X) (x : X) (bk : BranchKey) : Store2 X :=
  ⟨fun j => if j = (x, bk) then none else s.branches j, s.leaves, s.roots⟩

def insertLeaf2 (s : Store2 X) (x : X) (k v : Nat) : Store2 X :=
  ⟨s.branches, fun j => if j = (x, k) then some v else s.leaves j, s.roots⟩

def removeLeaf2 (s : Store2 X) (x : X) (k : Nat) : Store2 X :=
  ⟨s.branches, fun j => if j = (x, k) then none else s.leaves j, s.roots⟩

def updateRoot2 (s : Store2 X) (x : X) (r : Nat) : Store2 X :=
  ⟨s.branches, s.leaves, fun y => if y = x then some r else s.roots y⟩

/-- root (tree.rs line 358): the stored cell, defaulting to zero. -/
def getRoot2 (s : Store2 X) (x : X) : Nat := (s.roots x).getD 0

/-- remove_x (tree.rs lines 541-544, default_store.rs lines 226-232): drop
the root entry and all branches and leaves under the domain id. -/
def removeX (s : Store2 X) (x : X) : Store2 X :=
  ⟨fun j => if j.1 = x then none else s.branches j,
   fun j => if j.1 = x then none else s.leaves j,
   fun y => if y = x then none else s.roots y⟩

def writeBranch2 (s : Store2 X) (x : X) (bk : BranchKey) (l r : MergeValue) :
    Store2 X :=
  if !l.isZero || !r.isZero then insertBranch2 s x bk ⟨l, r⟩
  else removeBranch2 s x bk

/-- One height of SparseMerkleTree2::hash_recompute (tree.rs lines 393-426). -/
def recomputeStep2 (Hf : HashFn) (x : X) (st : Nat × MergeValue × Store2 X)
    (height : Nat) : Nat × MergeValue × Store2 X :=
  let ck := st.1
  let cn := st.2.1
  let s := st.2.2
  let pk := parentPath height ck
  let bk : BranchKey := (height, pk)
  let lr : MergeValue × MergeValue :=
    match s.branches (x, bk) with
    | some br => if isRight height ck then (br.left, cn) else (cn, br.right)
    | none => if isRight height ck then (.zero, cn) else (cn, .zero)
  (pk, merge Hf height pk lr.1 lr.2, writeBranch2 s x bk lr.1 lr.2)

/-- SparseMerkleTree2::hash_recompute (tree.rs lines 389-430). -/
def hashRecompute2 (Hf : HashFn) (x : X) (key : Nat) (node : MergeValue)
    (s : Store2 X) : Store2 X × Nat :=
  let fin := (List.range 256).foldl (recomputeStep2 Hf x) (key, node, s)
  (updateRoot2 fin.2.2 x fin.2.1.hash, fin.2.1.hash)

/-- SparseMerkleTree2::update (tree.rs lines 376-387). -/
def update2 (Hf : HashFn) (x : X) (key value : Nat) (s : Store2 X) :
    Store2 X × Nat :=
  let node := MergeValue.fromH256 value
  let s1 := if !node.isZero then insertLeaf2 s x key value
            else removeLeaf2 s x key
  hashRecompute2 Hf x key node s1

/-- SparseMerkleTree2::remove (tree.rs lines 368-372). -/
def removeKey2 (Hf : HashFn) (x : X) (key : Nat) (s : Store2 X) :
    Store2 X × Nat :=
  hashRecompute2 Hf x key .zero (removeLeaf2 s x key)

/-- The store-fetch case of one node of one height pass of
SparseMerkleTree2::hash_recompute_all (tree.rs lines 490-519). -/
def levelNode2 (Hf : HashFn) (x : X) (height : Nat) (s : Store2 X) (ck : Nat)
    (cv : MergeValue) : Store2 X × (Nat × MergeValue) :=
  let pk := parentPath height ck
  let bk : BranchKey := (height, pk)
  let lr : MergeValue × MergeValue :=
    match s.branches (x, bk) with
    | some br => if isRight height ck then (br.left, cv) else (cv, br.right)
    | none => if isRight height ck then (.zero, cv) else (cv, .zero)
  (writeBranch2 s x bk lr.1 lr.2, (pk, merge Hf height pk lr.1 lr.2))

/-- One height pass of SparseMerkleTree2::hash_recompute_all (tree.rs lines
469-521). -/
def levelRun2 (Hf : HashFn) (x : X) (height : Nat) (s : Store2 X) :
    List (Nat × MergeValue) → Store2 X × List (Nat × MergeValue)
  | [] => (s, [])
  | [(ck, cv)] =>
      let r := levelNode2 Hf x height s ck cv
      (r.1, [r.2])
  | (ck, cv) :: (nk, nv) :: rest =>
      if !isRight height ck && (setBit height ck == nk) then
        let pk := parentPath height ck
        let s1 := writeBranch2 s x (height, pk) cv nv
        let r := levelRun2 Hf x height s1 rest
        (r.1, (pk, merge Hf height pk cv nv) :: r.2)
      else
        let r0 := levelNode2 Hf x height s ck cv
        let r := levelRun2 Hf x height r0.1 ((nk, nv) :: rest)
        (r.1, r0.2 :: r.2)

/-- SparseMerkleTree2::hash_recompute_all (tree.rs lines 468-528). -/
def hashRecomputeAll2 (Hf : HashFn) (x : X) (nodes : List (Nat × MergeValue))
    (s : Store2 X) : Option (Store2 X × Nat) :=
  let fin := (List.range 256).foldl (fun st h => levelRun2 Hf x h st.1 st.2)
    (s, nodes)
  match fin.2 with
  | nd :: _ => some (updateRoot2 fin.1 x nd.2.hash, nd.2.hash)
  | [] => none

/-- SparseMerkleTree2::update_all (tree.rs lines 448-466). -/
def updateAll2 (Hf : HashFn) (x : X) (leaves : List (Nat × Nat))
    (s : Store2 X) : Option (Store2 X × Nat) :=
  let pairs := normalizePairs leaves
  let wd := pairs.foldl
    (fun st p =>
      let value := MergeValue.fromH256 p.2
      let s1 := if !value.isZero then insertLeaf2 st.1 x p.1 p.2
                else removeLeaf2 st.1 x p.1
      (s1, st.2 ++ [(p.1, value)]))
    ((s, []) : Store2 X × List (Nat × MergeValue))
  hashRecomputeAll2 Hf x wd.2 wd.1

/-- SparseMerkleTree2::remove_all (tree.rs lines 432-445). -/
def removeAll2 (Hf : HashFn) (x : X) (keys : List Nat) (s : Store2 X) :
    Option (Store2 X × Nat) :=
  let ks := normalizeKeys keys
  let wd := ks.foldl
    (fun st k => (removeLeaf2 st.1 x k, st.2 ++ [(k, MergeValue.zero)]))
    ((s, []) : Store2 X × List (Nat × MergeValue))
  hashRecomputeAll2 Hf x wd.2 wd.1

/-- The mutations of SparseMerkleTree2 named by the spec: update, remove,
update_all, remove_all and remove_x, all performed under one domain id. -/
inductive Op2 where
  | upd : Nat → Nat → Op2
  | rem : Nat → Op2
  | updAll : List (Nat × Nat) → Op2
  | remAll : List Nat → Op2
  | remX : Op2

/-- Run one mutation under a domain id; none is a panic of the batch ops. -/
def applyOp2 (Hf : HashFn) (op : Op2) (x : X) (s : Store2 X) :
    Option (Store2 X) :=
  match op with
  | .upd k v => some (update2 Hf x k v s).1
  | .rem k => some (removeKey2 Hf x k s).1
  | .updAll ps => (updateAll2 Hf x ps s).map Prod.fst
  | .remAll ks => (removeAll2 Hf x ks s).map Prod.fst
  | .remX => some (removeX s x)

/-! ### Arithmetic facts about the bit operations -/

theorem clearLow_eq (h k : Nat) : clearLow h k = 2 ^ h * (k / 2 ^ h) := by
  simp [clearLow, Nat.shiftRight_eq_div_pow, Nat.shiftLeft_eq, Nat.mul_comm]

theorem clearLow_le (h k : Nat) : clearLow h k ≤ k := by
  rw [clearLow_eq, Nat.mul_comm]
  exact Nat.div_mul_le_self k (2 ^ h)

theorem clearLow_aligned (h k : Nat) : clearLow h k % 2 ^ h = 0 := by
  rw [clearLow_eq]
  exact Nat.mul_mod_right _ _

theorem clearLow_zero (k : Nat) : clearLow 0 k = k := by
  simp [clearLow_eq]

theorem clearLow_of_aligned {h p : Nat} (hp : p % 2 ^ h = 0) :
    clearLow h p = p := by
  rw [clearLow_eq, Nat.mul_div_cancel' (Nat.dvd_of_mod_eq_zero hp)]

theorem clearLow_clearLow {a b : Nat} (hab : a ≤ b) (k : Nat) :
    clearLow b (clearLow a k) = clearLow b k := by
  obtain ⟨c, rfl⟩ := Nat.exists_eq_add_of_le hab
  rw [clearLow_eq a k, clearLow_eq, clearLow_eq, pow_add,
    Nat.mul_div_mul_left _ _ (Nat.pos_pow_of_pos a (by norm_num)),
    Nat.div_div_eq_div_mul]

theorem testBit_clearLow_ge {h j : Nat} (hj : h ≤ j) (k : Nat) :
    (clearLow h k).testBit j = k.testBit j := by
  obtain ⟨c, rfl⟩ := Nat.exists_eq_add_of_le hj
  rw [clearLow_eq, Nat.testBit_to_div_mod, Nat.testBit_to_div_mod, pow_add,
    ← Nat.div_div_eq_div_mul, ← Nat.div_div_eq_div_mul,
    Nat.mul_div_cancel_left _ (Nat.pos_pow_of_pos h (by norm_num))]

theorem testBit_clearLow_lt {h j : Nat} (hj : j < h) (k : Nat) :
    (clearLow h k).testBit j = false := by
  rw [clearLow_eq, Nat.testBit_mul_pow_two]
  simp [Nat.not_le_of_lt hj]

theorem clearLow_succ (h k : Nat) :
    clearLow h k = clearLow (h + 1) k + (if k.testBit h then 2 ^ h else 0) := by
  have key : 2 ^ h * (k / 2 ^ h) =
      2 ^ h * 2 * (k / 2 ^ h / 2) + 2 ^ h * (k / 2 ^ h % 2) := by
    conv_lhs => rw [← Nat.div_add_mod (k / 2 ^ h) 2]
    ring
  rw [clearLow_eq h k, clearLow_eq (h + 1) k, pow_succ,
    ← Nat.div_div_eq_div_mul, Nat.testBit_to_div_mod, key]
  rcases Nat.mod_two_eq_zero_or_one (k / 2 ^ h) with hm | hm <;> simp [hm]

theorem clearLow_succ_of_testBit_false {h k : Nat} (hb : k.testBit h = false) :
    clearLow (h + 1) k = clearLow h k := by
  rw [clearLow_succ h k, hb]
  simp

theorem clearLow_succ_of_testBit_true {h k : Nat} (hb : k.testBit h = true) :
    clearLow h k = clearLow (h + 1) k + 2 ^ h := by
  rw [clearLow_succ h k, hb]
  simp

theorem clearLow_lt {h k n : Nat} (hk : k < n) : clearLow h k < n :=
  lt_of_le_of_lt (clearLow_le h k) hk

theorem clearLow_ge_256 {k : Nat} (hk : k < 2 ^ 256) {h : Nat} (hh : 256 ≤ h) :
    clearLow h k = 0 := by
  rw [clearLow_eq,
    Nat.div_eq_of_lt (lt_of_lt_of_le hk (Nat.pow_le_pow_right (by norm_num) hh))]
  simp

theorem testBit_false_of_aligned {h p j : Nat} (hp : p % 2 ^ h = 0)
    (hj : j < h) : p.testBit j = false := by
  have heq : clearLow h p = p := clearLow_of_aligned hp
  rw [← heq]
  exact testBit_clearLow_lt hj p

theorem setBit_of_testBit_false {h k : Nat} (hb : k.testBit h = false) :
    setBit h k = k + 2 ^ h := by
  unfold setBit
  have hpos : 0 < 2 ^ h := Nat.pos_pow_of_pos _ (by norm_num)
  have hlo : k % 2 ^ (h + 1) < 2 ^ h := by
    have hb2 : k / 2 ^ h % 2 = 0 := by
      rw [Nat.testBit_to_div_mod] at hb
      simp only [decide_eq_false_iff_not] at hb
      omega
    rw [pow_succ, Nat.mod_mul, hb2, Nat.mul_zero, Nat.add_zero]
    exact Nat.mod_lt _ hpos
  have hdecomp : 2 ^ (h + 1) * (k / 2 ^ (h + 1)) + k % 2 ^ (h + 1) = k :=
    Nat.div_add_mod k (2 ^ (h + 1))
  have hk1 : k = 2 ^ (h + 1) * (k / 2 ^ (h + 1)) ||| k % 2 ^ (h + 1) := by
    conv_lhs => rw [← hdecomp]
    exact Nat.mul_add_lt_is_or (Nat.mod_lt _ (Nat.pos_pow_of_pos _ (by norm_num))) _
  have hlo2 : k % 2 ^ (h + 1) ||| 2 ^ h = k % 2 ^ (h + 1) + 2 ^ h := by
    rw [Nat.lor_comm]
    have h1 := Nat.mul_add_lt_is_or hlo 1
    rw [Nat.mul_one] at h1
    omega
  calc k ||| 2 ^ h
      = 2 ^ (h + 1) * (k / 2 ^ (h + 1)) ||| (k % 2 ^ (h + 1) ||| 2 ^ h) := by
        conv_lhs => rw [hk1]
        rw [Nat.lor_assoc]
    _ = 2 ^ (h + 1) * (k / 2 ^ (h + 1)) + (k % 2 ^ (h + 1) + 2 ^ h) := by
        rw [hlo2]
        refine (Nat.mul_add_lt_is_or ?_ _).symm
        have hps : (2 : Nat) ^ (h + 1) = 2 ^ h * 2 := pow_succ 2 h
        omega
    _ = k + 2 ^ h := by omega


theorem clearLow_mono {h k j : Nat} (hkj : k ≤ j) :
    clearLow h k ≤ clearLow h j := by
  rw [clearLow_eq, clearLow_eq]
  exact Nat.mul_le_mul_left _ (Nat.div_le_div_right hkj)

theorem aligned_gap {h p q : Nat} (hp : p % 2 ^ h = 0) (hq : q % 2 ^ h = 0)
    (hpq : p < q) : p + 2 ^ h ≤ q := by
  rcases Nat.dvd_of_mod_eq_zero hp with ⟨a, ha⟩
  rcases Nat.dvd_of_mod_eq_zero hq with ⟨b, hb⟩
  subst ha hb
  have hab : a < b := lt_of_mul_lt_mul_left hpq (Nat.zero_le _)
  calc 2 ^ h * a + 2 ^ h = 2 ^ h * (a + 1) := by ring
    _ ≤ 2 ^ h * b := Nat.mul_le_mul_left _ hab

theorem clearLow_ge_of_aligned_le {h p t : Nat} (hp : p % 2 ^ h = 0)
    (ht : p ≤ t) : p ≤ clearLow h t := by
  calc p = clearLow h p := (clearLow_of_aligned hp).symm
    _ ≤ clearLow h t := clearLow_mono ht

theorem clearLow_succ_add_pow {h p : Nat} (hp : p % 2 ^ (h + 1) = 0) :
    clearLow (h + 1) (p + 2 ^ h) = p := by
  rcases Nat.dvd_of_mod_eq_zero hp with ⟨m, hm⟩
  subst hm
  rw [clearLow_eq, Nat.mul_add_div (Nat.pos_pow_of_pos _ (by norm_num)),
    Nat.div_eq_of_lt (Nat.pow_lt_pow_right (by norm_num) (Nat.lt_succ_self h))]
  simp

theorem aligned_succ_iff {h p : Nat} (hp : p % 2 ^ h = 0) :
    p.testBit h = false ↔ p % 2 ^ (h + 1) = 0 := by
  rw [Nat.testBit_to_div_mod, pow_succ, Nat.mod_mul, hp, Nat.zero_add]
  have hpos : 0 < 2 ^ h := Nat.pos_pow_of_pos _ (by norm_num)
  constructor
  · intro hd
    simp only [decide_eq_false_iff_not] at hd
    have hz : p / 2 ^ h % 2 = 0 := by omega
    rw [hz, Nat.mul_zero]
  · intro hd
    simp only [decide_eq_false_iff_not]
    rcases Nat.mul_eq_zero.mp hd with hz | hz
    · omega
    · omega

theorem testBit_aligned_add_pow {h p : Nat} (hp : p % 2 ^ (h + 1) = 0) :
    (p + 2 ^ h).testBit h = true := by
  have hpos : 0 < 2 ^ h := Nat.pos_pow_of_pos _ (by norm_num)
  have hph : p % 2 ^ h = 0 := by
    rcases Nat.dvd_of_mod_eq_zero hp with ⟨m, hm⟩
    subst hm
    rw [pow_succ, Nat.mul_assoc, Nat.mul_comm 2 m]
    exact Nat.mul_mod_right _ _
  have heven : p / 2 ^ h % 2 = 0 := by
    have hb := (aligned_succ_iff hph).mpr hp
    rw [Nat.testBit_to_div_mod] at hb
    simpa using hb
  rw [Nat.testBit_to_div_mod, Nat.add_div_right _ hpos]
  simp only [decide_eq_true_eq]
  omega

theorem aligned_add_pow {h p : Nat} (hp : p % 2 ^ h = 0) :
    (p + 2 ^ h) % 2 ^ h = 0 := by
  rw [Nat.add_mod_right]
  exact hp

theorem aligned_of_aligned_succ {h p : Nat} (hp : p % 2 ^ (h + 1) = 0) :
    p % 2 ^ h = 0 := by
  rcases Nat.dvd_of_mod_eq_zero hp with ⟨m, hm⟩
  subst hm
  rw [pow_succ, Nat.mul_assoc, Nat.mul_comm 2 m]
  exact Nat.mul_mod_right _ _

/-- The two levels of subtree membership: a key sits under the branch node at
level h+1 exactly when its level-h prefix is the left or the right child. -/
theorem clearLow_succ_split {h p j : Nat} (hp : p % 2 ^ (h + 1) = 0) :
    clearLow (h + 1) j = p ↔ clearLow h j = p ∨ clearLow h j = p + 2 ^ h := by
  constructor
  · intro hj
    rcases Bool.eq_false_or_eq_true (j.testBit h) with hb | hb
    · right
      rw [clearLow_succ_of_testBit_true hb, hj]
    · left
      rw [← clearLow_succ_of_testBit_false hb, hj]
  · intro hj
    have hcc : clearLow (h + 1) (clearLow h j) = clearLow (h + 1) j :=
      clearLow_clearLow (Nat.le_succ h) j
    rcases hj with hj | hj
    · rw [← hcc, hj, clearLow_of_aligned hp]
    · rw [← hcc, hj, clearLow_succ_add_pow hp]

/-! ### Fork height -/

theorem forkFrom_le (a b u : Nat) : forkFrom a b u ≤ u := by
  induction u with
  | zero => simp [forkFrom]
  | succ v ih =>
      rw [forkFrom]
      split
      · exact le_refl _
      · exact le_trans ih (Nat.le_succ v)

theorem forkFrom_agree_above {a b : Nat} :
    ∀ u j, forkFrom a b u < j → j ≤ u → a.testBit j = b.testBit j := by
  intro u
  induction u with
  | zero => intro j h1 h2; omega
  | succ v ih =>
      intro j h1 h2
      rw [forkFrom] at h1
      by_cases hd : (a.testBit (v + 1) != b.testBit (v + 1)) = true
      · rw [if_pos hd] at h1
        omega
      · rw [if_neg hd] at h1
        simp only [bne_iff_ne, ne_eq, not_not] at hd
        rcases Nat.lt_or_ge j (v + 1) with hj | hj
        · exact ih j h1 (by omega)
        · have hje : j = v + 1 := by omega
          rw [hje]
          exact hd

theorem forkFrom_pos_diff {a b : Nat} :
    ∀ u, 0 < forkFrom a b u →
      a.testBit (forkFrom a b u) ≠ b.testBit (forkFrom a b u) := by
  intro u
  induction u with
  | zero => simp [forkFrom]
  | succ v ih =>
      intro hpos
      rw [forkFrom] at hpos ⊢
      by_cases hd : (a.testBit (v + 1) != b.testBit (v + 1)) = true
      · rw [if_pos hd]
        simpa [bne_iff_ne] using hd
      · rw [if_neg hd] at hpos ⊢
        exact ih hpos

theorem forkFrom_self (a : Nat) : ∀ u, forkFrom a a u = 0 := by
  intro u
  induction u with
  | zero => rfl
  | succ v ih => rw [forkFrom]; simp [ih]

theorem forkFrom_diff_of_ne {a b : Nat} (hab : a ≠ b) (ha : a < 2 ^ 256)
    (hb : b < 2 ^ 256) :
    a.testBit (forkHeight a b) ≠ b.testBit (forkHeight a b) := by
  rcases Nat.eq_zero_or_pos (forkHeight a b) with h0 | hpos
  · intro hcon0
    have hcon : a.testBit (forkHeight a b) = b.testBit (forkHeight a b) := hcon0
    apply hab
    apply Nat.eq_of_testBit_eq
    intro j
    rcases Nat.lt_or_ge j 256 with hj | hj
    · rcases Nat.eq_zero_or_pos j with hj0 | hjpos
      · rw [hj0]
        rw [h0] at hcon
        exact hcon
      · have h0' : forkFrom a b 255 = 0 := h0
        exact forkFrom_agree_above 255 j (by omega) (by omega)
    · rw [Nat.testBit_lt_two_pow (lt_of_lt_of_le ha (Nat.pow_le_pow_right (by norm_num) hj)),
        Nat.testBit_lt_two_pow (lt_of_lt_of_le hb (Nat.pow_le_pow_right (by norm_num) hj))]
  · exact forkFrom_pos_diff 255 hpos

theorem forkHeight_agree_above {a b : Nat} (ha : a < 2 ^ 256)
    (hb : b < 2 ^ 256) {j : Nat} (hj : forkHeight a b < j) :
    a.testBit j = b.testBit j := by
  rcases Nat.lt_or_ge j 256 with h2 | h2
  · exact forkFrom_agree_above 255 j hj (by omega)
  · rw [Nat.testBit_lt_two_pow (lt_of_lt_of_le ha (Nat.pow_le_pow_right (by norm_num) h2)),
      Nat.testBit_lt_two_pow (lt_of_lt_of_le hb (Nat.pow_le_pow_right (by norm_num) h2))]

theorem forkHeight_le_255 (a b : Nat) : forkHeight a b ≤ 255 :=
  forkFrom_le a b 255

theorem forkHeight_lt_bits {a b : Nat} (hab : a < b) (hb : b < 2 ^ 256) :
    a.testBit (forkHeight a b) = false ∧ b.testBit (forkHeight a b) = true := by
  have ha : a < 2 ^ 256 := lt_trans hab hb
  have hdiff := forkFrom_diff_of_ne (Nat.ne_of_lt hab) ha hb
  rcases Bool.eq_false_or_eq_true (a.testBit (forkHeight a b)) with h1 | h1
  · exfalso
    have h2 : b.testBit (forkHeight a b) = false := by
      rcases Bool.eq_false_or_eq_true (b.testBit (forkHeight a b)) with h2 | h2
      · exact absurd (h1.trans h2.symm) hdiff
      · exact h2
    have hba : b < a :=
      Nat.lt_of_testBit (forkHeight a b) h2 h1 fun j hj =>
        (forkHeight_agree_above ha hb hj).symm
    omega
  · refine ⟨h1, ?_⟩
    rcases Bool.eq_false_or_eq_true (b.testBit (forkHeight a b)) with h2 | h2
    · exact h2
    · exact absurd (h1.trans h2.symm) hdiff

theorem forkHeight_le_of_agree {a b t : Nat} (ha : a < 2 ^ 256)
    (hb : b < 2 ^ 256)
    (hag : ∀ j, t < j → a.testBit j = b.testBit j) : forkHeight a b ≤ t := by
  by_contra hcon
  push_neg at hcon
  by_cases hab : a = b
  · subst hab
    rw [forkHeight, forkFrom_self] at hcon
    omega
  · exact forkFrom_diff_of_ne hab ha hb (hag _ hcon)

/-! ### A fold-with-invariant principle for the height loops -/

theorem foldl_range'_inv {α : Type} (f : α → Nat → α) (P : Nat → α → Prop) :
    ∀ (len lo : Nat) (a : α), P lo a →
    (∀ h b, lo ≤ h → h < lo + len → P h b → P (h + 1) (f b h)) →
    P (lo + len) (List.foldl f a (List.range' lo len)) := by
  intro len
  induction len with
  | zero => intro lo a ha _; simpa using ha
  | succ n ih =>
      intro lo a ha hstep
      rw [List.range'_succ, List.foldl_cons]
      have h1 : P (lo + 1) (f a lo) :=
        hstep lo a (le_refl _) (by omega) ha
      have h2 := ih (lo + 1) (f a lo) h1
        (fun h b hh1 hh2 hb => hstep h b (by omega) (by omega) hb)
      rw [show lo + (n + 1) = lo + 1 + n by omega]
      exact h2

theorem foldl_range_inv {α : Type} (f : α → Nat → α) (P : Nat → α → Prop)
    (n : Nat) (a : α) (ha : P 0 a)
    (hstep : ∀ h b, h < n → P h b → P (h + 1) (f b h)) :
    P n (List.foldl f a (List.range n)) := by
  rw [List.range_eq_range']
  have hgen := foldl_range'_inv f P n 0 a ha
    (fun h b h1 h2 hb => hstep h b (by omega) hb)
  simpa using hgen

/-! ### MergeValue basics -/

theorem MergeValue.isZero_iff {m : MergeValue} : m.isZero = true ↔ m = .zero := by
  cases m <;> simp [MergeValue.isZero]

theorem merge_eq_zero_iff {Hf : HashFn} {h p : Nat} {l r : MergeValue} :
    merge Hf h p l r = .zero ↔ l = .zero ∧ r = .zero := by
  unfold merge
  rcases l with _ | lv <;> rcases r with _ | rv <;>
    simp [MergeValue.isZero]

theorem MergeValue.fromH256_zero : MergeValue.fromH256 0 = .zero := by
  simp [MergeValue.fromH256]

/-! ### The canonical value of a subtree

nodeVal Hf L h p is the merge value of the subtree at level h over the keys
whose bits at indices of at least h agree with p; the tree invariant Inv says
every persisted branch holds exactly the canonical values of its two child
subtrees, and the root the hash of the whole tree's canonical value. -/

def nodeVal (Hf : HashFn) (L : Nat → Option Nat) : Nat → Nat → MergeValue
  | 0, p => MergeValue.fromH256 ((L p).getD 0)
  | h + 1, p => merge Hf h p (nodeVal Hf L h p) (nodeVal Hf L h (p + 2 ^ h))

/-- The branch the recompute loops persist at (h, p): some branch holding the
canonical child values when one of them is non-Zero, none otherwise. -/
def canonBranch (Hf : HashFn) (L : Nat → Option Nat) (h : Nat) (p : Nat) :
    Option BranchNode :=
  if nodeVal Hf L h p = .zero ∧ nodeVal Hf L h (p + 2 ^ h) = .zero then none
  else some ⟨nodeVal Hf L h p, nodeVal Hf L h (p + 2 ^ h)⟩

/-- The root determined by a leaf map. -/
def rootOf (Hf : HashFn) (L : Nat → Option Nat) : Nat :=
  (nodeVal Hf L 256 0).hash

/-- The invariant of a well-formed tree store: leaves are never stored with
value zero, every valid branch key carries exactly the canonical branch of
the current leaf map, no other branch key is populated, and the root cell
holds the canonical root. -/
structure Inv (Hf : HashFn) (s : Store) : Prop where
  leavesNonzero : ∀ k v, s.leaves k = some v → v ≠ 0
  branchesCanon : ∀ h p, h ≤ 255 → p < 2 ^ 256 → p % 2 ^ (h + 1) = 0 →
    s.branches (h, p) = canonBranch Hf s.leaves h p
  branchesOff : ∀ h p, ¬(h ≤ 255 ∧ p < 2 ^ 256 ∧ p % 2 ^ (h + 1) = 0) →
    s.branches (h, p) = none
  rootCanon : s.root = rootOf Hf s.leaves

theorem nodeVal_congr {Hf : HashFn} {L L' : Nat → Option Nat} :
    ∀ h p, p % 2 ^ h = 0 → (∀ j, clearLow h j = p → L j = L' j) →
    nodeVal Hf L h p = nodeVal Hf L' h p := by
  intro h
  induction h with
  | zero =>
      intro p _ hag
      have hp := hag p (clearLow_zero p)
      simp [nodeVal, hp]
  | succ g ih =>
      intro p hal hag
      have halg : p % 2 ^ g = 0 := aligned_of_aligned_succ hal
      have halr : (p + 2 ^ g) % 2 ^ g = 0 := aligned_add_pow halg
      rw [nodeVal, nodeVal,
        ih p halg (fun j hj => hag j ((clearLow_succ_split hal).mpr (Or.inl hj))),
        ih (p + 2 ^ g) halr (fun j hj => hag j ((clearLow_succ_split hal).mpr (Or.inr hj)))]

theorem canonBranch_congr {Hf : HashFn} {L L' : Nat → Option Nat} {h p : Nat}
    (hal : p % 2 ^ (h + 1) = 0)
    (hag : ∀ j, clearLow (h + 1) j = p → L j = L' j) :
    canonBranch Hf L h p = canonBranch Hf L' h p := by
  have halg : p % 2 ^ h = 0 := aligned_of_aligned_succ hal
  have hl := @nodeVal_congr Hf L L' h p halg
    (fun j hj => hag j ((clearLow_succ_split hal).mpr (Or.inl hj)))
  have hr := @nodeVal_congr Hf L L' h (p + 2 ^ h) (aligned_add_pow halg)
    (fun j hj => hag j ((clearLow_succ_split hal).mpr (Or.inr hj)))
  rw [canonBranch, canonBranch, hl, hr]

/-- Removing a key from the leaf map keeps Zero subtrees Zero. -/
theorem nodeVal_zero_remove {Hf : HashFn} {L : Nat → Option Nat} {k : Nat} :
    ∀ h p, nodeVal Hf L h p = .zero →
    nodeVal Hf (fun j => if j = k then none else L j) h p = .zero := by
  intro h
  induction h with
  | zero =>
      intro p hz
      by_cases hp : p = k
      · simp [nodeVal, hp, MergeValue.fromH256]
      · simpa [nodeVal, hp] using hz
  | succ g ih =>
      intro p hz
      rw [nodeVal] at hz ⊢
      rcases merge_eq_zero_iff.mp hz with ⟨hzl, hzr⟩
      rw [merge_eq_zero_iff]
      exact ⟨ih p hzl, ih (p + 2 ^ g) hzr⟩

/-- The canonical behavior of the shared per-node body: when the store holds
the old canonical branch at the parent key, the current value is the new
canonical value of the node's subtree, and the sibling subtree has the same
canonical value under the old and new leaf maps, the body persists exactly
the new canonical branch and emits the new canonical parent value. -/
theorem levelNode_canon (Hf : HashFn) (L L' : Nat → Option Nat) (h : Nat)
    (s : Store) (ck : Nat) (cv : MergeValue)
    (hal : ck % 2 ^ h = 0)
    (hread : s.branches (h, clearLow (h + 1) ck) =
      canonBranch Hf L h (clearLow (h + 1) ck))
    (hcv : cv = nodeVal Hf L' h ck)
    (hsib : nodeVal Hf L h
        (if ck.testBit h = true then clearLow (h + 1) ck
         else clearLow (h + 1) ck + 2 ^ h) =
      nodeVal Hf L' h
        (if ck.testBit h = true then clearLow (h + 1) ck
         else clearLow (h + 1) ck + 2 ^ h)) :
    levelNode Hf h s ck cv =
      (⟨fun j => if j = (h, clearLow (h + 1) ck)
          then canonBranch Hf L' h (clearLow (h + 1) ck) else s.branches j,
        s.leaves, s.root⟩,
       (clearLow (h + 1) ck, nodeVal Hf L' (h + 1) (clearLow (h + 1) ck))) := by
  have hck : clearLow h ck = ck := clearLow_of_aligned hal
  set P := clearLow (h + 1) ck with hPdef
  have hlr : fetchChildren s h ck cv =
      (nodeVal Hf L' h P, nodeVal Hf L' h (P + 2 ^ h)) := by
    unfold fetchChildren
    simp only [parentPath]
    rw [← hPdef, hread]
    rcases Bool.eq_false_or_eq_true (ck.testBit h) with htb | htb
    · -- the node is the right child: ck = P + 2 ^ h, the sibling is P
      have hckP : ck = P + 2 ^ h := by
        conv_lhs => rw [← hck]
        rw [clearLow_succ_of_testBit_true htb, hPdef]
      rw [htb, if_pos rfl] at hsib
      rw [canonBranch]
      by_cases hz : nodeVal Hf L h P = .zero ∧
          nodeVal Hf L h (P + 2 ^ h) = .zero
      · rw [if_pos hz]
        simp only [isRight, htb, if_true]
        rw [hcv, ← hsib, hz.1, ← hckP]
      · rw [if_neg hz]
        simp only [isRight, htb, if_true]
        rw [hcv, ← hsib, ← hckP]
    · -- the node is the left child: ck = P, the sibling is P + 2 ^ h
      have hckP : ck = P := by
        conv_lhs => rw [← hck]
        rw [← clearLow_succ_of_testBit_false htb, hPdef]
      rw [htb, if_neg (by simp)] at hsib
      rw [canonBranch]
      by_cases hz : nodeVal Hf L h P = .zero ∧
          nodeVal Hf L h (P + 2 ^ h) = .zero
      · rw [if_pos hz]
        simp only [isRight, htb, if_false]
        rw [hcv, ← hsib, hz.2, ← hckP]
        simp
      · rw [if_neg hz]
        simp only [isRight, htb, if_false]
        rw [hcv, ← hsib, ← hckP]
        simp
  have hwb : writeBranch s (h, P) (nodeVal Hf L' h P) (nodeVal Hf L' h (P + 2 ^ h)) =
      ⟨fun j => if j = (h, P) then canonBranch Hf L' h P else s.branches j,
       s.leaves, s.root⟩ := by
    rw [writeBranch, canonBranch]
    by_cases hz : nodeVal Hf L' h P = .zero ∧ nodeVal Hf L' h (P + 2 ^ h) = .zero
    · rw [if_pos hz, hz.1, hz.2]
      rfl
    · rw [if_neg hz]
      have hcond : (!(nodeVal Hf L' h P).isZero ||
          !(nodeVal Hf L' h (P + 2 ^ h)).isZero) = true := by
        rcases hx : nodeVal Hf L' h P with _ | a <;>
          rcases hy : nodeVal Hf L' h (P + 2 ^ h) with _ | b <;>
          simp_all [MergeValue.isZero]
      rw [hcond]
      rfl
  have hdef : levelNode Hf h s ck cv =
      (writeBranch s (h, parentPath h ck) (fetchChildren s h ck cv).1
        (fetchChildren s h ck cv).2,
       (parentPath h ck, merge Hf h (parentPath h ck) (fetchChildren s h ck cv).1
        (fetchChildren s h ck cv).2)) := rfl
  rw [hdef, hlr]
  simp only [parentPath]
  rw [← hPdef, hwb, nodeVal]

/-- The specification of the hash_recompute loop: starting from branches that
are canonical for the old leaf map L, with the leaf map already rewritten to
the new map L', recomputing along a key rewrites exactly the branches on the
key's path to the canonical branches of the new map, and stores and returns
the canonical root of the new map. -/
theorem hashRecompute_spec (Hf : HashFn) (L L' : Nat → Option Nat)
    (key : Nat) (node : MergeValue) (s1 : Store)
    (hk : key < 2 ^ 256)
    (hbr : ∀ h p, h ≤ 255 → p < 2 ^ 256 → p % 2 ^ (h + 1) = 0 →
      s1.branches (h, p) = canonBranch Hf L h p)
    (hag : ∀ j, j ≠ key → L j = L' j)
    (hnode : node = nodeVal Hf L' 0 key) :
    (hashRecompute Hf key node s1).1.leaves = s1.leaves ∧
    (hashRecompute Hf key node s1).2 = rootOf Hf L' ∧
    (hashRecompute Hf key node s1).1.root = rootOf Hf L' ∧
    (∀ h p, h ≤ 255 → p < 2 ^ 256 → p % 2 ^ (h + 1) = 0 →
      (hashRecompute Hf key node s1).1.branches (h, p) =
        if p = clearLow (h + 1) key then canonBranch Hf L' h p
        else s1.branches (h, p)) ∧
    (∀ bk, (hashRecompute Hf key node s1).1.branches bk = s1.branches bk ∨
      ∃ h, h ≤ 255 ∧ bk = (h, clearLow (h + 1) key)) := by
  have key_lemma :
      ∀ st, st = (List.range 256).foldl (recomputeStep Hf) (key, node, s1) →
      st.1 = clearLow 256 key ∧
      st.2.1 = nodeVal Hf L' 256 (clearLow 256 key) ∧
      st.2.2.leaves = s1.leaves ∧
      st.2.2.root = s1.root ∧
      (∀ h' p, h' ≤ 255 → p < 2 ^ 256 → p % 2 ^ (h' + 1) = 0 →
        st.2.2.branches (h', p) =
          if p = clearLow (h' + 1) key then canonBranch Hf L' h' p
          else s1.branches (h', p)) ∧
      (∀ bk, st.2.2.branches bk = s1.branches bk ∨
        ∃ h, h ≤ 255 ∧ bk = (h, clearLow (h + 1) key)) := by
    intro st hst
    subst hst
    have main := foldl_range_inv (recomputeStep Hf)
      (fun h st =>
        st.1 = clearLow h key ∧
        st.2.1 = nodeVal Hf L' h (clearLow h key) ∧
        st.2.2.leaves = s1.leaves ∧
        st.2.2.root = s1.root ∧
        (∀ h' p, h' ≤ 255 → p < 2 ^ 256 → p % 2 ^ (h' + 1) = 0 →
          st.2.2.branches (h', p) =
            if h' < h ∧ p = clearLow (h' + 1) key then canonBranch Hf L' h' p
            else s1.branches (h', p)) ∧
        (∀ bk, st.2.2.branches bk = s1.branches bk ∨
          ∃ g, g ≤ 255 ∧ bk = (g, clearLow (g + 1) key)))
      256 (key, node, s1) ?base ?step
    · refine ⟨main.1, ?_, main.2.2.1, main.2.2.2.1, ?_, main.2.2.2.2.2⟩
      · rw [main.2.1]
      · intro h' p hh hp hal
        have := main.2.2.2.2.1 h' p hh hp hal
        rw [this]
        by_cases hcase : p = clearLow (h' + 1) key
        · simp [hcase, show h' < 256 by omega]
        · simp [hcase]
    case base =>
      refine ⟨(clearLow_zero key).symm, ?_, rfl, rfl, ?_, fun bk => Or.inl rfl⟩
      · rw [clearLow_zero]
        exact hnode
      · intro h' p _ _ _
        simp
    case step =>
      intro h st hh hP
      obtain ⟨hck, hcn, hlv, hrt, hbrs, hframe⟩ := hP
      set P := clearLow (h + 1) key with hPdef
      clear_value P
      have hPal : P % 2 ^ (h + 1) = 0 := by
        rw [hPdef]
        exact clearLow_aligned _ _
      have hPlt : P < 2 ^ 256 := by
        rw [hPdef]
        exact clearLow_lt hk
      have hpk : parentPath h st.1 = P := by
        rw [hck, parentPath, clearLow_clearLow (Nat.le_succ h)]
        exact hPdef.symm
      have hbit : st.1.testBit h = key.testBit h := by
        rw [hck]
        exact testBit_clearLow_ge (le_refl h) key
      have hread : st.2.2.branches (h, P) = canonBranch Hf L h P := by
        have := hbrs h P (by omega) hPlt hPal
        rw [this, if_neg]
        · exact hbr h P (by omega) hPlt hPal
        · rintro ⟨hlt, _⟩
          omega
      have halP : P % 2 ^ h = 0 := aligned_of_aligned_succ hPal
      have halck : st.1 % 2 ^ h = 0 := by
        rw [hck]
        exact clearLow_aligned h key
      have hckP : clearLow (h + 1) st.1 = P := by
        rw [hck, hPdef, clearLow_clearLow (Nat.le_succ h)]
      have hcv : st.2.1 = nodeVal Hf L' h st.1 := by
        rw [hcn, hck]
      have hread' : st.2.2.branches (h, clearLow (h + 1) st.1) =
          canonBranch Hf L h (clearLow (h + 1) st.1) := by
        rw [hckP]
        exact hread
      have hsib : nodeVal Hf L h
          (if st.1.testBit h = true then clearLow (h + 1) st.1
           else clearLow (h + 1) st.1 + 2 ^ h) =
          nodeVal Hf L' h
          (if st.1.testBit h = true then clearLow (h + 1) st.1
           else clearLow (h + 1) st.1 + 2 ^ h) := by
        rw [hckP, hbit]
        rcases Bool.eq_false_or_eq_true (key.testBit h) with htb | htb
        · rw [htb, if_pos rfl]
          refine nodeVal_congr h P halP (fun j hj => hag j ?_)
          intro hjk
          subst hjk
          rw [clearLow_succ_of_testBit_true htb, ← hPdef] at hj
          have hpos : 0 < 2 ^ h := Nat.pos_pow_of_pos h (by norm_num)
          omega
        · rw [htb, if_neg (by simp)]
          refine nodeVal_congr h (P + 2 ^ h) (aligned_add_pow halP)
            (fun j hj => hag j ?_)
          intro hjk
          subst hjk
          rw [← clearLow_succ_of_testBit_false htb, ← hPdef] at hj
          have hpos : 0 < 2 ^ h := Nat.pos_pow_of_pos h (by norm_num)
          omega
      have hstep := levelNode_canon Hf L L' h st.2.2 st.1 st.2.1 halck hread' hcv hsib
      have hrs : recomputeStep Hf st h =
          ((levelNode Hf h st.2.2 st.1 st.2.1).2.1,
           (levelNode Hf h st.2.2 st.1 st.2.1).2.2,
           (levelNode Hf h st.2.2 st.1 st.2.1).1) := rfl
      rw [hrs, hstep]
      rw [hckP]
      refine ⟨rfl, rfl, hlv, hrt, ?_, ?_⟩
      · intro h' p hh' hp' hal'
        by_cases hcase : (h', p) = ((h : Nat), P)
        · rw [Prod.mk.injEq] at hcase
          obtain ⟨rfl, rfl⟩ := hcase
          rw [if_pos (And.intro (Nat.lt_succ_self _) hPdef)]
          simp
        · simp only [if_neg hcase]
          rw [hbrs h' p hh' hp' hal']
          by_cases hc2 : h' < h ∧ p = clearLow (h' + 1) key
          · rw [if_pos hc2, if_pos ⟨by omega, hc2.2⟩]
          · rw [if_neg hc2, if_neg]
            rintro ⟨hlt, hpe⟩
            rcases Nat.lt_or_ge h' h with hlt2 | hge
            · exact hc2 ⟨hlt2, hpe⟩
            · have hhe : h' = h := by omega
              subst hhe
              exact hcase (by rw [hpe, hPdef])
      · intro bk
        by_cases hcase : bk = ((h : Nat), P)
        · exact Or.inr ⟨h, by omega, by rw [hcase, hPdef]⟩
        · simp only [if_neg hcase]
          exact hframe bk
  have hfin := key_lemma ((List.range 256).foldl (recomputeStep Hf) (key, node, s1)) rfl
  have hdef0 : hashRecompute Hf key node s1 =
      (updateRoot ((List.range 256).foldl (recomputeStep Hf) (key, node, s1)).2.2
        ((List.range 256).foldl (recomputeStep Hf) (key, node, s1)).2.1.hash,
       ((List.range 256).foldl (recomputeStep Hf) (key, node, s1)).2.1.hash) := rfl
  set F := (List.range 256).foldl (recomputeStep Hf) (key, node, s1) with hF
  clear_value F
  obtain ⟨hK, hN, hLv, hRt, hBr, hFr⟩ := hfin
  have h256 : clearLow 256 key = 0 := clearLow_ge_256 hk (le_refl 256)
  rw [hdef0]
  have hhash : F.2.1.hash = rootOf Hf L' := by
    rw [hN, h256, rootOf]
  exact ⟨hLv, hhash, hhash, fun h p hh hp hal => hBr h p hh hp hal, hFr⟩

/-- The effect of one update (or removal, when v is zero) on the leaf map. -/
def leafUpdate (k v : Nat) (L : Nat → Option Nat) : Nat → Option Nat :=
  fun j => if j = k then (if v = 0 then none else some v) else L j

theorem nodeVal_empty (Hf : HashFn) : ∀ h p, nodeVal Hf (fun _ => none) h p = .zero := by
  intro h
  induction h with
  | zero => intro p; simp [nodeVal, MergeValue.fromH256]
  | succ g ih =>
      intro p
      rw [nodeVal, merge_eq_zero_iff]
      exact ⟨ih p, ih (p + 2 ^ g)⟩

/-- The fresh store satisfies the tree invariant. -/
theorem inv_empty (Hf : HashFn) : Inv Hf emptyStore := by
  refine ⟨?_, ?_, ?_, ?_⟩
  · intro k v hkv
    simp [emptyStore] at hkv
  · intro h p _ _ _
    show none = canonBranch Hf (fun _ => none) h p
    rw [canonBranch, if_pos ⟨nodeVal_empty Hf h p, nodeVal_empty Hf h (p + 2 ^ h)⟩]
  · intro h p _
    rfl
  · show (0 : Nat) = rootOf Hf (fun _ => none)
    rw [rootOf, nodeVal_empty]
    rfl

/-- remove is update with the zero value (tree.rs lines 82-86 vs 90-101). -/
theorem removeKey_eq_update_zero (Hf : HashFn) (k : Nat) (s : Store) :
    removeKey Hf k s = update Hf k 0 s := rfl

/-- update preserves the tree invariant, rewrites the leaf map at exactly the
updated key, and stores and returns the canonical root of the new leaf map. -/
theorem update_inv (Hf : HashFn) (s : Store) (k v : Nat) (hInv : Inv Hf s)
    (hk : k < 2 ^ 256) :
    Inv Hf (update Hf k v s).1 ∧
    (update Hf k v s).1.leaves = leafUpdate k v s.leaves ∧
    (update Hf k v s).2 = rootOf Hf (leafUpdate k v s.leaves) ∧
    (update Hf k v s).1.root = (update Hf k v s).2 := by
  set L := s.leaves with hL
  set L' := leafUpdate k v s.leaves with hL'
  set node := MergeValue.fromH256 v with hnodedef
  set s1 : Store := if !node.isZero then insertLeaf s k v else removeLeaf s k
    with hs1
  have hupd : update Hf k v s = hashRecompute Hf k node s1 := rfl
  have hs1br : s1.branches = s.branches := by
    rw [hs1]
    rcases node with _ | nv <;> simp [insertLeaf, removeLeaf, MergeValue.isZero]
  have hs1lv : s1.leaves = L' := by
    funext j
    rw [hs1, hL', leafUpdate]
    by_cases hv : v = 0
    · have hz : node = .zero := by rw [hnodedef, hv, MergeValue.fromH256_zero]
      rw [hz]
      simp [removeLeaf, MergeValue.isZero, hv]
    · have hz : node = .value v := by
        rw [hnodedef, MergeValue.fromH256, if_neg hv]
      rw [hz]
      simp [insertLeaf, MergeValue.isZero, hv]
  have hs1rt : s1.root = s.root := by
    rw [hs1]
    rcases node with _ | nv <;> simp [insertLeaf, removeLeaf, MergeValue.isZero]
  have hag : ∀ j, j ≠ k → L j = L' j := by
    intro j hj
    rw [hL', leafUpdate, if_neg hj]
  have hnode : node = nodeVal Hf L' 0 k := by
    rw [nodeVal, hL', leafUpdate, if_pos rfl]
    by_cases hv : v = 0
    · simp [hv, hnodedef, MergeValue.fromH256]
    · simp [hv, hnodedef, MergeValue.fromH256]
  have hbr1 : ∀ h p, h ≤ 255 → p < 2 ^ 256 → p % 2 ^ (h + 1) = 0 →
      s1.branches (h, p) = canonBranch Hf L h p := by
    intro h p hh hp hal
    rw [hs1br]
    exact hInv.branchesCanon h p hh hp hal
  have hspec := hashRecompute_spec Hf L L' k node s1 hk hbr1 hag hnode
  obtain ⟨hLv, hRoot, hRootS, hBr, hFr⟩ := hspec
  rw [hupd]
  have hlv2 : (hashRecompute Hf k node s1).1.leaves = L' := by
    rw [hLv, hs1lv]
  refine ⟨⟨?_, ?_, ?_, ?_⟩, hlv2, hRoot, by rw [hRootS, hRoot]⟩
  · intro j w hj
    rw [hlv2, hL'] at hj
    simp only [leafUpdate] at hj
    by_cases hjk : j = k
    · rw [if_pos hjk] at hj
      by_cases hv : v = 0
      · rw [if_pos hv] at hj
        exact Option.noConfusion hj
      · rw [if_neg hv] at hj
        injection hj with hvw
        omega
    · rw [if_neg hjk] at hj
      exact hInv.leavesNonzero j w hj
  · intro h p hh hp hal
    rw [hlv2, hBr h p hh hp hal]
    by_cases hpath : p = clearLow (h + 1) k
    · rw [if_pos hpath]
    · rw [if_neg hpath, hs1br, hInv.branchesCanon h p hh hp hal]
      refine canonBranch_congr hal (fun j hj => hag j ?_)
      intro hjk
      subst hjk
      exact hpath hj.symm
  · intro h p hbad
    rcases hFr (h, p) with hsame | ⟨g, hg, hgeq⟩
    · rw [hsame, hs1br]
      exact hInv.branchesOff h p hbad
    · exfalso
      rw [Prod.mk.injEq] at hgeq
      obtain ⟨rfl, rfl⟩ := hgeq
      exact hbad ⟨hg, clearLow_lt hk, clearLow_aligned _ _⟩
  · rw [hlv2]
    exact hRootS

/-! ### No persisted branch has two Zero children -/

theorem insertBranch_branches (s : Store) (bk : BranchKey) (b : BranchNode)
    (j : BranchKey) :
    (insertBranch s bk b).branches j = if j = bk then some b else s.branches j := rfl

theorem removeBranch_branches (s : Store) (bk : BranchKey) (j : BranchKey) :
    (removeBranch s bk).branches j = if j = bk then none else s.branches j := rfl

/-- Every branch present in the store has at least one non-Zero child. -/
def GoodBranches (s : Store) : Prop :=
  ∀ bk b, s.branches bk = some b → ¬(b.left = .zero ∧ b.right = .zero)

theorem goodBranches_writeBranch {s : Store} (hs : GoodBranches s)
    (bk : BranchKey) (l r : MergeValue) : GoodBranches (writeBranch s bk l r) := by
  rw [writeBranch]
  by_cases hc : (!l.isZero || !r.isZero) = true
  · rw [if_pos hc]
    intro bk' b hb
    rw [insertBranch_branches] at hb
    by_cases hbk : bk' = bk
    · rw [if_pos hbk] at hb
      injection hb with hb
      subst hb
      rintro ⟨hl, hr⟩
      have hl2 : l = MergeValue.zero := hl
      have hr2 : r = MergeValue.zero := hr
      rw [hl2, hr2] at hc
      exact Bool.noConfusion hc
    · rw [if_neg hbk] at hb
      exact hs bk' b hb
  · rw [if_neg hc]
    intro bk' b hb
    rw [removeBranch_branches] at hb
    by_cases hbk : bk' = bk
    · rw [if_pos hbk] at hb
      exact Option.noConfusion hb
    · rw [if_neg hbk] at hb
      exact hs bk' b hb

theorem goodBranches_levelNode {s : Store} (hs : GoodBranches s)
    (Hf : HashFn) (h : Nat) (ck : Nat) (cv : MergeValue) :
    GoodBranches (levelNode Hf h s ck cv).1 :=
  goodBranches_writeBranch hs _ _ _

theorem goodBranches_hashRecompute {s : Store} (hs : GoodBranches s)
    (Hf : HashFn) (k : Nat) (n : MergeValue) :
    GoodBranches (hashRecompute Hf k n s).1 := by
  have hfold := foldl_range_inv (recomputeStep Hf)
    (fun _ st => GoodBranches st.2.2) 256 (k, n, s) hs
    (fun h st _ hst => goodBranches_levelNode hst Hf h st.1 st.2.1)
  have hdef0 : hashRecompute Hf k n s =
      (updateRoot ((List.range 256).foldl (recomputeStep Hf) (k, n, s)).2.2
        ((List.range 256).foldl (recomputeStep Hf) (k, n, s)).2.1.hash,
       ((List.range 256).foldl (recomputeStep Hf) (k, n, s)).2.1.hash) := rfl
  set F := (List.range 256).foldl (recomputeStep Hf) (k, n, s) with hF
  clear_value F
  rw [hdef0]
  intro bk b hb
  exact hfold bk b hb

theorem goodBranches_update {s : Store} (hs : GoodBranches s)
    (Hf : HashFn) (k v : Nat) : GoodBranches (update Hf k v s).1 := by
  have hs1 : GoodBranches
      (if !(MergeValue.fromH256 v).isZero then insertLeaf s k v
       else removeLeaf s k) := by
    split <;> exact hs
  exact goodBranches_hashRecompute hs1 Hf k _

/-- The cons-cons unfolding of levelRun, stated with the lets expanded. -/
theorem levelRun_cons_cons (Hf : HashFn) (h : Nat) (s : Store) (ck : Nat)
    (cv : MergeValue) (nk : Nat) (nv : MergeValue)
    (rest : List (Nat × MergeValue)) :
    levelRun Hf h s ((ck, cv) :: (nk, nv) :: rest)
      = if !isRight h ck && (setBit h ck == nk) then
          ((levelRun Hf h (writeBranch s (h, parentPath h ck) cv nv) rest).1,
           (parentPath h ck, merge Hf h (parentPath h ck) cv nv)
             :: (levelRun Hf h (writeBranch s (h, parentPath h ck) cv nv) rest).2)
        else
          ((levelRun Hf h (levelNode Hf h s ck cv).1 ((nk, nv) :: rest)).1,
           (levelNode Hf h s ck cv).2
             :: (levelRun Hf h (levelNode Hf h s ck cv).1 ((nk, nv) :: rest)).2) := rfl

theorem goodBranches_levelRun {Hf : HashFn} {h : Nat} :
    ∀ (s : Store) (ns : List (Nat × MergeValue)), GoodBranches s →
    GoodBranches (levelRun Hf h s ns).1 := by
  intro s ns
  induction s, ns using levelRun.induct Hf h with
  | case1 s => intro hs; exact hs
  | case2 s ck cv =>
      intro hs
      rw [levelRun]
      exact goodBranches_levelNode hs Hf h ck cv
  | case3 s ck cv nk nv rest hcond =>
      rename_i pk s1 ih
      intro hs
      rw [levelRun_cons_cons, if_pos hcond]
      exact ih (goodBranches_writeBranch hs _ _ _)
  | case4 s ck cv nk nv rest hcond =>
      rename_i r0 ih
      intro hs
      rw [levelRun_cons_cons, if_neg hcond]
      exact ih (goodBranches_levelNode hs Hf h ck cv)

theorem hashRecomputeAll_cons (Hf : HashFn) (ns : List (Nat × MergeValue))
    (s : Store) (nd : Nat × MergeValue) (tl : List (Nat × MergeValue))
    (hfin : (levelsRun Hf ns s).2 = nd :: tl) :
    hashRecomputeAll Hf ns s
      = some (updateRoot (levelsRun Hf ns s).1 nd.2.hash, nd.2.hash) := by
  have h2 : levelsRun Hf ns s = ((levelsRun Hf ns s).1, nd :: tl) := by
    rw [← hfin]
  rw [hashRecomputeAll, h2]

theorem hashRecomputeAll_nil (Hf : HashFn) (ns : List (Nat × MergeValue))
    (s : Store) (hfin : (levelsRun Hf ns s).2 = []) :
    hashRecomputeAll Hf ns s = none := by
  have h2 : levelsRun Hf ns s = ((levelsRun Hf ns s).1, []) := by
    rw [← hfin]
  rw [hashRecomputeAll, h2]

theorem goodBranches_hashRecomputeAll {s : Store} (hs : GoodBranches s)
    (Hf : HashFn) (ns : List (Nat × MergeValue)) (s' : Store) (r : Nat)
    (hrun : hashRecomputeAll Hf ns s = some (s', r)) : GoodBranches s' := by
  have hfold := foldl_range_inv (fun st h => levelRun Hf h st.1 st.2)
    (fun _ st => GoodBranches st.1) 256 (s, ns) hs
    (fun h st _ hst => goodBranches_levelRun st.1 st.2 hst)
  have hlr : levelsRun Hf ns s
      = (List.range 256).foldl (fun st h => levelRun Hf h st.1 st.2) (s, ns) := rfl
  rw [← hlr] at hfold
  obtain ⟨F, hF⟩ : ∃ F, levelsRun Hf ns s = F := ⟨_, rfl⟩
  rw [hF] at hfold
  rcases hfin : F.2 with _ | ⟨nd, tl⟩
  · rw [hashRecomputeAll_nil Hf ns s (by rw [hF, hfin])] at hrun
    exact Option.noConfusion hrun
  · rw [hashRecomputeAll_cons Hf ns s nd tl (by rw [hF, hfin]), hF] at hrun
    injection hrun with hrun
    rw [Prod.mk.injEq] at hrun
    have hs2 : s' = updateRoot F.1 nd.2.hash := hrun.1.symm
    rw [hs2]
    intro bk b hb
    exact hfold bk b hb

theorem foldl_pres {α β : Type} (f : α → β → α) (P : α → Prop)
    (hf : ∀ a b, P a → P (f a b)) :
    ∀ (l : List β) (a : α), P a → P (l.foldl f a) := by
  intro l
  induction l with
  | nil => intro a ha; exact ha
  | cons x xs ih =>
      intro a ha
      rw [List.foldl_cons]
      exact ih (f a x) (hf a x ha)

theorem goodBranches_writeLeafStep (st : Store × List (Nat × MergeValue))
    (p : Nat × Nat) (hst : GoodBranches st.1) :
    GoodBranches (writeLeafStep st p).1 := by
  rw [writeLeafStep]
  split <;> exact hst

theorem goodBranches_writeLeaves {s : Store} (hs : GoodBranches s)
    (pairs : List (Nat × Nat)) : GoodBranches (writeLeaves pairs s).1 := by
  rw [writeLeaves]
  exact foldl_pres writeLeafStep (fun st => GoodBranches st.1)
    (fun a b ha => goodBranches_writeLeafStep a b ha) pairs (s, []) hs

theorem goodBranches_updateAll {s : Store} (hs : GoodBranches s)
    (Hf : HashFn) (ps : List (Nat × Nat)) (s' : Store) (r : Nat)
    (hrun : updateAll Hf ps s = some (s', r)) : GoodBranches s' := by
  rw [updateAll] at hrun
  exact goodBranches_hashRecomputeAll
    (goodBranches_writeLeaves hs (normalizePairs ps)) Hf _ s' r hrun

theorem goodBranches_removeAll {s : Store} (hs : GoodBranches s)
    (Hf : HashFn) (ks : List Nat) (s' : Store) (r : Nat)
    (hrun : removeAll Hf ks s = some (s', r)) : GoodBranches s' := by
  rw [removeAll] at hrun
  refine goodBranches_hashRecomputeAll ?_ Hf _ s' r hrun
  exact foldl_pres removeLeafStep (fun st => GoodBranches st.1)
    (fun a b ha bk bb hb => ha bk bb hb) (normalizeKeys ks) (s, []) hs

/-- The mutations of the single-key tree, for stating invariants over every
operation sequence: update, remove, update_all and remove_all. -/
inductive Op where
  | upd : Nat → Nat → Op
  | rem : Nat → Op
  | updAll : List (Nat × Nat) → Op
  | remAll : List Nat → Op

/-- Run one mutation; none is the panic of a batch call on an empty batch. -/
def applyOp (Hf : HashFn) (op : Op) (s : Store) : Option Store :=
  match op with
  | .upd k v => some (update Hf k v s).1
  | .rem k => some (removeKey Hf k s).1
  | .updAll ps => (updateAll Hf ps s).map Prod.fst
  | .remAll ks => (removeAll Hf ks s).map Prod.fst

/-- Run a sequence of mutations from a starting store. -/
def applyOps (Hf : HashFn) : List Op → Store → Option Store
  | [], s => some s
  | op :: rest, s =>
      match applyOp Hf op s with
      | some s' => applyOps Hf rest s'
      | none => none

theorem goodBranches_applyOp {Hf : HashFn} {op : Op} {s s' : Store}
    (hs : GoodBranches s) (hrun : applyOp Hf op s = some s') :
    GoodBranches s' := by
  cases op with
  | upd k v =>
      injection hrun with hrun
      rw [← hrun]
      exact goodBranches_update hs Hf k v
  | rem k =>
      injection hrun with hrun
      rw [← hrun]
      rw [removeKey_eq_update_zero]
      exact goodBranches_update hs Hf k 0
  | updAll ps =>
      rw [applyOp] at hrun
      rcases hopt : updateAll Hf ps s with _ | pr
      · rw [hopt] at hrun
        exact Option.noConfusion hrun
      · rw [hopt] at hrun
        injection hrun with hrun
        rw [← hrun]
        exact goodBranches_updateAll hs Hf ps pr.1 pr.2 (by rw [hopt])
  | remAll ks =>
      rw [applyOp] at hrun
      rcases hopt : removeAll Hf ks s with _ | pr
      · rw [hopt] at hrun
        exact Option.noConfusion hrun
      · rw [hopt] at hrun
        injection hrun with hrun
        rw [← hrun]
        exact goodBranches_removeAll hs Hf ks pr.1 pr.2 (by rw [hopt])

/-- C7 supporting invariant: GoodBranches propagates along every run. -/
theorem goodBranches_applyOps {Hf : HashFn} :
    ∀ (ops : List Op) (s s' : Store), GoodBranches s →
    applyOps Hf ops s = some s' → GoodBranches s' := by
  intro ops
  induction ops with
  | nil =>
      intro s s' hs hrun
      injection hrun with hrun
      rw [← hrun]
      exact hs
  | cons op rest ih =>
      intro s s' hs hrun
      rw [applyOps] at hrun
      rcases hop : applyOp Hf op s with _ | s1
      · rw [hop] at hrun
        exact Option.noConfusion hrun
      · rw [hop] at hrun
        exact ih s1 s' (goodBranches_applyOp hs hop) hrun

theorem goodBranches_empty : GoodBranches emptyStore := by
  intro bk b hb
  exact Option.noConfusion hb

/-- A concrete instance of the Hasher capability used for evaluating the
model on concrete inputs (the library is generic over the hasher). -/
def toyHf : HashFn := fun h p l r => (1 + h + 3 * p + 5 * l + 7 * r) % 2 ^ 256

/-- C7: for every sequence of operations (update, remove, update_all,
remove_all) starting from an empty tree, every branch node present in the
store has at least one non-Zero child: a BranchNode with both children Zero
is never persisted. -/
theorem persisted_branch_child_nonzero (Hf : HashFn) (ops : List Op) (s : Store)
    (hrun : applyOps Hf ops emptyStore = some s) :
    ∀ bk b, s.branches bk = some b →
      ¬(b.left = MergeValue.zero ∧ b.right = MergeValue.zero) :=
  goodBranches_applyOps ops emptyStore s goodBranches_empty hrun

/-- Witness for C7 at the one-update run. -/
theorem persisted_branch_child_nonzero_witness :
    applyOps toyHf [Op.upd 0 1] emptyStore = some (update toyHf 0 1 emptyStore).1 ∧
    (∀ bk b, (update toyHf 0 1 emptyStore).1.branches bk = some b →
      ¬(b.left = MergeValue.zero ∧ b.right = MergeValue.zero)) :=
  ⟨rfl, persisted_branch_child_nonzero toyHf [Op.upd 0 1]
    (update toyHf 0 1 emptyStore).1 rfl⟩

/-! ### More bit arithmetic for the batch pass -/

theorem mod_succ_lt_of_testBit_false {h p : Nat} (hb : p.testBit h = false) :
    p % 2 ^ (h + 1) < 2 ^ h := by
  have hb2 : p / 2 ^ h % 2 = 0 := by
    rw [Nat.testBit_to_div_mod] at hb
    simp only [decide_eq_false_iff_not] at hb
    omega
  rw [pow_succ, Nat.mod_mul, hb2, Nat.mul_zero, Nat.add_zero]
  exact Nat.mod_lt _ (Nat.pos_pow_of_pos _ (by norm_num))

theorem clearLow_succ_add_of_testBit_false {h p : Nat}
    (hb : p.testBit h = false) :
    clearLow (h + 1) (p + 2 ^ h) = clearLow (h + 1) p := by
  have hlo := mod_succ_lt_of_testBit_false hb
  rw [clearLow_eq, clearLow_eq]
  congr 1
  have hdec := Nat.div_add_mod p (2 ^ (h + 1))
  have hsum : p + 2 ^ h = 2 ^ (h + 1) * (p / 2 ^ (h + 1)) + (p % 2 ^ (h + 1) + 2 ^ h) := by
    omega
  have hlt : p % 2 ^ (h + 1) + 2 ^ h < 2 ^ (h + 1) := by
    have hps : (2 : Nat) ^ (h + 1) = 2 ^ h * 2 := pow_succ 2 h
    omega
  rw [hsum, Nat.mul_add_div (Nat.pos_pow_of_pos _ (by norm_num)),
    Nat.div_eq_of_lt hlt, Nat.add_zero]

/-! ### The sorting and dedup helpers -/

theorem insertPair_perm (x : Nat × Nat) :
    ∀ l : List (Nat × Nat), (insertPair x l).Perm (x :: l) := by
  intro l
  induction l with
  | nil => exact List.Perm.refl _
  | cons y ys ih =>
      rw [insertPair]
      split
      · exact List.Perm.refl _
      · exact ((ih.cons y).trans (List.Perm.swap x y ys))

theorem insertPair_pairwise (x : Nat × Nat) :
    ∀ l : List (Nat × Nat), List.Pairwise (fun a b => a.1 ≤ b.1) l →
    List.Pairwise (fun a b => a.1 ≤ b.1) (insertPair x l) := by
  intro l
  induction l with
  | nil =>
      intro _
      exact List.pairwise_singleton _ _
  | cons y ys ih =>
      intro hp
      rw [List.pairwise_cons] at hp
      rw [insertPair]
      split
      · rw [List.pairwise_cons]
        constructor
        · intro a ha
          rcases List.mem_cons.mp ha with rfl | ha
          · omega
          · exact le_trans (by omega) (hp.1 a ha)
        · rw [List.pairwise_cons]
          exact hp
      · rw [List.pairwise_cons]
        constructor
        · intro a ha
          have := (insertPair_perm x ys).mem_iff.mp ha
          rcases List.mem_cons.mp this with rfl | ha2
          · omega
          · exact hp.1 a ha2
        · exact ih hp.2

theorem sortPairs_perm : ∀ l : List (Nat × Nat), (sortPairs l).Perm l := by
  intro l
  induction l with
  | nil => exact List.Perm.refl _
  | cons x xs ih =>
      rw [sortPairs]
      exact (insertPair_perm x (sortPairs xs)).trans (ih.cons x)

theorem sortPairs_pairwise (l : List (Nat × Nat)) :
    List.Pairwise (fun a b => a.1 ≤ b.1) (sortPairs l) := by
  induction l with
  | nil => exact List.Pairwise.nil
  | cons x xs ih =>
      rw [sortPairs]
      exact insertPair_pairwise x _ ih

theorem dedupFrom_subset (x : Nat × Nat) :
    ∀ l, ∀ a ∈ dedupFrom x l, a = x ∨ a ∈ l := by
  intro l
  induction l generalizing x with
  | nil =>
      intro a ha
      rw [dedupFrom] at ha
      exact Or.inl (List.mem_singleton.mp ha)
  | cons y rest ih =>
      intro a ha
      by_cases hxy : x.1 = y.1
      · rw [dedupFrom, if_pos hxy] at ha
        rcases ih x a ha with rfl | h2
        · exact Or.inl rfl
        · exact Or.inr (List.mem_cons_of_mem _ h2)
      · rw [dedupFrom, if_neg hxy] at ha
        rcases List.mem_cons.mp ha with rfl | h2
        · exact Or.inl rfl
        · rcases ih y a h2 with rfl | h3
          · exact Or.inr (List.mem_cons_self _ _)
          · exact Or.inr (List.mem_cons_of_mem _ h3)

theorem dedupPairs_subset :
    ∀ l : List (Nat × Nat), ∀ a ∈ dedupPairs l, a ∈ l := by
  intro l
  cases l with
  | nil => intro a ha; rw [dedupPairs] at ha; exact absurd ha (List.not_mem_nil a)
  | cons x rest =>
      intro a ha
      rw [dedupPairs] at ha
      rcases dedupFrom_subset x rest a ha with rfl | h2
      · exact List.mem_cons_self _ _
      · exact List.mem_cons_of_mem _ h2

theorem dedupFrom_strict (x : Nat × Nat) :
    ∀ l, List.Pairwise (fun a b : Nat × Nat => a.1 ≤ b.1) (x :: l) →
    List.Pairwise (fun a b : Nat × Nat => a.1 < b.1) (dedupFrom x l) := by
  intro l
  induction l generalizing x with
  | nil =>
      intro _
      rw [dedupFrom]
      exact List.pairwise_singleton _ _
  | cons y rest ih =>
      intro hp
      rw [List.pairwise_cons] at hp
      by_cases hxy : x.1 = y.1
      · rw [dedupFrom, if_pos hxy]
        refine ih x ?_
        rw [List.pairwise_cons]
        exact ⟨fun b hb => hp.1 b (List.mem_cons_of_mem _ hb),
          (List.pairwise_cons.mp hp.2).2⟩
      · rw [dedupFrom, if_neg hxy]
        rw [List.pairwise_cons]
        constructor
        · intro a ha
          have hxy2 : x.1 < y.1 :=
            lt_of_le_of_ne (hp.1 y (List.mem_cons_self _ _)) hxy
          rcases dedupFrom_subset y rest a ha with rfl | h2
          · exact hxy2
          · exact lt_of_lt_of_le hxy2 ((List.pairwise_cons.mp hp.2).1 a h2)
        · exact ih y hp.2

theorem dedupPairs_strict :
    ∀ l : List (Nat × Nat), List.Pairwise (fun a b => a.1 ≤ b.1) l →
    List.Pairwise (fun a b => a.1 < b.1) (dedupPairs l) := by
  intro l
  cases l with
  | nil => intro _; rw [dedupPairs]; exact List.Pairwise.nil
  | cons x rest =>
      intro hp
      rw [dedupPairs]
      exact dedupFrom_strict x rest hp

theorem insertNat_perm (x : Nat) :
    ∀ l : List Nat, (insertNat x l).Perm (x :: l) := by
  intro l
  induction l with
  | nil => exact List.Perm.refl _
  | cons y ys ih =>
      rw [insertNat]
      split
      · exact List.Perm.refl _
      · exact ((ih.cons y).trans (List.Perm.swap x y ys))

theorem insertNat_pairwise (x : Nat) :
    ∀ l : List Nat, List.Pairwise (· ≤ ·) l →
    List.Pairwise (· ≤ ·) (insertNat x l) := by
  intro l
  induction l with
  | nil =>
      intro _
      exact List.pairwise_singleton _ _
  | cons y ys ih =>
      intro hp
      rw [List.pairwise_cons] at hp
      rw [insertNat]
      split
      · rw [List.pairwise_cons]
        constructor
        · intro a ha
          rcases List.mem_cons.mp ha with rfl | ha
          · omega
          · exact le_trans (by omega) (hp.1 a ha)
        · rw [List.pairwise_cons]
          exact hp
      · rw [List.pairwise_cons]
        constructor
        · intro a ha
          have := (insertNat_perm x ys).mem_iff.mp ha
          rcases List.mem_cons.mp this with rfl | ha2
          · omega
          · exact hp.1 a ha2
        · exact ih hp.2

theorem sortNats_perm : ∀ l : List Nat, (sortNats l).Perm l := by
  intro l
  induction l with
  | nil => exact List.Perm.refl _
  | cons x xs ih =>
      rw [sortNats]
      exact (insertNat_perm x (sortNats xs)).trans (ih.cons x)

theorem sortNats_pairwise (l : List Nat) :
    List.Pairwise (· ≤ ·) (sortNats l) := by
  induction l with
  | nil => exact List.Pairwise.nil
  | cons x xs ih =>
      rw [sortNats]
      exact insertNat_pairwise x _ ih

theorem dedupNFrom_subset (x : Nat) :
    ∀ l, ∀ a ∈ dedupNFrom x l, a = x ∨ a ∈ l := by
  intro l
  induction l generalizing x with
  | nil =>
      intro a ha
      rw [dedupNFrom] at ha
      exact Or.inl (List.mem_singleton.mp ha)
  | cons y rest ih =>
      intro a ha
      by_cases hxy : x = y
      · rw [dedupNFrom, if_pos hxy] at ha
        rcases ih x a ha with rfl | h2
        · exact Or.inl rfl
        · exact Or.inr (List.mem_cons_of_mem _ h2)
      · rw [dedupNFrom, if_neg hxy] at ha
        rcases List.mem_cons.mp ha with rfl | h2
        · exact Or.inl rfl
        · rcases ih y a h2 with rfl | h3
          · exact Or.inr (List.mem_cons_self _ _)
          · exact Or.inr (List.mem_cons_of_mem _ h3)

theorem dedupNats_subset :
    ∀ l : List Nat, ∀ a ∈ dedupNats l, a ∈ l := by
  intro l
  cases l with
  | nil => intro a ha; rw [dedupNats] at ha; exact absurd ha (List.not_mem_nil a)
  | cons x rest =>
      intro a ha
      rw [dedupNats] at ha
      rcases dedupNFrom_subset x rest a ha with rfl | h2
      · exact List.mem_cons_self _ _
      · exact List.mem_cons_of_mem _ h2

theorem dedupNFrom_strict (x : Nat) :
    ∀ l, List.Pairwise (· ≤ ·) (x :: l) →
    List.Pairwise (· < ·) (dedupNFrom x l) := by
  intro l
  induction l generalizing x with
  | nil =>
      intro _
      rw [dedupNFrom]
      exact List.pairwise_singleton _ _
  | cons y rest ih =>
      intro hp
      rw [List.pairwise_cons] at hp
      by_cases hxy : x = y
      · rw [dedupNFrom, if_pos hxy]
        refine ih x ?_
        rw [List.pairwise_cons]
        exact ⟨fun b hb => hp.1 b (List.mem_cons_of_mem _ hb),
          (List.pairwise_cons.mp hp.2).2⟩
      · rw [dedupNFrom, if_neg hxy]
        rw [List.pairwise_cons]
        constructor
        · intro a ha
          have hxy2 : x < y :=
            lt_of_le_of_ne (hp.1 y (List.mem_cons_self _ _)) hxy
          rcases dedupNFrom_subset y rest a ha with rfl | h2
          · exact hxy2
          · exact lt_of_lt_of_le hxy2 ((List.pairwise_cons.mp hp.2).1 a h2)
        · exact ih y hp.2

theorem dedupNats_strict :
    ∀ l : List Nat, List.Pairwise (· ≤ ·) l →
    List.Pairwise (· < ·) (dedupNats l) := by
  intro l
  cases l with
  | nil => intro _; rw [dedupNats]; exact List.Pairwise.nil
  | cons x rest =>
      intro hp
      rw [dedupNats]
      exact dedupNFrom_strict x rest hp

/-- The keys of a normalized batch are strictly ascending. -/
theorem normalizePairs_strict (B : List (Nat × Nat)) :
    List.Pairwise (fun a b => a.1 < b.1) (normalizePairs B) :=
  dedupPairs_strict _ (sortPairs_pairwise _)

theorem normalizePairs_subset (B : List (Nat × Nat)) :
    ∀ a ∈ normalizePairs B, a ∈ B := by
  intro a ha
  have h1 := dedupPairs_subset _ a ha
  have h2 := (sortPairs_perm B.reverse).mem_iff.mp h1
  exact List.mem_reverse.mp h2

theorem normalizeKeys_strict (K : List Nat) :
    List.Pairwise (· < ·) (normalizeKeys K) :=
  dedupNats_strict _ (sortNats_pairwise _)

theorem normalizeKeys_subset (K : List Nat) :
    ∀ a ∈ normalizeKeys K, a ∈ K := by
  intro a ha
  have h1 := dedupNats_subset _ a ha
  have h2 := (sortNats_perm K.reverse).mem_iff.mp h1
  exact List.mem_reverse.mp h2

/-! ### The key shape of the batch recompute passes -/

/-- The pure key trace of one `levelRun` pass: the store plays no part in
which parent keys come out, only in the hashes. -/
def keysLevel (h : Nat) : List Nat → List Nat
  | [] => []
  | [p] => [parentPath h p]
  | p :: q :: rest =>
      if !isRight h p && (setBit h p == q) then
        parentPath h p :: keysLevel h rest
      else
        parentPath h p :: keysLevel h (q :: rest)
  termination_by l => l.length

theorem keysLevel_nil (h : Nat) : keysLevel h [] = [] := by
  rw [keysLevel.eq_def]

theorem keysLevel_singleton (h p : Nat) :
    keysLevel h [p] = [parentPath h p] := by
  rw [keysLevel.eq_def]

theorem keysLevel_cons_cons (h p q : Nat) (rest : List Nat) :
    keysLevel h (p :: q :: rest)
      = if !isRight h p && (setBit h p == q) then
          parentPath h p :: keysLevel h rest
        else parentPath h p :: keysLevel h (q :: rest) := by
  rw [keysLevel.eq_def]

theorem levelRun_keys (Hf : HashFn) (h : Nat) :
    ∀ (s : Store) (ns : List (Nat × MergeValue)),
    (levelRun Hf h s ns).2.map Prod.fst = keysLevel h (ns.map Prod.fst) := by
  intro s ns
  induction s, ns using levelRun.induct Hf h with
  | case1 s =>
      show ([] : List Nat) = keysLevel h []
      rw [keysLevel_nil]
  | case2 s ck cv =>
      show [parentPath h ck] = keysLevel h [ck]
      rw [keysLevel_singleton]
  | case3 s ck cv nk nv rest hcond =>
      rename_i pk s1 ih
      rw [levelRun_cons_cons, if_pos hcond]
      show parentPath h ck :: (levelRun Hf h s1 rest).2.map Prod.fst
        = keysLevel h (ck :: nk :: rest.map Prod.fst)
      rw [keysLevel_cons_cons, if_pos hcond, ih]
  | case4 s ck cv nk nv rest hcond =>
      rename_i r0 ih
      rw [levelRun_cons_cons, if_neg hcond]
      show parentPath h ck
          :: (levelRun Hf h r0.1 ((nk, nv) :: rest)).2.map Prod.fst
        = keysLevel h (ck :: nk :: rest.map Prod.fst)
      rw [keysLevel_cons_cons, if_neg hcond, ih]
      rfl

theorem keysLevel_mem (h : Nat) :
    ∀ ks : List Nat, ∀ y ∈ keysLevel h ks, ∃ t ∈ ks, parentPath h t = y := by
  intro ks
  induction ks using keysLevel.induct h with
  | case1 =>
      intro y hy
      rw [keysLevel_nil] at hy
      exact absurd hy (List.not_mem_nil y)
  | case2 p =>
      intro y hy
      rw [keysLevel_singleton, List.mem_singleton] at hy
      exact ⟨p, List.mem_cons_self _ _, hy.symm⟩
  | case3 p q rest hcond ih =>
      intro y hy
      rw [keysLevel_cons_cons, if_pos hcond] at hy
      rcases List.mem_cons.mp hy with rfl | hy2
      · exact ⟨p, List.mem_cons_self _ _, rfl⟩
      · rcases ih y hy2 with ⟨t, ht, hpp⟩
        exact ⟨t, List.mem_cons_of_mem _ (List.mem_cons_of_mem _ ht), hpp⟩
  | case4 p q rest hcond ih =>
      intro y hy
      rw [keysLevel_cons_cons, if_neg hcond] at hy
      rcases List.mem_cons.mp hy with rfl | hy2
      · exact ⟨p, List.mem_cons_self _ _, rfl⟩
      · rcases ih y hy2 with ⟨t, ht, hpp⟩
        exact ⟨t, List.mem_cons_of_mem _ ht, hpp⟩

theorem keysLevel_props (h : Nat) :
    ∀ ks : List Nat, List.Pairwise (· < ·) ks →
    (∀ t ∈ ks, t % 2 ^ h = 0 ∧ t < 2 ^ 256) →
    List.Pairwise (· < ·) (keysLevel h ks) ∧
    (∀ y ∈ keysLevel h ks, y % 2 ^ (h + 1) = 0 ∧ y < 2 ^ 256) ∧
    (keysLevel h ks = [] ↔ ks = []) := by
  intro ks
  induction ks using keysLevel.induct h with
  | case1 =>
      intro _ _
      rw [keysLevel_nil]
      exact ⟨List.Pairwise.nil, fun y hy => absurd hy (List.not_mem_nil y),
        Iff.rfl⟩
  | case2 p =>
      intro _ hb
      rw [keysLevel_singleton]
      refine ⟨List.pairwise_singleton _ _, ?_, by simp⟩
      intro y hy
      rw [List.mem_singleton] at hy
      subst hy
      exact ⟨clearLow_aligned _ _, clearLow_lt (hb p (List.mem_cons_self _ _)).2⟩
  | case3 p q rest hcond ih =>
      intro hsort hb
      have hcond2 : isRight h p = false ∧ setBit h p = q := by
        simpa [Bool.and_eq_true, Bool.not_eq_true', beq_iff_eq] using hcond
      have hbit : p.testBit h = false := hcond2.1
      have hp : p % 2 ^ h = 0 := (hb p (List.mem_cons_self _ _)).1
      have hpb : p < 2 ^ 256 := (hb p (List.mem_cons_self _ _)).2
      have hps : p % 2 ^ (h + 1) = 0 := (aligned_succ_iff hp).mp hbit
      have hpk : parentPath h p = p := clearLow_of_aligned hps
      have hq : q = p + 2 ^ h := by
        rw [← hcond2.2, setBit_of_testBit_false hbit]
      have hsrest : List.Pairwise (· < ·) rest :=
        (List.pairwise_cons.mp (List.pairwise_cons.mp hsort).2).2
      have hbrest : ∀ t ∈ rest, t % 2 ^ h = 0 ∧ t < 2 ^ 256 :=
        fun t ht => hb t (List.mem_cons_of_mem _ (List.mem_cons_of_mem _ ht))
      rcases ih hsrest hbrest with ⟨ihs, iha, ihn⟩
      have hlow : ∀ y ∈ keysLevel h rest, parentPath h p < y := by
        intro y hy
        rcases keysLevel_mem h rest y hy with ⟨t, ht, rfl⟩
        have hqt : q < t :=
          (List.pairwise_cons.mp (List.pairwise_cons.mp hsort).2).1 t ht
        have hqa : q % 2 ^ h = 0 := by
          rw [hq]; exact aligned_add_pow hp
        have hgap : q + 2 ^ h ≤ t := aligned_gap hqa (hbrest t ht).1 hqt
        have hsum : p + 2 ^ (h + 1) ≤ t := by
          have hps2 : (2 : Nat) ^ (h + 1) = 2 ^ h * 2 := pow_succ 2 h
          omega
        have halg : (p + 2 ^ (h + 1)) % 2 ^ (h + 1) = 0 := aligned_add_pow hps
        have hle : p + 2 ^ (h + 1) ≤ clearLow (h + 1) t :=
          clearLow_ge_of_aligned_le halg hsum
        have hpow : 0 < 2 ^ (h + 1) := Nat.pos_pow_of_pos _ (by norm_num)
        rw [hpk]
        exact lt_of_lt_of_le (by omega) hle
      constructor
      · rw [keysLevel, if_pos hcond, List.pairwise_cons]
        exact ⟨hlow, ihs⟩
      constructor
      · intro y hy
        rw [keysLevel_cons_cons, if_pos hcond] at hy
        rcases List.mem_cons.mp hy with rfl | hy2
        · exact ⟨clearLow_aligned _ _, clearLow_lt hpb⟩
        · exact iha y hy2
      · rw [keysLevel_cons_cons, if_pos hcond]
        simp
  | case4 p q rest hcond ih =>
      intro hsort hb
      have hp : p % 2 ^ h = 0 := (hb p (List.mem_cons_self _ _)).1
      have hpb : p < 2 ^ 256 := (hb p (List.mem_cons_self _ _)).2
      have hsq : List.Pairwise (· < ·) (q :: rest) :=
        (List.pairwise_cons.mp hsort).2
      have hbq : ∀ t ∈ q :: rest, t % 2 ^ h = 0 ∧ t < 2 ^ 256 :=
        fun t ht => hb t (List.mem_cons_of_mem _ ht)
      rcases ih hsq hbq with ⟨ihs, iha, ihn⟩
      have hpq : p < q := (List.pairwise_cons.mp hsort).1 q (List.mem_cons_self _ _)
      have hlow : ∀ y ∈ keysLevel h (q :: rest), parentPath h p < y := by
        intro y hy
        rcases keysLevel_mem h (q :: rest) y hy with ⟨t, ht, rfl⟩
        have hpt : p < t := (List.pairwise_cons.mp hsort).1 t ht
        have hta : t % 2 ^ h = 0 := (hbq t ht).1
        have hkey : parentPath h p + 2 ^ (h + 1) ≤ t := by
          rcases Bool.eq_false_or_eq_true (p.testBit h) with hbit | hbit
          · -- right child: its parent path sits a full half-step below
            have hmm : p % 2 ^ (h + 1) % 2 ^ h = p % 2 ^ h :=
              Nat.mod_mod_of_dvd _ (by rw [pow_succ]; exact Dvd.intro 2 rfl)
            have hmlt : p % 2 ^ (h + 1) < 2 ^ (h + 1) :=
              Nat.mod_lt _ (Nat.pos_pow_of_pos _ (by norm_num))
            have hnz : p % 2 ^ (h + 1) ≠ 0 := by
              intro hz
              rw [(aligned_succ_iff hp).mpr hz] at hbit
              exact Bool.noConfusion hbit
            have hps2 : (2 : Nat) ^ (h + 1) = 2 ^ h * 2 := pow_succ 2 h
            have hmod : p % 2 ^ (h + 1) = 2 ^ h := by
              have he : p % 2 ^ (h + 1) % 2 ^ h = 0 := hmm.trans hp
              rcases Nat.dvd_of_mod_eq_zero he with ⟨c, hc⟩
              rw [hc] at hmlt hnz ⊢
              rw [hps2] at hmlt
              have hcb : c < 2 := lt_of_mul_lt_mul_left hmlt (Nat.zero_le _)
              have hc0 : c ≠ 0 := by
                intro h0
                rw [h0, Nat.mul_zero] at hnz
                exact hnz rfl
              have hc1 : c = 1 := by omega
              rw [hc1, Nat.mul_one]
            have hsplit : clearLow (h + 1) p + p % 2 ^ (h + 1) = p := by
              rw [clearLow_eq]
              exact Nat.div_add_mod p (2 ^ (h + 1))
            have hpk : p = parentPath h p + 2 ^ h := by
              show p = clearLow (h + 1) p + 2 ^ h
              omega
            have hgap : p + 2 ^ h ≤ t := aligned_gap hp hta hpt
            omega
          · -- left child whose sibling cannot be the next entry
            have hps : p % 2 ^ (h + 1) = 0 := (aligned_succ_iff hp).mp hbit
            have hpk : parentPath h p = p := clearLow_of_aligned hps
            have hgap : p + 2 ^ h ≤ t := aligned_gap hp hta hpt
            have hne : t ≠ p + 2 ^ h := by
              intro hteq
              rcases List.mem_cons.mp ht with rfl | ht2
              · exact hcond (by
                  have hsb : setBit h p = t := by
                    rw [setBit_of_testBit_false hbit, hteq]
                  simp [isRight, hbit, hsb])
              · have hqt : q < t := (List.pairwise_cons.mp hsq).1 t ht2
                have hqa : q % 2 ^ h = 0 := (hbq q (List.mem_cons_self _ _)).1
                have := aligned_gap hp hqa hpq
                omega
            have hgap2 : p + 2 ^ h + 2 ^ h ≤ t := by
              have halg2 : (p + 2 ^ h) % 2 ^ h = 0 := aligned_add_pow hp
              have hlt : p + 2 ^ h < t := lt_of_le_of_ne hgap (Ne.symm hne)
              exact aligned_gap halg2 hta hlt
            have hps2 : (2 : Nat) ^ (h + 1) = 2 ^ h * 2 := pow_succ 2 h
            rw [hpk]
            omega
        have halg : (parentPath h p + 2 ^ (h + 1)) % 2 ^ (h + 1) = 0 :=
          aligned_add_pow (clearLow_aligned _ _)
        have hle : parentPath h p + 2 ^ (h + 1) ≤ clearLow (h + 1) t :=
          clearLow_ge_of_aligned_le halg hkey
        have hpow : 0 < 2 ^ (h + 1) := Nat.pos_pow_of_pos _ (by norm_num)
        exact lt_of_lt_of_le (by omega) hle
      constructor
      · rw [keysLevel, if_neg hcond, List.pairwise_cons]
        exact ⟨hlow, ihs⟩
      constructor
      · intro y hy
        rw [keysLevel_cons_cons, if_neg hcond] at hy
        rcases List.mem_cons.mp hy with rfl | hy2
        · exact ⟨clearLow_aligned _ _, clearLow_lt hpb⟩
        · exact iha y hy2
      · rw [keysLevel_cons_cons, if_neg hcond]
        simp

/-- The pure key trace of all 256 passes. -/
def batchPrefixes (ks : List Nat) : Nat → List Nat
  | 0 => ks
  | h + 1 => keysLevel h (batchPrefixes ks h)

theorem batchPrefixes_props (ks : List Nat)
    (hsort : List.Pairwise (· < ·) ks) (hb : ∀ t ∈ ks, t < 2 ^ 256) :
    ∀ h : Nat, List.Pairwise (· < ·) (batchPrefixes ks h) ∧
      (∀ y ∈ batchPrefixes ks h, y % 2 ^ h = 0 ∧ y < 2 ^ 256) ∧
      (batchPrefixes ks h = [] ↔ ks = []) := by
  intro h
  induction h with
  | zero =>
      exact ⟨hsort, fun y hy => ⟨Nat.mod_one y, hb y hy⟩, Iff.rfl⟩
  | succ n ih =>
      rcases ih with ⟨ihs, iha, ihn⟩
      rcases keysLevel_props n (batchPrefixes ks n) ihs iha with ⟨h1, h2, h3⟩
      exact ⟨h1, h2, by rw [batchPrefixes, h3, ihn]⟩

theorem batchPrefixes_final (ks : List Nat)
    (hsort : List.Pairwise (· < ·) ks) (hb : ∀ t ∈ ks, t < 2 ^ 256)
    (hne : ks ≠ []) : batchPrefixes ks 256 = [0] := by
  rcases batchPrefixes_props ks hsort hb 256 with ⟨hs, ha, hn⟩
  have hzero : ∀ y ∈ batchPrefixes ks 256, y = 0 := by
    intro y hy
    rcases ha y hy with ⟨h1, h2⟩
    rwa [Nat.mod_eq_of_lt h2] at h1
  rcases hl : batchPrefixes ks 256 with _ | ⟨x, tl⟩
  · exact absurd (hn.mp hl) hne
  · rw [hl] at hzero hs
    have hx : x = 0 := hzero x (List.mem_cons_self _ _)
    rcases htl : tl with _ | ⟨y, tl2⟩
    · rw [hx]
    · rw [htl] at hzero hs
      have hy : y = 0 := hzero y (List.mem_cons_of_mem _ (List.mem_cons_self _ _))
      have := (List.pairwise_cons.mp hs).1 y (List.mem_cons_self _ _)
      omega

theorem levelsRun_keys (Hf : HashFn) (ns : List (Nat × MergeValue)) (s : Store) :
    (levelsRun Hf ns s).2.map Prod.fst = batchPrefixes (ns.map Prod.fst) 256 := by
  rw [levelsRun]
  exact foldl_range_inv (fun st h => levelRun Hf h st.1 st.2)
    (fun h st => st.2.map Prod.fst = batchPrefixes (ns.map Prod.fst) h)
    256 (s, ns) rfl
    (fun h st _ hst => by
      show (levelRun Hf h st.1 st.2).2.map Prod.fst = _
      rw [levelRun_keys, hst, batchPrefixes])

theorem writeLeaves_snd (pairs : List (Nat × Nat)) :
    ∀ (s : Store) (acc : List (Nat × MergeValue)),
    (pairs.foldl writeLeafStep (s, acc)).2
      = acc ++ pairs.map (fun p => (p.1, MergeValue.fromH256 p.2)) := by
  induction pairs with
  | nil => intro s acc; simp
  | cons x xs ih =>
      intro s acc
      rw [List.foldl_cons]
      have hstep : writeLeafStep (s, acc) x
          = ((writeLeafStep (s, acc) x).1, acc ++ [(x.1, MergeValue.fromH256 x.2)]) := rfl
      rw [hstep, ih, List.map_cons, List.append_assoc, List.singleton_append]

theorem removeFold_snd (ks : List Nat) :
    ∀ (s : Store) (acc : List (Nat × MergeValue)),
    (ks.foldl removeLeafStep (s, acc)).2
      = acc ++ ks.map (fun k => (k, MergeValue.zero)) := by
  induction ks with
  | nil => intro s acc; simp
  | cons x xs ih =>
      intro s acc
      rw [List.foldl_cons]
      have hstep : removeLeafStep (s, acc) x
          = ((removeLeafStep (s, acc) x).1, acc ++ [(x, MergeValue.zero)]) := rfl
      rw [hstep, ih, List.map_cons, List.append_assoc, List.singleton_append]

theorem dedupFrom_ne_nil (x : Nat × Nat) :
    ∀ l, dedupFrom x l ≠ [] := by
  intro l
  induction l generalizing x with
  | nil => rw [dedupFrom]; exact List.cons_ne_nil _ _
  | cons y rest ih =>
      by_cases hxy : x.1 = y.1
      · rw [dedupFrom, if_pos hxy]
        exact ih x
      · rw [dedupFrom, if_neg hxy]
        exact List.cons_ne_nil _ _

theorem dedupPairs_ne_nil : ∀ l : List (Nat × Nat), l ≠ [] → dedupPairs l ≠ [] := by
  intro l
  cases l with
  | nil => intro h; exact absurd rfl h
  | cons x rest =>
      intro _
      rw [dedupPairs]
      exact dedupFrom_ne_nil x rest

theorem dedupNFrom_ne_nil (x : Nat) :
    ∀ l, dedupNFrom x l ≠ [] := by
  intro l
  induction l generalizing x with
  | nil => rw [dedupNFrom]; exact List.cons_ne_nil _ _
  | cons y rest ih =>
      by_cases hxy : x = y
      · rw [dedupNFrom, if_pos hxy]
        exact ih x
      · rw [dedupNFrom, if_neg hxy]
        exact List.cons_ne_nil _ _

theorem dedupNats_ne_nil : ∀ l : List Nat, l ≠ [] → dedupNats l ≠ [] := by
  intro l
  cases l with
  | nil => intro h; exact absurd rfl h
  | cons x rest =>
      intro _
      rw [dedupNats]
      exact dedupNFrom_ne_nil x rest

theorem normalizePairs_ne_nil {B : List (Nat × Nat)} (hB : B ≠ []) :
    normalizePairs B ≠ [] := by
  refine dedupPairs_ne_nil _ ?_
  intro hs
  have := (sortPairs_perm B.reverse).length_eq
  rw [hs] at this
  have hrev : B.reverse = [] := List.eq_nil_of_length_eq_zero this.symm
  exact hB (List.reverse_eq_nil_iff.mp hrev)

theorem normalizeKeys_ne_nil {K : List Nat} (hK : K ≠ []) :
    normalizeKeys K ≠ [] := by
  refine dedupNats_ne_nil _ ?_
  intro hs
  have := (sortNats_perm K.reverse).length_eq
  rw [hs] at this
  have hrev : K.reverse = [] := List.eq_nil_of_length_eq_zero this.symm
  exact hK (List.reverse_eq_nil_iff.mp hrev)

/-- A node list whose key trace is the singleton batch prefix is itself a
singleton. -/
theorem map_fst_singleton {l : List (Nat × MergeValue)} {k : Nat}
    (hmap : l.map Prod.fst = [k]) : ∃ nd, l = [nd] := by
  rcases l with _ | ⟨nd, tl⟩
  · exact absurd hmap (by simp)
  · rcases tl with _ | ⟨nd2, tl2⟩
    · exact ⟨nd, rfl⟩
    · rw [List.map_cons, List.map_cons] at hmap
      injection hmap with h1 h2
      exact absurd h2 (by simp)

/-- The node list fed into the recompute passes by update_all ends with a
singleton key trace whenever the (normalized) batch is non-empty. -/
theorem updateAll_final_key_trace (Hf : HashFn) (s : Store)
    (B : List (Nat × Nat)) (hB : B ≠ []) (hBk : ∀ p ∈ B, p.1 < 2 ^ 256) :
    (levelsRun Hf (writeLeaves (normalizePairs B) s).2
      (writeLeaves (normalizePairs B) s).1).2.map Prod.fst = [0] := by
  have hns : (writeLeaves (normalizePairs B) s).2
      = (normalizePairs B).map (fun p => (p.1, MergeValue.fromH256 p.2)) := by
    rw [writeLeaves, writeLeaves_snd, List.nil_append]
  have hkeys : (writeLeaves (normalizePairs B) s).2.map Prod.fst
      = (normalizePairs B).map Prod.fst := by
    rw [hns, List.map_map]
    rfl
  rw [levelsRun_keys, hkeys]
  refine batchPrefixes_final _ ?_ ?_ ?_
  · exact List.pairwise_map.mpr (normalizePairs_strict B)
  · intro t ht
    rcases List.mem_map.mp ht with ⟨p, hp, rfl⟩
    exact hBk p (normalizePairs_subset B p hp)
  · intro hnil
    exact normalizePairs_ne_nil hB (List.map_eq_nil_iff.mp hnil)

/-- The node list fed into the recompute passes by remove_all ends with a
singleton key trace whenever the (normalized) key list is non-empty. -/
theorem removeAll_final_key_trace (Hf : HashFn) (s : Store)
    (K : List Nat) (hK : K ≠ []) (hKk : ∀ k ∈ K, k < 2 ^ 256) :
    (levelsRun Hf ((normalizeKeys K).foldl removeLeafStep (s, [])).2
      ((normalizeKeys K).foldl removeLeafStep (s, [])).1).2.map Prod.fst = [0] := by
  have hns : ((normalizeKeys K).foldl removeLeafStep
        ((s, []) : Store × List (Nat × MergeValue))).2
      = (normalizeKeys K).map (fun k => (k, MergeValue.zero)) := by
    rw [removeFold_snd, List.nil_append]
  have hkeys : ((normalizeKeys K).foldl removeLeafStep
        ((s, []) : Store × List (Nat × MergeValue))).2.map Prod.fst
      = normalizeKeys K := by
    rw [hns, List.map_map]
    exact List.map_id _
  rw [levelsRun_keys, hkeys]
  refine batchPrefixes_final _ (normalizeKeys_strict K) ?_ (normalizeKeys_ne_nil hK)
  intro t ht
  exact hKk t (normalizeKeys_subset K t ht)

/-- C3 (amended: the batch must be non-empty; on an empty batch both
operations panic, modelled as none).  For every non-empty batch of bounded
keys, after the 256 recompute passes the working node list of update_all,
and likewise of remove_all, holds exactly one entry, and the operation
returns normally with that entry's merge-value hash stored as the new root
and returned. -/
theorem recompute_all_single_final_node (Hf : HashFn) (s : Store)
    (B : List (Nat × Nat)) (hB : B ≠ []) (hBk : ∀ p ∈ B, p.1 < 2 ^ 256)
    (K : List Nat) (hK : K ≠ []) (hKk : ∀ k ∈ K, k < 2 ^ 256) :
    (∃ nd, (levelsRun Hf (writeLeaves (normalizePairs B) s).2
        (writeLeaves (normalizePairs B) s).1).2 = [nd] ∧
      updateAll Hf B s
        = some (updateRoot (levelsRun Hf (writeLeaves (normalizePairs B) s).2
            (writeLeaves (normalizePairs B) s).1).1 nd.2.hash, nd.2.hash)) ∧
    (∃ nd, (levelsRun Hf ((normalizeKeys K).foldl removeLeafStep (s, [])).2
        ((normalizeKeys K).foldl removeLeafStep (s, [])).1).2 = [nd] ∧
      removeAll Hf K s
        = some (updateRoot
            (levelsRun Hf ((normalizeKeys K).foldl removeLeafStep (s, [])).2
              ((normalizeKeys K).foldl removeLeafStep (s, [])).1).1 nd.2.hash,
          nd.2.hash)) := by
  constructor
  · rcases map_fst_singleton (updateAll_final_key_trace Hf s B hB hBk) with ⟨nd, hnd⟩
    refine ⟨nd, hnd, ?_⟩
    show hashRecomputeAll Hf (writeLeaves (normalizePairs B) s).2
      (writeLeaves (normalizePairs B) s).1 = _
    exact hashRecomputeAll_cons Hf _ _ nd [] hnd
  · rcases map_fst_singleton (removeAll_final_key_trace Hf s K hK hKk) with ⟨nd, hnd⟩
    refine ⟨nd, hnd, ?_⟩
    show hashRecomputeAll Hf ((normalizeKeys K).foldl removeLeafStep (s, [])).2
      ((normalizeKeys K).foldl removeLeafStep (s, [])).1 = _
    exact hashRecomputeAll_cons Hf _ _ nd [] hnd

/-- Counterexample to C3 as stated: on the empty batch the node list after
the passes is empty, not a singleton, and both update_all and remove_all hit
the out-of-bounds index on nodes[0], modelled as none. -/
theorem recompute_all_empty_batch_counterexample :
    updateAll toyHf [] emptyStore = none ∧
    removeAll toyHf [] emptyStore = none ∧
    (levelsRun toyHf [] emptyStore).2.length = 0 := by
  refine ⟨rfl, rfl, rfl⟩

/-- Witness for C3 at the one-pair batch and one-key removal. -/
theorem recompute_all_single_final_node_witness :
    (∃ nd, (levelsRun toyHf (writeLeaves (normalizePairs [(0, 1)]) emptyStore).2
        (writeLeaves (normalizePairs [(0, 1)]) emptyStore).1).2 = [nd] ∧
      updateAll toyHf [(0, 1)] emptyStore
        = some (updateRoot
            (levelsRun toyHf (writeLeaves (normalizePairs [(0, 1)]) emptyStore).2
              (writeLeaves (normalizePairs [(0, 1)]) emptyStore).1).1 nd.2.hash,
          nd.2.hash)) ∧
    (∃ nd, (levelsRun toyHf ((normalizeKeys [5]).foldl removeLeafStep
        (emptyStore, [])).2
        ((normalizeKeys [5]).foldl removeLeafStep (emptyStore, [])).1).2 = [nd] ∧
      removeAll toyHf [5] emptyStore
        = some (updateRoot
            (levelsRun toyHf ((normalizeKeys [5]).foldl removeLeafStep
              (emptyStore, [])).2
              ((normalizeKeys [5]).foldl removeLeafStep (emptyStore, [])).1).1
            nd.2.hash,
          nd.2.hash)) :=
  recompute_all_single_final_node toyHf emptyStore [(0, 1)]
    (by simp) (by decide) [5] (by simp) (by decide)

/-- C10: whenever merkle_proof returns, the leaves_bitmap component is
exactly the bitmap of each input key counted with multiplicity, ordered by
the ascending sort of the keys: it is the per-key bitmap map over the sorted
key list, one entry per input key, the sorted list being a permutation of
the input in ascending order. -/
theorem merkle_proof_bitmaps (s : Store) (keys : List Nat)
    (pr : List Nat × List MergeValue) (h : merkleProof s keys = some pr) :
    pr.1 = (sortNats keys).map (bitmapOf s) ∧
    pr.1.length = keys.length ∧
    (sortNats keys).Perm keys ∧
    List.Pairwise (· ≤ ·) (sortNats keys) := by
  rw [merkleProof] at h
  split at h
  · exact Option.noConfusion h
  · rcases hw : proofWalk s
        ((sortNats keys).zip ((sortNats keys).map (bitmapOf s))) [] [] with _ | st
    · simp only [hw] at h
      exact Option.noConfusion h
    · simp only [hw] at h
      injection h with h
      subst h
      refine ⟨rfl, ?_, sortNats_perm keys, sortNats_pairwise keys⟩
      rw [List.length_map]
      exact (sortNats_perm keys).length_eq

/-- Witness for C10 at a singleton key list over the empty store. -/
theorem merkle_proof_bitmaps_witness :
    merkleProof emptyStore [5] = some ([0], []) ∧
    (([0], ([] : List MergeValue)).1
        = (sortNats [5]).map (bitmapOf emptyStore) ∧
      ([0], ([] : List MergeValue)).1.length = [5].length ∧
      (sortNats [5]).Perm [5] ∧
      List.Pairwise (· ≤ ·) (sortNats [5])) :=
  ⟨rfl, merkle_proof_bitmaps emptyStore [5] ([0], []) rfl⟩

/-- C9: get returns None on a zero root and the stored leaf otherwise; a key
with no stored leaf yields None, and (on an invariant-holding store, as every
reachable store is) never Some 0. -/
theorem get_spec (Hf : HashFn) (s : Store) (k : Nat) (hInv : Inv Hf s) :
    (s.root = 0 → get s k = none) ∧
    (s.root ≠ 0 → get s k = s.leaves k) ∧
    (s.leaves k = none → get s k = none) ∧
    (∀ v, get s k = some v → v ≠ 0) := by
  refine ⟨?_, ?_, ?_, ?_⟩
  · intro hz
    rw [get, if_pos hz]
  · intro hnz
    rw [get, if_neg hnz]
  · intro habs
    rw [get]
    split
    · rfl
    · exact habs
  · intro v hv
    rw [get] at hv
    split at hv
    · exact Option.noConfusion hv
    · exact hInv.leavesNonzero k v hv

/-- Witness for C9 at the empty store. -/
theorem get_spec_witness :
    (emptyStore.root = 0 → get emptyStore 0 = none) ∧
    (emptyStore.root ≠ 0 → get emptyStore 0 = emptyStore.leaves 0) ∧
    (emptyStore.leaves 0 = none → get emptyStore 0 = none) ∧
    (∀ v, get emptyStore 0 = some v → v ≠ 0) :=
  get_spec toyHf emptyStore 0 (inv_empty toyHf)

/-- Extracting the two Zero children from an absent canonical branch. -/
theorem canonBranch_none {Hf : HashFn} {L : Nat → Option Nat} {h p : Nat}
    (hn : canonBranch Hf L h p = none) :
    nodeVal Hf L h p = .zero ∧ nodeVal Hf L h (p + 2 ^ h) = .zero := by
  rw [canonBranch] at hn
  split at hn
  · assumption
  · exact Option.noConfusion hn

/-- Removing one key from the leaf map keeps an absent canonical branch
absent. -/
theorem canonBranch_none_remove {Hf : HashFn} {L : Nat → Option Nat}
    {h p k : Nat} (hn : canonBranch Hf L h p = none) :
    canonBranch Hf (fun j => if j = k then none else L j) h p = none := by
  rcases canonBranch_none hn with ⟨hl, hr⟩
  rw [canonBranch,
    if_pos ⟨nodeVal_zero_remove h p hl, nodeVal_zero_remove h (p + 2 ^ h) hr⟩]

theorem leafUpdate_zero (k : Nat) (L : Nat → Option Nat) :
    leafUpdate k 0 L = fun j => if j = k then none else L j := by
  funext j
  rw [leafUpdate]
  simp

/-- C6: update with the zero value removes the leaf at the key, leaves every
other leaf alone, and never creates a branch entry at a key that had none;
on the empty tree it leaves the root at zero and both maps empty. -/
theorem update_zero_never_grows (Hf : HashFn) (s : Store) (k : Nat)
    (hInv : Inv Hf s) (hk : k < 2 ^ 256) :
    (update Hf k 0 s).1.leaves k = none ∧
    (∀ j, j ≠ k → (update Hf k 0 s).1.leaves j = s.leaves j) ∧
    (∀ bk, s.branches bk = none → (update Hf k 0 s).1.branches bk = none) ∧
    (s = emptyStore →
      (update Hf k 0 s).1.root = 0 ∧
      (∀ j, (update Hf k 0 s).1.leaves j = none) ∧
      (∀ bk, (update Hf k 0 s).1.branches bk = none)) := by
  rcases update_inv Hf s k 0 hInv hk with ⟨hInv2, hlv, hret, hroot⟩
  have hlv2 : (update Hf k 0 s).1.leaves
      = fun j => if j = k then none else s.leaves j := by
    rw [hlv, leafUpdate_zero]
  refine ⟨?_, ?_, ?_, ?_⟩
  · rw [hlv2]
    simp
  · intro j hj
    rw [hlv2]
    simp [hj]
  · intro bk hbk
    rcases bk with ⟨h, p⟩
    by_cases hok : h ≤ 255 ∧ p < 2 ^ 256 ∧ p % 2 ^ (h + 1) = 0
    · have hold : canonBranch Hf s.leaves h p = none := by
        rw [← hInv.branchesCanon h p hok.1 hok.2.1 hok.2.2]
        exact hbk
      rw [hInv2.branchesCanon h p hok.1 hok.2.1 hok.2.2, hlv2]
      exact canonBranch_none_remove hold
    · exact hInv2.branchesOff h p hok
  · intro hsE
    subst hsE
    have hLE : (update Hf k 0 emptyStore).1.leaves = (fun _ => none) := by
      rw [hlv2]
      funext j
      show (if j = k then none else emptyStore.leaves j) = none
      split <;> rfl
    refine ⟨?_, ?_, ?_⟩
    · rw [hroot, hret]
      have hle : leafUpdate k 0 emptyStore.leaves = (fun _ => none) := by
        rw [← hlv]
        exact hLE
      rw [hle, rootOf, nodeVal_empty]
      rfl
    · intro j
      rw [hLE]
    · intro bk
      rcases bk with ⟨h, p⟩
      by_cases hok : h ≤ 255 ∧ p < 2 ^ 256 ∧ p % 2 ^ (h + 1) = 0
      · rw [hInv2.branchesCanon h p hok.1 hok.2.1 hok.2.2, hLE, canonBranch,
          if_pos ⟨nodeVal_empty Hf h p, nodeVal_empty Hf h (p + 2 ^ h)⟩]
      · exact hInv2.branchesOff h p hok

/-- Witness for C6 at the empty store. -/
theorem update_zero_never_grows_witness :
    (update toyHf 3 0 emptyStore).1.leaves 3 = none ∧
    (∀ j, j ≠ 3 → (update toyHf 3 0 emptyStore).1.leaves j = emptyStore.leaves j) ∧
    (∀ bk, emptyStore.branches bk = none →
      (update toyHf 3 0 emptyStore).1.branches bk = none) ∧
    (emptyStore = emptyStore →
      (update toyHf 3 0 emptyStore).1.root = 0 ∧
      (∀ j, (update toyHf 3 0 emptyStore).1.leaves j = none) ∧
      (∀ bk, (update toyHf 3 0 emptyStore).1.branches bk = none)) :=
  update_zero_never_grows toyHf emptyStore 3 (inv_empty toyHf) (by norm_num)

/-- A subtree holding no leaf has the Zero canonical value. -/
theorem nodeVal_outside {Hf : HashFn} {L : Nat → Option Nat} {h p : Nat}
    (hal : p % 2 ^ h = 0) (hout : ∀ j, clearLow h j = p → L j = none) :
    nodeVal Hf L h p = .zero := by
  rw [nodeVal_congr h p hal (fun j hj => (hout j hj).trans rfl)]
  exact nodeVal_empty Hf h p

/-- The canonical hash chain of a lone leaf at key 0 under the toy hash. -/
def chainD (v : Nat) : Nat → Nat
  | 0 => v
  | h + 1 => toyHf h 0 (chainD v h) 0

theorem nodeVal_single {v : Nat} (hv : v ≠ 0) :
    ∀ h, nodeVal toyHf (leafUpdate 0 v (fun _ => none)) h 0
      = .value (chainD v h) := by
  intro h
  induction h with
  | zero =>
      rw [nodeVal]
      simp [leafUpdate, MergeValue.fromH256, hv, chainD]
  | succ g ih =>
      have hsib : nodeVal toyHf (leafUpdate 0 v (fun _ => none)) g (0 + 2 ^ g)
          = .zero := by
        rw [Nat.zero_add]
        refine nodeVal_outside (Nat.mod_self _) ?_
        intro j hj
        by_cases hj0 : j = 0
        · subst hj0
          have hz : clearLow g 0 = 0 := by rw [clearLow_eq]; simp
          have hpos : 0 < 2 ^ g := Nat.pos_pow_of_pos _ (by norm_num)
          omega
        · rw [leafUpdate]
          simp [hj0]
      rw [nodeVal, hsib, ih]
      simp [merge, MergeValue.isZero, MergeValue.hash, chainD]

/-- The root of the tree holding the single leaf (0, v). -/
theorem rootOf_single {v : Nat} (hv : v ≠ 0) :
    rootOf toyHf (leafUpdate 0 v (fun _ => none)) = chainD v 256 := by
  rw [rootOf, nodeVal_single hv 256]
  rfl

/-- C5 (amended: the key must be absent before the two updates; overwriting
an existing leaf and then deleting it does not restore the old root).  On any
invariant-holding store with no leaf at k, update(k, v) followed by
update(k, 0) returns, and stores, exactly the root present before. -/
theorem update_then_delete_restores_root (Hf : HashFn) (s : Store) (k v : Nat)
    (hInv : Inv Hf s) (hk : k < 2 ^ 256) (hfresh : s.leaves k = none) :
    (update Hf k 0 (update Hf k v s).1).2 = s.root ∧
    (update Hf k 0 (update Hf k v s).1).1.root = s.root := by
  rcases update_inv Hf s k v hInv hk with ⟨hInv1, hlv1, _, _⟩
  rcases update_inv Hf (update Hf k v s).1 k 0 hInv1 hk with
    ⟨_, _, hret2, hroot2⟩
  have hL : leafUpdate k 0 (update Hf k v s).1.leaves = s.leaves := by
    rw [hlv1]
    funext j
    rw [leafUpdate, leafUpdate]
    by_cases hj : j = k
    · subst hj
      simp [hfresh]
    · simp [hj]
  have hfin : (update Hf k 0 (update Hf k v s).1).2 = s.root := by
    rw [hret2, hL, ← hInv.rootCanon]
  exact ⟨hfin, by rw [hroot2, hfin]⟩

/-- Witness for C5 at the empty store. -/
theorem update_then_delete_restores_root_witness :
    (update toyHf 0 0 (update toyHf 0 1 emptyStore).1).2 = emptyStore.root ∧
    (update toyHf 0 0 (update toyHf 0 1 emptyStore).1).1.root
      = emptyStore.root :=
  update_then_delete_restores_root toyHf emptyStore 0 1 (inv_empty toyHf)
    (by norm_num) rfl

/-- Counterexample to C5 as stated: the tree that already holds key 0 (with
value 1) does not get its root back after update(0, 2); update(0, 0) — the
pair of updates deletes the leaf instead of restoring the overwritten
value. -/
theorem update_then_delete_counterexample :
    (update toyHf 0 1 emptyStore).1.leaves 0 = some 1 ∧
    (update toyHf 0 0 (update toyHf 0 2
        (update toyHf 0 1 emptyStore).1).1).2
      ≠ (update toyHf 0 1 emptyStore).1.root := by
  rcases update_inv toyHf emptyStore 0 1 (inv_empty toyHf) (by norm_num) with
    ⟨hInv1, hlv1, hret1, hroot1⟩
  rcases update_inv toyHf (update toyHf 0 1 emptyStore).1 0 2 hInv1
    (by norm_num) with ⟨hInv2, hlv2, _, _⟩
  rcases update_inv toyHf (update toyHf 0 2
    (update toyHf 0 1 emptyStore).1).1 0 0 hInv2 (by norm_num) with
    ⟨_, _, hret3, _⟩
  have hL3 : leafUpdate 0 0 (update toyHf 0 2
      (update toyHf 0 1 emptyStore).1).1.leaves = (fun _ => none) := by
    rw [hlv2, hlv1]
    funext j
    show leafUpdate 0 0 (leafUpdate 0 2 (leafUpdate 0 1 emptyStore.leaves)) j
      = none
    rw [leafUpdate, leafUpdate, leafUpdate]
    by_cases hj : j = 0
    · simp [hj]
    · simp [hj]
      rfl
  constructor
  · rw [hlv1]
    simp [leafUpdate]
  · rw [hret3, hL3, hroot1, hret1]
    have hempty : rootOf toyHf (fun _ => none) = 0 := by
      rw [rootOf, nodeVal_empty]
      rfl
    rw [hempty]
    have hsingle : rootOf toyHf (leafUpdate 0 1 emptyStore.leaves)
        = chainD 1 256 := rootOf_single (by norm_num)
    rw [hsingle]
    intro hcon0
    have : chainD 1 256 ≠ 0 := by decide
    exact this hcon0.symm

/-- A sequence of individual update calls, keeping the stores. -/
def applySeq (Hf : HashFn) (ps : List (Nat × Nat)) (s : Store) : Store :=
  ps.foldl (fun t p => (update Hf p.1 p.2 t).1) s

/-- The pure leaf-map effect of a sequence of updates. -/
def appliedLeaves (ps : List (Nat × Nat)) (L : Nat → Option Nat) :
    Nat → Option Nat :=
  ps.foldl (fun M p => leafUpdate p.1 p.2 M) L

theorem leafUpdate_comm {a b : Nat} (hab : a ≠ b) (va vb : Nat)
    (L : Nat → Option Nat) :
    leafUpdate a va (leafUpdate b vb L) = leafUpdate b vb (leafUpdate a va L) := by
  funext j
  rw [leafUpdate, leafUpdate, leafUpdate, leafUpdate]
  by_cases hja : j = a
  · subst hja
    simp [hab]
  · by_cases hjb : j = b
    · subst hjb
      simp [Ne.symm hab]
    · simp [hja, hjb]

theorem appliedLeaves_perm {ps ps' : List (Nat × Nat)} (hperm : ps.Perm ps') :
    ∀ L : Nat → Option Nat,
    List.Pairwise (fun a b : Nat × Nat => a.1 ≠ b.1) ps →
    appliedLeaves ps L = appliedLeaves ps' L := by
  induction hperm with
  | nil => intro L _; rfl
  | cons x h12 ih =>
      intro L hnd
      rw [appliedLeaves, List.foldl_cons, appliedLeaves, List.foldl_cons]
      exact ih (leafUpdate x.1 x.2 L) (List.pairwise_cons.mp hnd).2
  | swap x y l =>
      intro L hnd
      rw [appliedLeaves, List.foldl_cons, List.foldl_cons,
        appliedLeaves, List.foldl_cons, List.foldl_cons]
      have hxy : y.1 ≠ x.1 :=
        (List.pairwise_cons.mp hnd).1 x (List.mem_cons_self _ _)
      rw [leafUpdate_comm hxy]
  | trans h12 h23 ih12 ih23 =>
      intro L hnd
      rw [ih12 L hnd, ih23 L ((h12.pairwise_iff
        (fun {u v} huv hvu => huv hvu.symm)).mp hnd)]

theorem applySeq_cons (Hf : HashFn) (p : Nat × Nat) (rest : List (Nat × Nat))
    (s : Store) :
    applySeq Hf (p :: rest) s = applySeq Hf rest (update Hf p.1 p.2 s).1 := by
  rw [applySeq, applySeq, List.foldl_cons]

theorem appliedLeaves_cons (p : Nat × Nat) (rest : List (Nat × Nat))
    (L : Nat → Option Nat) :
    appliedLeaves (p :: rest) L = appliedLeaves rest (leafUpdate p.1 p.2 L) := by
  rw [appliedLeaves, appliedLeaves, List.foldl_cons]

theorem applySeq_inv (Hf : HashFn) :
    ∀ (ps : List (Nat × Nat)) (s : Store), Inv Hf s →
    (∀ p ∈ ps, p.1 < 2 ^ 256) →
    Inv Hf (applySeq Hf ps s) ∧
    (applySeq Hf ps s).leaves = appliedLeaves ps s.leaves := by
  intro ps
  induction ps with
  | nil => intro s hInv _; exact ⟨hInv, rfl⟩
  | cons p rest ih =>
      intro s hInv hk
      rcases update_inv Hf s p.1 p.2 hInv (hk p (List.mem_cons_self _ _)) with
        ⟨hInv1, hlv1, _, _⟩
      rcases ih (update Hf p.1 p.2 s).1 hInv1
        (fun q hq => hk q (List.mem_cons_of_mem _ hq)) with ⟨hInv2, hlv2⟩
      rw [applySeq_cons, appliedLeaves_cons]
      exact ⟨hInv2, by rw [hlv2, hlv1]⟩

/-- C2 (amended: the keys must be pairwise distinct; with duplicate keys the
later update wins, so the root depends on the order).  Over distinct bounded
keys, sequential updates applied in any order to the same invariant-holding
store produce the same root. -/
theorem sequential_update_permutation_invariant (Hf : HashFn) (s : Store)
    (ps ps' : List (Nat × Nat)) (hInv : Inv Hf s) (hperm : ps.Perm ps')
    (hnd : List.Pairwise (fun a b : Nat × Nat => a.1 ≠ b.1) ps)
    (hk : ∀ p ∈ ps, p.1 < 2 ^ 256) :
    (applySeq Hf ps s).root = (applySeq Hf ps' s).root := by
  rcases applySeq_inv Hf ps s hInv hk with ⟨hInv1, hlv1⟩
  rcases applySeq_inv Hf ps' s hInv
    (fun p hp => hk p (hperm.mem_iff.mpr hp)) with ⟨hInv2, hlv2⟩
  rw [hInv1.rootCanon, hInv2.rootCanon, hlv1, hlv2,
    appliedLeaves_perm hperm s.leaves hnd]

/-- Witness for C2 at a two-key swap over the empty store. -/
theorem sequential_update_permutation_invariant_witness :
    (applySeq toyHf [(0, 1), (1, 2)] emptyStore).root
      = (applySeq toyHf [(1, 2), (0, 1)] emptyStore).root :=
  sequential_update_permutation_invariant toyHf emptyStore
    [(0, 1), (1, 2)] [(1, 2), (0, 1)] (inv_empty toyHf)
    (List.Perm.swap _ _ _) (by decide) (by decide)

/-- Counterexample to C2 as stated: with a duplicated key (values both
non-zero) the two orders leave different leaves behind, and the roots
differ. -/
theorem sequential_update_order_counterexample :
    [((0 : Nat), (1 : Nat)), (0, 2)].Perm [(0, 2), (0, 1)] ∧
    (applySeq toyHf [(0, 1), (0, 2)] emptyStore).root
      ≠ (applySeq toyHf [(0, 2), (0, 1)] emptyStore).root := by
  refine ⟨List.Perm.swap _ _ _, ?_⟩
  have h12 := applySeq_inv toyHf [(0, 1), (0, 2)] emptyStore
    (inv_empty toyHf) (by decide)
  have h21 := applySeq_inv toyHf [(0, 2), (0, 1)] emptyStore
    (inv_empty toyHf) (by decide)
  rw [h12.1.rootCanon, h21.1.rootCanon, h12.2, h21.2]
  have hL12 : appliedLeaves [(0, 1), (0, 2)] emptyStore.leaves
      = leafUpdate 0 2 (fun _ => none) := by
    show leafUpdate 0 2 (leafUpdate 0 1 emptyStore.leaves) = _
    funext j
    rw [leafUpdate, leafUpdate, leafUpdate]
    by_cases hj : j = 0 <;> simp [hj] <;> rfl
  have hL21 : appliedLeaves [(0, 2), (0, 1)] emptyStore.leaves
      = leafUpdate 0 1 (fun _ => none) := by
    show leafUpdate 0 1 (leafUpdate 0 2 emptyStore.leaves) = _
    funext j
    rw [leafUpdate, leafUpdate, leafUpdate]
    by_cases hj : j = 0 <;> simp [hj] <;> rfl
  rw [hL12, hL21, rootOf_single (by norm_num), rootOf_single (by norm_num)]
  decide

/-! ### The batch recomputation computes the canonical root (towards C1) -/

theorem map_fst_mk {β : Type} (f : Nat → β) (l : List Nat) :
    (l.map (fun q => (q, f q))).map Prod.fst = l := by
  induction l with
  | nil => rfl
  | cons x xs ih =>
      rw [List.map_cons, List.map_cons]
      show x :: (xs.map (fun q => (q, f q))).map Prod.fst = x :: xs
      rw [ih]

/-- A sequence of leaf updates leaves keys outside its key set unchanged. -/
theorem appliedLeaves_outside :
    ∀ (ps : List (Nat × Nat)) (L : Nat → Option Nat) (j : Nat),
    (∀ p ∈ ps, p.1 ≠ j) → appliedLeaves ps L j = L j := by
  intro ps
  induction ps with
  | nil => intro L j _; rfl
  | cons p rest ih =>
      intro L j hout
      have hne : j ≠ p.1 := fun hj => hout p (List.mem_cons_self _ _) hj.symm
      rw [appliedLeaves_cons,
        ih _ j (fun q hq => hout q (List.mem_cons_of_mem _ hq))]
      simp only [leafUpdate, if_neg hne]

/-- Over pairwise-distinct keys the final leaf map reads back each submitted
pair (a zero value deletes). -/
theorem appliedLeaves_mem :
    ∀ (ps : List (Nat × Nat)) (L : Nat → Option Nat),
    List.Pairwise (fun a b : Nat × Nat => a.1 ≠ b.1) ps →
    ∀ p ∈ ps, appliedLeaves ps L p.1
      = if p.2 = 0 then none else some p.2 := by
  intro ps
  induction ps with
  | nil => intro L _ p hp; exact absurd hp (List.not_mem_nil p)
  | cons q rest ih =>
      intro L hnd p hp
      rcases List.mem_cons.mp hp with rfl | hp2
      · rw [appliedLeaves_cons,
          appliedLeaves_outside rest _ p.1
            (fun r hr => ((List.pairwise_cons.mp hnd).1 r hr).symm)]
        simp [leafUpdate]
      · rw [appliedLeaves_cons]
        exact ih _ (List.pairwise_cons.mp hnd).2 p hp2

/-- Every key of a pass is mapped by parent_path onto the next key trace. -/
theorem keysLevel_mem_parent (h : Nat) :
    ∀ ks : List Nat, ∀ t ∈ ks, parentPath h t ∈ keysLevel h ks := by
  intro ks
  induction ks using keysLevel.induct h with
  | case1 =>
      intro t ht
      exact absurd ht (List.not_mem_nil t)
  | case2 p =>
      intro t ht
      rw [List.mem_singleton] at ht
      subst ht
      rw [keysLevel_singleton]
      exact List.mem_singleton.mpr rfl
  | case3 p q rest hcond ih =>
      intro t ht
      rw [keysLevel_cons_cons, if_pos hcond]
      rcases List.mem_cons.mp ht with rfl | ht2
      · exact List.mem_cons_self _ _
      · rcases List.mem_cons.mp ht2 with rfl | ht3
        · have hcond2 : isRight h p = false ∧ setBit h p = t := by
            simpa [Bool.and_eq_true, Bool.not_eq_true', beq_iff_eq] using hcond
          have hbit : p.testBit h = false := hcond2.1
          have hteq : t = p + 2 ^ h := by
            rw [← hcond2.2, setBit_of_testBit_false hbit]
          have hpp : parentPath h t = parentPath h p := by
            simp only [parentPath]
            rw [hteq]
            exact clearLow_succ_add_of_testBit_false hbit
          rw [hpp]
          exact List.mem_cons_self _ _
        · exact List.mem_cons_of_mem _ (ih t ht3)
  | case4 p q rest hcond ih =>
      intro t ht
      rw [keysLevel_cons_cons, if_neg hcond]
      rcases List.mem_cons.mp ht with rfl | ht2
      · exact List.mem_cons_self _ _
      · exact List.mem_cons_of_mem _ (ih t ht2)

/-- Every original key's height-h prefix appears in the height-h key trace. -/
theorem batchPrefixes_mem (ks : List Nat) :
    ∀ h : Nat, ∀ k ∈ ks, clearLow h k ∈ batchPrefixes ks h := by
  intro h
  induction h with
  | zero =>
      intro k hk
      rw [batchPrefixes, clearLow_zero]
      exact hk
  | succ n ih =>
      intro k hk
      rw [batchPrefixes]
      have hmem := keysLevel_mem_parent n (batchPrefixes ks n)
        (clearLow n k) (ih k hk)
      have hpp : parentPath n (clearLow n k) = clearLow (n + 1) k := by
        simp only [parentPath]
        exact clearLow_clearLow (Nat.le_succ n) k
      rwa [hpp] at hmem

/-- Distinct aligned keys that are not a left-sibling/right-sibling pair have
strictly increasing parent paths. -/
theorem parentPath_lt_of_gap {h p t : Nat} (hp : p % 2 ^ h = 0)
    (ht : t % 2 ^ h = 0) (hpt : p < t)
    (hns : p.testBit h = true ∨ t ≠ p + 2 ^ h) :
    parentPath h p < parentPath h t := by
  simp only [parentPath]
  have hpow : 0 < 2 ^ h := Nat.pos_pow_of_pos _ (by norm_num)
  have hkey : clearLow (h + 1) p + 2 ^ (h + 1) ≤ t := by
    rcases Bool.eq_false_or_eq_true (p.testBit h) with htb | htb
    · have hpk := clearLow_succ_of_testBit_true htb
      rw [clearLow_of_aligned hp] at hpk
      have hgap : p + 2 ^ h ≤ t := aligned_gap hp ht hpt
      have hps2 : (2 : Nat) ^ (h + 1) = 2 ^ h * 2 := pow_succ 2 h
      omega
    · have hps : p % 2 ^ (h + 1) = 0 := (aligned_succ_iff hp).mp htb
      have hpk : clearLow (h + 1) p = p := clearLow_of_aligned hps
      have hne : t ≠ p + 2 ^ h := by
        rcases hns with hb | hne
        · rw [htb] at hb
          exact Bool.noConfusion hb
        · exact hne
      have hgap : p + 2 ^ h ≤ t := aligned_gap hp ht hpt
      have hgap2 : p + 2 ^ h + 2 ^ h ≤ t :=
        aligned_gap (aligned_add_pow hp) ht (lt_of_le_of_ne hgap (Ne.symm hne))
      have hps2 : (2 : Nat) ^ (h + 1) = 2 ^ h * 2 := pow_succ 2 h
      omega
  have hle : clearLow (h + 1) p + 2 ^ (h + 1) ≤ clearLow (h + 1) t :=
    clearLow_ge_of_aligned_le (aligned_add_pow (clearLow_aligned _ _)) hkey
  have hpow2 : 0 < 2 ^ (h + 1) := Nat.pos_pow_of_pos _ (by norm_num)
  omega

/-- When every leaf of the sibling subtree of ck is unchanged, the sibling's
canonical value is unchanged. -/
theorem sibling_subtree_eq (Hf : HashFn) (L L' : Nat → Option Nat) (h : Nat)
    (ck : Nat)
    (hout : ∀ j, clearLow h j =
        (if ck.testBit h = true then clearLow (h + 1) ck
         else clearLow (h + 1) ck + 2 ^ h) → L j = L' j) :
    nodeVal Hf L h (if ck.testBit h = true then clearLow (h + 1) ck
        else clearLow (h + 1) ck + 2 ^ h)
      = nodeVal Hf L' h (if ck.testBit h = true then clearLow (h + 1) ck
        else clearLow (h + 1) ck + 2 ^ h) := by
  have halP : clearLow (h + 1) ck % 2 ^ h = 0 :=
    aligned_of_aligned_succ (clearLow_aligned (h + 1) ck)
  rcases Bool.eq_false_or_eq_true (ck.testBit h) with htb | htb
  · rw [htb, if_pos rfl] at hout ⊢
    exact nodeVal_congr h _ halP hout
  · rw [htb, if_neg (by simp)] at hout ⊢
    exact nodeVal_congr h _ (aligned_add_pow halP) hout

/-- Writing the two canonical children persists exactly the canonical
branch. -/
theorem writeBranch_canon (Hf : HashFn) (L' : Nat → Option Nat) (h P : Nat)
    (s : Store) :
    writeBranch s (h, P) (nodeVal Hf L' h P) (nodeVal Hf L' h (P + 2 ^ h)) =
      ⟨fun j => if j = (h, P) then canonBranch Hf L' h P else s.branches j,
       s.leaves, s.root⟩ := by
  rw [writeBranch, canonBranch]
  by_cases hz : nodeVal Hf L' h P = .zero ∧ nodeVal Hf L' h (P + 2 ^ h) = .zero
  · rw [if_pos hz, hz.1, hz.2]
    rfl
  · rw [if_neg hz]
    have hcond : (!(nodeVal Hf L' h P).isZero ||
        !(nodeVal Hf L' h (P + 2 ^ h)).isZero) = true := by
      rcases hx : nodeVal Hf L' h P with _ | a <;>
        rcases hy : nodeVal Hf L' h (P + 2 ^ h) with _ | b <;>
        simp_all [MergeValue.isZero]
    rw [hcond]
    rfl

/-- The store effect of one leaf-writing step of update_all. -/
theorem writeLeafStep_fst (st : Store × List (Nat × MergeValue))
    (p : Nat × Nat) :
    (writeLeafStep st p).1.branches = st.1.branches ∧
    (writeLeafStep st p).1.root = st.1.root ∧
    (writeLeafStep st p).1.leaves = leafUpdate p.1 p.2 st.1.leaves := by
  by_cases hz : p.2 = 0
  · have hv : MergeValue.fromH256 p.2 = .zero := by
      rw [MergeValue.fromH256, if_pos hz]
    have h1 : (writeLeafStep st p).1 = removeLeaf st.1 p.1 := by
      simp only [writeLeafStep, hv]
      rfl
    rw [h1]
    refine ⟨rfl, rfl, ?_⟩
    funext j
    show (if j = p.1 then none else st.1.leaves j)
      = leafUpdate p.1 p.2 st.1.leaves j
    simp only [leafUpdate]
    by_cases hj : j = p.1
    · rw [if_pos hj, if_pos hj, if_pos hz]
    · rw [if_neg hj, if_neg hj]
  · have hv : MergeValue.fromH256 p.2 = .value p.2 := by
      rw [MergeValue.fromH256, if_neg hz]
    have h1 : (writeLeafStep st p).1 = insertLeaf st.1 p.1 p.2 := by
      simp only [writeLeafStep, hv]
      rfl
    rw [h1]
    refine ⟨rfl, rfl, ?_⟩
    funext j
    show (if j = p.1 then some p.2 else st.1.leaves j)
      = leafUpdate p.1 p.2 st.1.leaves j
    simp only [leafUpdate]
    by_cases hj : j = p.1
    · rw [if_pos hj, if_pos hj, if_neg hz]
    · rw [if_neg hj, if_neg hj]

/-- The leaf-writing loop of update_all only rewrites the leaf map, exactly
to the sequence of leaf updates. -/
theorem writeLeaves_fold_fst :
    ∀ (pairs : List (Nat × Nat)) (st : Store × List (Nat × MergeValue)),
    (pairs.foldl writeLeafStep st).1.branches = st.1.branches ∧
    (pairs.foldl writeLeafStep st).1.root = st.1.root ∧
    (pairs.foldl writeLeafStep st).1.leaves = appliedLeaves pairs st.1.leaves := by
  intro pairs
  induction pairs with
  | nil => intro st; exact ⟨rfl, rfl, rfl⟩
  | cons p rest ih =>
      intro st
      rw [List.foldl_cons, appliedLeaves_cons]
      rcases ih (writeLeafStep st p) with ⟨ihb, ihr, ihl⟩
      rcases writeLeafStep_fst st p with ⟨hb, hr, hl⟩
      exact ⟨ihb.trans hb, ihr.trans hr, by rw [ihl, hl]⟩

/-- The canonical specification of one height pass of hash_recompute_all:
over a strictly ascending aligned bounded key list carrying the new canonical
child values, with the store reading the old canonical branch at every parent
and every leaf outside the listed subtrees unchanged, the pass emits the new
canonical parent values, rewrites only height-h branches, and leaves the leaf
map and root cell untouched. -/
theorem levelRun_canon (Hf : HashFn) (h : Nat) (L L' : Nat → Option Nat) :
    ∀ (s : Store) (ns : List (Nat × MergeValue)),
    List.Pairwise (· < ·) (ns.map Prod.fst) →
    (∀ pr ∈ ns, pr.1 % 2 ^ h = 0 ∧ pr.1 < 2 ^ 256) →
    (∀ pr ∈ ns, pr.2 = nodeVal Hf L' h pr.1) →
    (∀ pr ∈ ns, s.branches (h, parentPath h pr.1)
        = canonBranch Hf L h (parentPath h pr.1)) →
    (∀ pr ∈ ns, ∀ j, clearLow (h + 1) j = parentPath h pr.1 →
        clearLow h j ≠ pr.1 → clearLow h j ∈ ns.map Prod.fst ∨ L j = L' j) →
    (levelRun Hf h s ns).2
        = (keysLevel h (ns.map Prod.fst)).map
            (fun q => (q, nodeVal Hf L' (h + 1) q)) ∧
    (levelRun Hf h s ns).1.leaves = s.leaves ∧
    (levelRun Hf h s ns).1.root = s.root ∧
    (∀ bk : BranchKey, bk.1 ≠ h →
      (levelRun Hf h s ns).1.branches bk = s.branches bk) := by
  intro s ns
  induction s, ns using levelRun.induct Hf h with
  | case1 s =>
      intro _ _ _ _ _
      refine ⟨?_, rfl, rfl, fun bk _ => rfl⟩
      show ([] : List (Nat × MergeValue)) = _
      rw [List.map_nil, keysLevel_nil, List.map_nil]
  | case2 s ck cv =>
      intro hsort hprops hvals hreads hsib5
      have hck := hprops (ck, cv) (List.mem_cons_self _ _)
      have hal : ck % 2 ^ h = 0 := hck.1
      have hcv : cv = nodeVal Hf L' h ck :=
        hvals (ck, cv) (List.mem_cons_self _ _)
      have hread : s.branches (h, clearLow (h + 1) ck)
          = canonBranch Hf L h (clearLow (h + 1) ck) := by
        simpa only [parentPath] using hreads (ck, cv) (List.mem_cons_self _ _)
      set sib := (if ck.testBit h = true then clearLow (h + 1) ck
        else clearLow (h + 1) ck + 2 ^ h) with hsibdef
      have hsibPar : clearLow (h + 1) sib = clearLow (h + 1) ck := by
        rw [hsibdef]
        rcases Bool.eq_false_or_eq_true (ck.testBit h) with htb | htb
        · rw [htb, if_pos rfl]
          exact clearLow_of_aligned (clearLow_aligned _ _)
        · rw [htb, if_neg (by simp)]
          exact clearLow_succ_add_pow (clearLow_aligned _ _)
      have hsibNe : sib ≠ ck := by
        rw [hsibdef]
        have hpow : 0 < 2 ^ h := Nat.pos_pow_of_pos _ (by norm_num)
        rcases Bool.eq_false_or_eq_true (ck.testBit h) with htb | htb
        · rw [htb, if_pos rfl]
          have hpk := clearLow_succ_of_testBit_true htb
          rw [clearLow_of_aligned hal] at hpk
          omega
        · rw [htb, if_neg (by simp)]
          have hps : ck % 2 ^ (h + 1) = 0 := (aligned_succ_iff hal).mp htb
          have hpk : clearLow (h + 1) ck = ck := clearLow_of_aligned hps
          omega
      have hout : ∀ j, clearLow h j = sib → L j = L' j := by
        intro j hj
        have hparj : clearLow (h + 1) j = parentPath h ck := by
          simp only [parentPath]
          calc clearLow (h + 1) j
              = clearLow (h + 1) (clearLow h j) :=
                (clearLow_clearLow (Nat.le_succ h) j).symm
            _ = clearLow (h + 1) ck := by rw [hj, hsibPar]
        have hnej : clearLow h j ≠ ck := by rw [hj]; exact hsibNe
        rcases hsib5 (ck, cv) (List.mem_cons_self _ _) j hparj hnej with
          hmem | hLj
        · exfalso
          rw [hj] at hmem
          have hm2 : sib ∈ [ck] := hmem
          exact hsibNe (List.mem_singleton.mp hm2)
        · exact hLj
      have hsib : nodeVal Hf L h sib = nodeVal Hf L' h sib := by
        rw [hsibdef]
        exact sibling_subtree_eq Hf L L' h ck (by rw [← hsibdef]; exact hout)
      have hstep := levelNode_canon Hf L L' h s ck cv hal hread hcv
        (by rw [← hsibdef]; exact hsib)
      have heq2 : levelRun Hf h s [(ck, cv)]
          = ((levelNode Hf h s ck cv).1, [(levelNode Hf h s ck cv).2]) := rfl
      refine ⟨?_, ?_, ?_, ?_⟩
      · rw [heq2, hstep]
        show [(clearLow (h + 1) ck, nodeVal Hf L' (h + 1) (clearLow (h + 1) ck))]
          = (keysLevel h ([(ck, cv)].map Prod.fst)).map
              (fun q => (q, nodeVal Hf L' (h + 1) q))
        have hmap : [(ck, cv)].map Prod.fst = [ck] := rfl
        rw [hmap, keysLevel_singleton]
        simp only [List.map_cons, List.map_nil, parentPath]
      · rw [heq2, hstep]
      · rw [heq2, hstep]
      · intro bk hbk
        rw [heq2, hstep]
        show (if bk = ((h : Nat), clearLow (h + 1) ck)
            then canonBranch Hf L' h (clearLow (h + 1) ck)
            else s.branches bk) = s.branches bk
        rw [if_neg]
        intro hc
        rw [hc] at hbk
        exact hbk rfl
  | case3 s ck cv nk nv rest hcond =>
      rename_i pk s1 ih
      intro hsort hprops hvals hreads hsib5
      have hpkv : pk = parentPath h ck := rfl
      have hs1v : s1 = writeBranch s (h, parentPath h ck) cv nv := rfl
      have hmap : ((ck, cv) :: (nk, nv) :: rest).map Prod.fst
          = ck :: nk :: rest.map Prod.fst := rfl
      rw [hmap] at hsort hsib5
      have hcond2 : isRight h ck = false ∧ setBit h ck = nk := by
        simpa [Bool.and_eq_true, Bool.not_eq_true', beq_iff_eq] using hcond
      have hbit : ck.testBit h = false := hcond2.1
      have hck := hprops (ck, cv) (List.mem_cons_self _ _)
      have hal : ck % 2 ^ h = 0 := hck.1
      have hcknk : ck < nk :=
        (List.pairwise_cons.mp hsort).1 nk (List.mem_cons_self _ _)
      have hps : ck % 2 ^ (h + 1) = 0 := (aligned_succ_iff hal).mp hbit
      have hpkck : parentPath h ck = ck := by
        simp only [parentPath]
        exact clearLow_of_aligned hps
      have hpkck2 : clearLow (h + 1) ck = ck := by
        simpa only [parentPath] using hpkck
      have hnk : nk = ck + 2 ^ h := by
        rw [← hcond2.2, setBit_of_testBit_false hbit]
      have hpknk : clearLow (h + 1) nk = ck := by
        rw [hnk]
        exact clearLow_succ_add_pow hps
      have hcv : cv = nodeVal Hf L' h ck :=
        hvals (ck, cv) (List.mem_cons_self _ _)
      have hnv : nv = nodeVal Hf L' h nk :=
        hvals (nk, nv) (List.mem_cons_of_mem _ (List.mem_cons_self _ _))
      have hs1 : writeBranch s (h, parentPath h ck) cv nv
          = ⟨fun j => if j = (h, ck) then canonBranch Hf L' h ck
              else s.branches j, s.leaves, s.root⟩ := by
        rw [hpkck, hcv, hnv, hnk]
        exact writeBranch_canon Hf L' h ck s
      have hparents : ∀ pr : Nat × MergeValue, pr ∈ rest →
          ck < parentPath h pr.1 := by
        intro pr hpr
        have hnkpr : nk < pr.1 :=
          (List.pairwise_cons.mp (List.pairwise_cons.mp hsort).2).1 pr.1
            (List.mem_map_of_mem Prod.fst hpr)
        have hprp := hprops pr
          (List.mem_cons_of_mem _ (List.mem_cons_of_mem _ hpr))
        have hlt : parentPath h ck < parentPath h pr.1 :=
          parentPath_lt_of_gap hal hprp.1 (by omega) (Or.inr (by omega))
        rwa [hpkck] at hlt
      have ihsort : List.Pairwise (· < ·) (rest.map Prod.fst) :=
        (List.pairwise_cons.mp (List.pairwise_cons.mp hsort).2).2
      have ihprops : ∀ pr ∈ rest, pr.1 % 2 ^ h = 0 ∧ pr.1 < 2 ^ 256 :=
        fun pr hpr => hprops pr
          (List.mem_cons_of_mem _ (List.mem_cons_of_mem _ hpr))
      have ihvals : ∀ pr ∈ rest, pr.2 = nodeVal Hf L' h pr.1 :=
        fun pr hpr => hvals pr
          (List.mem_cons_of_mem _ (List.mem_cons_of_mem _ hpr))
      have ihreads : ∀ pr ∈ rest, s1.branches (h, parentPath h pr.1)
          = canonBranch Hf L h (parentPath h pr.1) := by
        intro pr hpr
        rw [hs1v, hs1]
        show (if ((h : Nat), parentPath h pr.1) = ((h : Nat), ck)
            then canonBranch Hf L' h ck
            else s.branches (h, parentPath h pr.1))
          = canonBranch Hf L h (parentPath h pr.1)
        have hc : ((h : Nat), parentPath h pr.1) ≠ ((h : Nat), ck) := by
          intro hc
          have := hparents pr hpr
          rw [Prod.mk.injEq] at hc
          omega
        rw [if_neg hc]
        exact hreads pr (List.mem_cons_of_mem _ (List.mem_cons_of_mem _ hpr))
      have ihsib5 : ∀ pr ∈ rest, ∀ j, clearLow (h + 1) j = parentPath h pr.1 →
          clearLow h j ≠ pr.1 →
          clearLow h j ∈ rest.map Prod.fst ∨ L j = L' j := by
        intro pr hpr j hparj hnej
        rcases hsib5 pr (List.mem_cons_of_mem _ (List.mem_cons_of_mem _ hpr))
          j hparj hnej with hmem | hLj
        · rcases List.mem_cons.mp hmem with hjck | hmem2
          · exfalso
            have hcc : clearLow (h + 1) j = ck := by
              rw [← clearLow_clearLow (Nat.le_succ h) j, hjck]
              exact hpkck2
            have := hparents pr hpr
            simp only [parentPath] at hparj this
            omega
          · rcases List.mem_cons.mp hmem2 with hjnk | hmem3
            · exfalso
              have hcc : clearLow (h + 1) j = ck := by
                rw [← clearLow_clearLow (Nat.le_succ h) j, hjnk]
                exact hpknk
              have := hparents pr hpr
              simp only [parentPath] at hparj this
              omega
            · exact Or.inl hmem3
        · exact Or.inr hLj
      rcases ih ihsort ihprops ihvals ihreads ihsib5 with ⟨iho2, ihlv, ihrt, ihfr⟩
      refine ⟨?_, ?_, ?_, ?_⟩
      · rw [levelRun_cons_cons, if_pos hcond]
        show (parentPath h ck, merge Hf h (parentPath h ck) cv nv)
            :: (levelRun Hf h s1 rest).2
          = (keysLevel h (((ck, cv) :: (nk, nv) :: rest).map Prod.fst)).map
              (fun q => (q, nodeVal Hf L' (h + 1) q))
        rw [iho2, hmap, keysLevel_cons_cons, if_pos hcond]
        simp only [List.map_cons]
        rw [hpkck, hcv, hnv, hnk, nodeVal]
      · rw [levelRun_cons_cons, if_pos hcond]
        show (levelRun Hf h s1 rest).1.leaves = s.leaves
        rw [ihlv, hs1v, hs1]
      · rw [levelRun_cons_cons, if_pos hcond]
        show (levelRun Hf h s1 rest).1.root = s.root
        rw [ihrt, hs1v, hs1]
      · intro bk hbk
        rw [levelRun_cons_cons, if_pos hcond]
        show (levelRun Hf h s1 rest).1.branches bk = s.branches bk
        rw [ihfr bk hbk, hs1v, hs1]
        show (if bk = ((h : Nat), ck) then canonBranch Hf L' h ck
            else s.branches bk) = s.branches bk
        rw [if_neg]
        intro hc
        rw [hc] at hbk
        exact hbk rfl
  | case4 s ck cv nk nv rest hcond =>
      rename_i r0 ih
      intro hsort hprops hvals hreads hsib5
      have hr0v : r0 = levelNode Hf h s ck cv := rfl
      have hmap : ((ck, cv) :: (nk, nv) :: rest).map Prod.fst
          = ck :: nk :: rest.map Prod.fst := rfl
      rw [hmap] at hsort hsib5
      have hck := hprops (ck, cv) (List.mem_cons_self _ _)
      have hal : ck % 2 ^ h = 0 := hck.1
      have hnkp := hprops (nk, nv)
        (List.mem_cons_of_mem _ (List.mem_cons_self _ _))
      have hcknk : ck < nk :=
        (List.pairwise_cons.mp hsort).1 nk (List.mem_cons_self _ _)
      have hcv : cv = nodeVal Hf L' h ck :=
        hvals (ck, cv) (List.mem_cons_self _ _)
      have hread : s.branches (h, clearLow (h + 1) ck)
          = canonBranch Hf L h (clearLow (h + 1) ck) := by
        simpa only [parentPath] using hreads (ck, cv) (List.mem_cons_self _ _)
      have hnknotsib : nk ≠ ck + 2 ^ h ∨ ck.testBit h = true := by
        rcases Bool.eq_false_or_eq_true (ck.testBit h) with htb | htb
        · exact Or.inr htb
        · refine Or.inl ?_
          intro hc
          exact hcond (by
            have hsb : setBit h ck = nk := by
              rw [setBit_of_testBit_false htb, ← hc]
            simp [isRight, htb, hsb])
      have hgapnk : ck + 2 ^ h ≤ nk := aligned_gap hal hnkp.1 hcknk
      have hparents : ∀ t : Nat, t % 2 ^ h = 0 → nk ≤ t →
          parentPath h ck < parentPath h t := by
        intro t hta hnt
        refine parentPath_lt_of_gap hal hta (by omega) ?_
        rcases hnknotsib with hne | htb
        · exact Or.inr (by omega)
        · exact Or.inl htb
      set sib := (if ck.testBit h = true then clearLow (h + 1) ck
        else clearLow (h + 1) ck + 2 ^ h) with hsibdef
      have hsibPar : clearLow (h + 1) sib = clearLow (h + 1) ck := by
        rw [hsibdef]
        rcases Bool.eq_false_or_eq_true (ck.testBit h) with htb | htb
        · rw [htb, if_pos rfl]
          exact clearLow_of_aligned (clearLow_aligned _ _)
        · rw [htb, if_neg (by simp)]
          exact clearLow_succ_add_pow (clearLow_aligned _ _)
      have hsibNe : sib ≠ ck := by
        rw [hsibdef]
        have hpow : 0 < 2 ^ h := Nat.pos_pow_of_pos _ (by norm_num)
        rcases Bool.eq_false_or_eq_true (ck.testBit h) with htb | htb
        · rw [htb, if_pos rfl]
          have hpk := clearLow_succ_of_testBit_true htb
          rw [clearLow_of_aligned hal] at hpk
          omega
        · rw [htb, if_neg (by simp)]
          have hps : ck % 2 ^ (h + 1) = 0 := (aligned_succ_iff hal).mp htb
          have hpk : clearLow (h + 1) ck = ck := clearLow_of_aligned hps
          omega
      have hsiblt : sib < nk := by
        rw [hsibdef]
        rcases Bool.eq_false_or_eq_true (ck.testBit h) with htb | htb
        · rw [htb, if_pos rfl]
          exact lt_of_le_of_lt (clearLow_le _ _) hcknk
        · rw [htb, if_neg (by simp)]
          have hps : ck % 2 ^ (h + 1) = 0 := (aligned_succ_iff hal).mp htb
          rw [clearLow_of_aligned hps]
          rcases hnknotsib with hne | htb2
          · omega
          · rw [htb] at htb2
            exact Bool.noConfusion htb2
      have hout : ∀ j, clearLow h j = sib → L j = L' j := by
        intro j hj
        have hparj : clearLow (h + 1) j = parentPath h ck := by
          simp only [parentPath]
          calc clearLow (h + 1) j
              = clearLow (h + 1) (clearLow h j) :=
                (clearLow_clearLow (Nat.le_succ h) j).symm
            _ = clearLow (h + 1) ck := by rw [hj, hsibPar]
        have hnej : clearLow h j ≠ ck := by rw [hj]; exact hsibNe
        rcases hsib5 (ck, cv) (List.mem_cons_self _ _) j hparj hnej with
          hmem | hLj
        · exfalso
          rw [hj] at hmem
          rcases List.mem_cons.mp hmem with h1 | hmem2
          · exact hsibNe h1
          · rcases List.mem_cons.mp hmem2 with h2 | hmem3
            · omega
            · rcases List.mem_map.mp hmem3 with ⟨pr, hpr, hfst⟩
              have hnkpr : nk < pr.1 :=
                (List.pairwise_cons.mp (List.pairwise_cons.mp hsort).2).1 pr.1
                  (List.mem_map_of_mem Prod.fst hpr)
              omega
        · exact hLj
      have hsib : nodeVal Hf L h sib = nodeVal Hf L' h sib := by
        rw [hsibdef]
        exact sibling_subtree_eq Hf L L' h ck (by rw [← hsibdef]; exact hout)
      have hstep := levelNode_canon Hf L L' h s ck cv hal hread hcv
        (by rw [← hsibdef]; exact hsib)
      have htail_ge : ∀ pr : Nat × MergeValue, pr ∈ (nk, nv) :: rest →
          nk ≤ pr.1 := by
        intro pr hpr
        rcases List.mem_cons.mp hpr with rfl | hpr2
        · exact Nat.le_refl _
        · exact le_of_lt
            ((List.pairwise_cons.mp (List.pairwise_cons.mp hsort).2).1 pr.1
              (List.mem_map_of_mem Prod.fst hpr2))
      have ihsort : List.Pairwise (· < ·) (((nk, nv) :: rest).map Prod.fst) := by
        have hmap2 : ((nk, nv) :: rest).map Prod.fst
            = nk :: rest.map Prod.fst := rfl
        rw [hmap2]
        exact (List.pairwise_cons.mp hsort).2
      have ihprops : ∀ pr ∈ (nk, nv) :: rest,
          pr.1 % 2 ^ h = 0 ∧ pr.1 < 2 ^ 256 :=
        fun pr hpr => hprops pr (List.mem_cons_of_mem _ hpr)
      have ihvals : ∀ pr ∈ (nk, nv) :: rest, pr.2 = nodeVal Hf L' h pr.1 :=
        fun pr hpr => hvals pr (List.mem_cons_of_mem _ hpr)
      have ihreads : ∀ pr ∈ (nk, nv) :: rest,
          r0.1.branches (h, parentPath h pr.1)
            = canonBranch Hf L h (parentPath h pr.1) := by
        intro pr hpr
        have hprp := ihprops pr hpr
        have hlt : parentPath h ck < parentPath h pr.1 :=
          hparents pr.1 hprp.1 (htail_ge pr hpr)
        rw [hr0v, hstep]
        show (if ((h : Nat), parentPath h pr.1)
              = ((h : Nat), clearLow (h + 1) ck)
            then canonBranch Hf L' h (clearLow (h + 1) ck)
            else s.branches (h, parentPath h pr.1))
          = canonBranch Hf L h (parentPath h pr.1)
        have hc : ((h : Nat), parentPath h pr.1)
            ≠ ((h : Nat), clearLow (h + 1) ck) := by
          intro hc
          simp only [parentPath, Prod.mk.injEq] at hc
          simp only [parentPath] at hlt
          omega
        rw [if_neg hc]
        exact hreads pr (List.mem_cons_of_mem _ hpr)
      have ihsib5 : ∀ pr ∈ (nk, nv) :: rest, ∀ j,
          clearLow (h + 1) j = parentPath h pr.1 → clearLow h j ≠ pr.1 →
          clearLow h j ∈ ((nk, nv) :: rest).map Prod.fst ∨ L j = L' j := by
        intro pr hpr j hparj hnej
        rcases hsib5 pr (List.mem_cons_of_mem _ hpr) j hparj hnej with
          hmem | hLj
        · rcases List.mem_cons.mp hmem with hjck | hmem2
          · exfalso
            have hprp := ihprops pr hpr
            have hlt : parentPath h ck < parentPath h pr.1 :=
              hparents pr.1 hprp.1 (htail_ge pr hpr)
            have hcc : clearLow (h + 1) j = clearLow (h + 1) ck := by
              rw [← clearLow_clearLow (Nat.le_succ h) j, hjck]
            simp only [parentPath] at hparj hlt
            omega
          · exact Or.inl hmem2
        · exact Or.inr hLj
      rcases ih ihsort ihprops ihvals ihreads ihsib5 with ⟨iho2, ihlv, ihrt, ihfr⟩
      refine ⟨?_, ?_, ?_, ?_⟩
      · rw [levelRun_cons_cons, if_neg hcond]
        show r0.2 :: (levelRun Hf h r0.1 ((nk, nv) :: rest)).2
          = (keysLevel h (((ck, cv) :: (nk, nv) :: rest).map Prod.fst)).map
              (fun q => (q, nodeVal Hf L' (h + 1) q))
        have hmap2 : ((nk, nv) :: rest).map Prod.fst
            = nk :: rest.map Prod.fst := rfl
        rw [iho2, hmap2, hmap, keysLevel_cons_cons, if_neg hcond]
        simp only [List.map_cons]
        rw [hr0v, hstep]
        show (clearLow (h + 1) ck, nodeVal Hf L' (h + 1) (clearLow (h + 1) ck))
            :: (keysLevel h (nk :: rest.map Prod.fst)).map
              (fun q => (q, nodeVal Hf L' (h + 1) q))
          = (parentPath h ck, nodeVal Hf L' (h + 1) (parentPath h ck))
            :: (keysLevel h (nk :: rest.map Prod.fst)).map
              (fun q => (q, nodeVal Hf L' (h + 1) q))
        simp only [parentPath]
      · rw [levelRun_cons_cons, if_neg hcond]
        show (levelRun Hf h r0.1 ((nk, nv) :: rest)).1.leaves = s.leaves
        rw [ihlv, hr0v, hstep]
      · rw [levelRun_cons_cons, if_neg hcond]
        show (levelRun Hf h r0.1 ((nk, nv) :: rest)).1.root = s.root
        rw [ihrt, hr0v, hstep]
      · intro bk hbk
        rw [levelRun_cons_cons, if_neg hcond]
        show (levelRun Hf h r0.1 ((nk, nv) :: rest)).1.branches bk
          = s.branches bk
        rw [ihfr bk hbk, hr0v, hstep]
        show (if bk = ((h : Nat), clearLow (h + 1) ck)
            then canonBranch Hf L' h (clearLow (h + 1) ck)
            else s.branches bk) = s.branches bk
        rw [if_neg]
        intro hc
        rw [hc] at hbk
        exact hbk rfl

/-- The 256 passes of hash_recompute_all, run on the canonical leaf values of
a strictly ascending bounded key list over a store whose branches are
canonical for the old leaf map, end with the canonical node values of the
final key trace; the leaf map is untouched. -/
theorem levelsRun_canon (Hf : HashFn) (L L' : Nat → Option Nat)
    (ks : List Nat) (s0 : Store)
    (hksort : List.Pairwise (· < ·) ks) (hkb : ∀ k ∈ ks, k < 2 ^ 256)
    (hbr : ∀ h p, h ≤ 255 → p < 2 ^ 256 → p % 2 ^ (h + 1) = 0 →
      s0.branches (h, p) = canonBranch Hf L h p)
    (hU : ∀ j, L j ≠ L' j → j ∈ ks) :
    (levelsRun Hf (ks.map (fun k => (k, nodeVal Hf L' 0 k))) s0).2
      = (batchPrefixes ks 256).map (fun q => (q, nodeVal Hf L' 256 q)) := by
  rw [levelsRun]
  have main := foldl_range_inv (fun st h => levelRun Hf h st.1 st.2)
    (fun h st =>
      st.2 = (batchPrefixes ks h).map (fun q => (q, nodeVal Hf L' h q)) ∧
      (∀ bk : BranchKey, h ≤ bk.1 → st.1.branches bk = s0.branches bk))
    256 (s0, ks.map (fun k => (k, nodeVal Hf L' 0 k))) ?base ?step
  · exact main.1
  case base =>
    refine ⟨?_, fun bk _ => rfl⟩
    rw [batchPrefixes]
  case step =>
    intro h st hh hP
    obtain ⟨hns, hfr⟩ := hP
    rcases batchPrefixes_props ks hksort hkb h with ⟨htsort, htprops, -⟩
    have hkeq : st.2.map Prod.fst = batchPrefixes ks h := by
      rw [hns, map_fst_mk]
    have hmemfst : ∀ pr : Nat × MergeValue, pr ∈ st.2 →
        pr.1 ∈ batchPrefixes ks h ∧ pr.2 = nodeVal Hf L' h pr.1 := by
      intro pr hpr
      rw [hns] at hpr
      rcases List.mem_map.mp hpr with ⟨q, hq, rfl⟩
      exact ⟨hq, rfl⟩
    have hcan := levelRun_canon Hf h L L' st.1 st.2
      (by rw [hkeq]; exact htsort)
      (fun pr hpr => htprops pr.1 (hmemfst pr hpr).1)
      (fun pr hpr => (hmemfst pr hpr).2)
      (fun pr hpr => by
        have hq := htprops pr.1 (hmemfst pr hpr).1
        have hval : parentPath h pr.1 % 2 ^ (h + 1) = 0 := clearLow_aligned _ _
        have hlt : parentPath h pr.1 < 2 ^ 256 := clearLow_lt hq.2
        rw [hfr (h, parentPath h pr.1) (Nat.le_refl h)]
        exact hbr h (parentPath h pr.1) (by omega) hlt hval)
      (fun pr hpr j _ _ => by
        by_cases hLj : L j = L' j
        · exact Or.inr hLj
        · refine Or.inl ?_
          rw [hkeq]
          exact batchPrefixes_mem ks h j (hU j hLj))
    obtain ⟨ho2, _, _, hofr⟩ := hcan
    refine ⟨?_, ?_⟩
    · show (levelRun Hf h st.1 st.2).2 = _
      rw [ho2, hkeq]
      show (keysLevel h (batchPrefixes ks h)).map _
        = (batchPrefixes ks (h + 1)).map _
      rw [batchPrefixes]
    · intro bk hbk
      show (levelRun Hf h st.1 st.2).1.branches bk = s0.branches bk
      rw [hofr bk (by omega), hfr bk (by omega)]

/-- C1: for every invariant-holding (reachable) tree and non-empty batch B of
bounded keys, update_all(B) returns normally and both its returned root and
its stored root equal the root reached by applying the deduplicated
last-wins normalization of B (reverse, stable sort by key, first survivor
per key) as a sequence of individual update calls. -/
theorem update_all_eq_sequential_updates (Hf : HashFn) (s : Store)
    (B : List (Nat × Nat)) (hInv : Inv Hf s) (hB : B ≠ [])
    (hBk : ∀ p ∈ B, p.1 < 2 ^ 256) :
    ∃ st, updateAll Hf B s
        = some (st, (applySeq Hf (normalizePairs B) s).root) ∧
      st.root = (applySeq Hf (normalizePairs B) s).root := by
  set ps := normalizePairs B with hps
  have hstrict : List.Pairwise (fun a b : Nat × Nat => a.1 < b.1) ps :=
    normalizePairs_strict B
  have hksort : List.Pairwise (· < ·) (ps.map Prod.fst) :=
    List.pairwise_map.mpr hstrict
  have hpsb : ∀ p ∈ ps, p.1 < 2 ^ 256 :=
    fun p hp => hBk p (normalizePairs_subset B p hp)
  have hkb : ∀ k ∈ ps.map Prod.fst, k < 2 ^ 256 := by
    intro k hk
    rcases List.mem_map.mp hk with ⟨p, hp, rfl⟩
    exact hpsb p hp
  have hkdist : List.Pairwise (fun a b : Nat × Nat => a.1 ≠ b.1) ps :=
    hstrict.imp (fun hab => Nat.ne_of_lt hab)
  have hpsne : ps ≠ [] := normalizePairs_ne_nil hB
  have hksne : ps.map Prod.fst ≠ [] := by
    intro hc
    exact hpsne (List.map_eq_nil_iff.mp hc)
  -- the sequential side stores the canonical root of the final leaf map
  rcases applySeq_inv Hf ps s hInv hpsb with ⟨hInvS, hlvS⟩
  set L' := appliedLeaves ps s.leaves with hL'
  have hrootS : (applySeq Hf ps s).root = rootOf Hf L' := by
    rw [hInvS.rootCanon, hlvS]
  -- the leaf-writing loop of update_all
  have hwv : writeLeaves ps s
      = ps.foldl writeLeafStep ((s, []) : Store × List (Nat × MergeValue)) :=
    rfl
  rcases writeLeaves_fold_fst ps (s, []) with ⟨hwb, hwr, hwl⟩
  have hns : (writeLeaves ps s).2
      = (ps.map Prod.fst).map (fun k => (k, nodeVal Hf L' 0 k)) := by
    rw [writeLeaves, writeLeaves_snd, List.nil_append, List.map_map]
    refine List.map_congr_left ?_
    intro p hp
    show (p.1, MergeValue.fromH256 p.2) = (p.1, nodeVal Hf L' 0 p.1)
    have hL'p : L' p.1 = if p.2 = 0 then none else some p.2 :=
      appliedLeaves_mem ps s.leaves hkdist p hp
    have hnv : nodeVal Hf L' 0 p.1 = MergeValue.fromH256 p.2 := by
      rw [nodeVal, hL'p]
      by_cases hz : p.2 = 0
      · rw [if_pos hz, hz]
        rfl
      · rw [if_neg hz]
        rfl
    rw [hnv]
  -- the recompute passes compute the canonical values of the key trace
  have hlr := levelsRun_canon Hf s.leaves L' (ps.map Prod.fst)
    (writeLeaves ps s).1 hksort hkb
    (fun h p hh hp hal => by
      rw [hwv, hwb]
      exact hInv.branchesCanon h p hh hp hal)
    (fun j hne => by
      by_contra hnot
      refine hne ?_
      refine (appliedLeaves_outside ps s.leaves j ?_).symm
      intro p hp hc
      exact hnot (hc ▸ List.mem_map_of_mem Prod.fst hp))
  have hfin : (levelsRun Hf (writeLeaves ps s).2 (writeLeaves ps s).1).2
      = [(0, nodeVal Hf L' 256 0)] := by
    rw [hns, hlr, batchPrefixes_final (ps.map Prod.fst) hksort hkb hksne]
    rfl
  have hup : updateAll Hf B s
      = some (updateRoot
          (levelsRun Hf (writeLeaves ps s).2 (writeLeaves ps s).1).1
          (nodeVal Hf L' 256 0).hash, (nodeVal Hf L' 256 0).hash) := by
    show hashRecomputeAll Hf (writeLeaves ps s).2 (writeLeaves ps s).1 = _
    exact hashRecomputeAll_cons Hf _ _ (0, nodeVal Hf L' 256 0) [] hfin
  have hhash : (nodeVal Hf L' 256 0).hash = rootOf Hf L' := rfl
  refine ⟨updateRoot
      (levelsRun Hf (writeLeaves ps s).2 (writeLeaves ps s).1).1
      (nodeVal Hf L' 256 0).hash, ?_, ?_⟩
  · rw [hrootS, ← hhash, hup]
  · show (nodeVal Hf L' 256 0).hash = (applySeq Hf ps s).root
    rw [hrootS, ← hhash]

/-- Witness for C1 at a three-pair batch with a duplicated key over the
empty store. -/
theorem update_all_eq_sequential_updates_witness :
    ∃ st, updateAll toyHf [(0, 5), (0, 7), (1, 4)] emptyStore
        = some (st,
          (applySeq toyHf (normalizePairs [(0, 5), (0, 7), (1, 4)])
            emptyStore).root) ∧
      st.root = (applySeq toyHf (normalizePairs [(0, 5), (0, 7), (1, 4)])
        emptyStore).root :=
  update_all_eq_sequential_updates toyHf emptyStore [(0, 5), (0, 7), (1, 4)]
    (inv_empty toyHf) (by simp) (by decide)

/-! ### Domain independence of the double-keyed store -/

/-- Everything outside domain x is untouched between the two stores. -/
def OtherFrame {X : Type} (x : X) (s s' : Store2 X) : Prop :=
  (∀ y, y ≠ x → s'.roots y = s.roots y) ∧
  (∀ j : X × BranchKey, j.1 ≠ x → s'.branches j = s.branches j) ∧
  (∀ j : X × Nat, j.1 ≠ x → s'.leaves j = s.leaves j)

theorem otherFrame_refl {X : Type} (x : X) (s : Store2 X) : OtherFrame x s s :=
  ⟨fun _ _ => rfl, fun _ _ => rfl, fun _ _ => rfl⟩

theorem otherFrame_trans {X : Type} {x : X} {s s1 s2 : Store2 X}
    (h1 : OtherFrame x s s1) (h2 : OtherFrame x s1 s2) : OtherFrame x s s2 :=
  ⟨fun y hy => (h2.1 y hy).trans (h1.1 y hy),
   fun j hj => (h2.2.1 j hj).trans (h1.2.1 j hj),
   fun j hj => (h2.2.2 j hj).trans (h1.2.2 j hj)⟩

theorem otherFrame_insertBranch2 {X : Type} [DecidableEq X] (s : Store2 X)
    (x : X) (bk : BranchKey) (b : BranchNode) :
    OtherFrame x s (insertBranch2 s x bk b) := by
  refine ⟨fun y hy => rfl, fun j hj => ?_, fun j hj => rfl⟩
  show (if j = (x, bk) then some b else s.branches j) = s.branches j
  rw [if_neg]
  intro hc
  exact hj (by rw [hc])

theorem otherFrame_removeBranch2 {X : Type} [DecidableEq X] (s : Store2 X)
    (x : X) (bk : BranchKey) : OtherFrame x s (removeBranch2 s x bk) := by
  refine ⟨fun y hy => rfl, fun j hj => ?_, fun j hj => rfl⟩
  show (if j = (x, bk) then none else s.branches j) = s.branches j
  rw [if_neg]
  intro hc
  exact hj (by rw [hc])

theorem otherFrame_insertLeaf2 {X : Type} [DecidableEq X] (s : Store2 X)
    (x : X) (k v : Nat) : OtherFrame x s (insertLeaf2 s x k v) := by
  refine ⟨fun y hy => rfl, fun j hj => rfl, fun j hj => ?_⟩
  show (if j = (x, k) then some v else s.leaves j) = s.leaves j
  rw [if_neg]
  intro hc
  exact hj (by rw [hc])

theorem otherFrame_removeLeaf2 {X : Type} [DecidableEq X] (s : Store2 X)
    (x : X) (k : Nat) : OtherFrame x s (removeLeaf2 s x k) := by
  refine ⟨fun y hy => rfl, fun j hj => rfl, fun j hj => ?_⟩
  show (if j = (x, k) then none else s.leaves j) = s.leaves j
  rw [if_neg]
  intro hc
  exact hj (by rw [hc])

theorem otherFrame_updateRoot2 {X : Type} [DecidableEq X] (s : Store2 X)
    (x : X) (r : Nat) : OtherFrame x s (updateRoot2 s x r) := by
  refine ⟨fun y hy => ?_, fun j hj => rfl, fun j hj => rfl⟩
  show (if y = x then some r else s.roots y) = s.roots y
  rw [if_neg hy]

theorem otherFrame_removeX {X : Type} [DecidableEq X] (s : Store2 X) (x : X) :
    OtherFrame x s (removeX s x) := by
  refine ⟨fun y hy => ?_, fun j hj => ?_, fun j hj => ?_⟩
  · show (if y = x then none else s.roots y) = s.roots y
    rw [if_neg hy]
  · show (if j.1 = x then none else s.branches j) = s.branches j
    rw [if_neg hj]
  · show (if j.1 = x then none else s.leaves j) = s.leaves j
    rw [if_neg hj]

theorem otherFrame_writeBranch2 {X : Type} [DecidableEq X] (s : Store2 X)
    (x : X) (bk : BranchKey) (l r : MergeValue) :
    OtherFrame x s (writeBranch2 s x bk l r) := by
  rw [writeBranch2]
  split
  · exact otherFrame_insertBranch2 s x bk _
  · exact otherFrame_removeBranch2 s x bk

theorem otherFrame_hashRecompute2 {X : Type} [DecidableEq X] (Hf : HashFn)
    (x : X) (k : Nat) (n : MergeValue) (s : Store2 X) :
    OtherFrame x s (hashRecompute2 Hf x k n s).1 := by
  have hfold := foldl_pres (recomputeStep2 Hf x)
    (fun st => OtherFrame x s st.2.2)
    (fun a b ha => otherFrame_trans ha (otherFrame_writeBranch2 a.2.2 x _ _ _))
    (List.range 256) (k, n, s) (otherFrame_refl x s)
  exact otherFrame_trans hfold (otherFrame_updateRoot2 _ x _)

/-- The cons-cons unfolding of levelRun2, stated with the lets expanded. -/
theorem levelRun2_cons_cons {X : Type} [DecidableEq X] (Hf : HashFn) (x : X)
    (h : Nat) (s : Store2 X) (ck : Nat) (cv : MergeValue) (nk : Nat)
    (nv : MergeValue) (rest : List (Nat × MergeValue)) :
    levelRun2 Hf x h s ((ck, cv) :: (nk, nv) :: rest)
      = if !isRight h ck && (setBit h ck == nk) then
          ((levelRun2 Hf x h (writeBranch2 s x (h, parentPath h ck) cv nv) rest).1,
           (parentPath h ck, merge Hf h (parentPath h ck) cv nv)
             :: (levelRun2 Hf x h
                  (writeBranch2 s x (h, parentPath h ck) cv nv) rest).2)
        else
          ((levelRun2 Hf x h (levelNode2 Hf x h s ck cv).1 ((nk, nv) :: rest)).1,
           (levelNode2 Hf x h s ck cv).2
             :: (levelRun2 Hf x h (levelNode2 Hf x h s ck cv).1
                  ((nk, nv) :: rest)).2) := rfl

theorem otherFrame_levelRun2 {X : Type} [DecidableEq X] (Hf : HashFn) (x : X)
    (h : Nat) : ∀ (s : Store2 X) (ns : List (Nat × MergeValue)),
    OtherFrame x s (levelRun2 Hf x h s ns).1 := by
  intro s ns
  induction s, ns using levelRun2.induct Hf x h with
  | case1 s => exact otherFrame_refl x s
  | case2 s ck cv =>
      rw [levelRun2]
      exact otherFrame_writeBranch2 s x _ _ _
  | case3 s ck cv nk nv rest hcond =>
      rename_i pk s1 ih
      rw [levelRun2_cons_cons, if_pos hcond]
      exact otherFrame_trans (otherFrame_writeBranch2 s x _ _ _) ih
  | case4 s ck cv nk nv rest hcond =>
      rename_i r0 ih
      rw [levelRun2_cons_cons, if_neg hcond]
      exact otherFrame_trans (otherFrame_writeBranch2 s x _ _ _) ih

theorem otherFrame_hashRecomputeAll2 {X : Type} [DecidableEq X] (Hf : HashFn)
    (x : X) (ns : List (Nat × MergeValue)) (s s' : Store2 X) (r : Nat)
    (hrun : hashRecomputeAll2 Hf x ns s = some (s', r)) :
    OtherFrame x s s' := by
  have hfold := foldl_pres (fun st h => levelRun2 Hf x h st.1 st.2)
    (fun st : Store2 X × List (Nat × MergeValue) => OtherFrame x s st.1)
    (fun a b ha => otherFrame_trans ha (otherFrame_levelRun2 Hf x b a.1 a.2))
    (List.range 256) (s, ns) (otherFrame_refl x s)
  obtain ⟨F, hF⟩ : ∃ F, (List.range 256).foldl
      (fun st h => levelRun2 Hf x h st.1 st.2) (s, ns) = F := ⟨_, rfl⟩
  rw [hF] at hfold
  rw [hashRecomputeAll2, hF] at hrun
  rcases hfin : F.2 with _ | ⟨nd, tl⟩
  · simp only [hfin] at hrun
    exact Option.noConfusion hrun
  · simp only [hfin] at hrun
    injection hrun with hrun
    rw [Prod.mk.injEq] at hrun
    rw [← hrun.1]
    exact otherFrame_trans hfold (otherFrame_updateRoot2 _ x _)

theorem otherFrame_writeLeaf2 {X : Type} [DecidableEq X] (x : X)
    (t : Store2 X) (key v : Nat) :
    OtherFrame x t (if !(MergeValue.fromH256 v).isZero
      then insertLeaf2 t x key v else removeLeaf2 t x key) := by
  split
  · exact otherFrame_insertLeaf2 t x key v
  · exact otherFrame_removeLeaf2 t x key

theorem otherFrame_applyOp2 {X : Type} [DecidableEq X] (Hf : HashFn)
    (op : Op2) (x : X) (s s' : Store2 X)
    (hrun : applyOp2 Hf op x s = some s') : OtherFrame x s s' := by
  rcases op with ⟨k, v⟩ | k | ps | ks | _
  · injection hrun with hrun
    rw [← hrun]
    have he : update2 Hf x k v s
        = hashRecompute2 Hf x k (MergeValue.fromH256 v)
          (if !(MergeValue.fromH256 v).isZero
           then insertLeaf2 s x k v else removeLeaf2 s x k) := rfl
    rw [he]
    exact otherFrame_trans (otherFrame_writeLeaf2 x s k v)
      (otherFrame_hashRecompute2 Hf x k _ _)
  · injection hrun with hrun
    rw [← hrun]
    exact otherFrame_trans (otherFrame_removeLeaf2 s x k)
      (otherFrame_hashRecompute2 Hf x k _ _)
  · rw [applyOp2] at hrun
    rcases hua : updateAll2 Hf x ps s with _ | ⟨s2, r⟩
    · rw [hua] at hrun
      exact Option.noConfusion hrun
    · rw [hua] at hrun
      injection hrun with hrun
      rw [updateAll2] at hua
      have hfold := foldl_pres
        (fun (st : Store2 X × List (Nat × MergeValue)) (p : Nat × Nat) =>
          ((if !(MergeValue.fromH256 p.2).isZero
            then insertLeaf2 st.1 x p.1 p.2 else removeLeaf2 st.1 x p.1),
           st.2 ++ [(p.1, MergeValue.fromH256 p.2)]))
        (fun st => OtherFrame x s st.1)
        (fun a b ha => otherFrame_trans ha (otherFrame_writeLeaf2 x a.1 b.1 b.2))
        (normalizePairs ps) (s, []) (otherFrame_refl x s)
      rw [← hrun]
      exact otherFrame_trans hfold
        (otherFrame_hashRecomputeAll2 Hf x _ _ s2 r hua)
  · rw [applyOp2] at hrun
    rcases hua : removeAll2 Hf x ks s with _ | ⟨s2, r⟩
    · rw [hua] at hrun
      exact Option.noConfusion hrun
    · rw [hua] at hrun
      injection hrun with hrun
      rw [removeAll2] at hua
      have hfold := foldl_pres
        (fun (st : Store2 X × List (Nat × MergeValue)) (k : Nat) =>
          (removeLeaf2 st.1 x k, st.2 ++ [(k, MergeValue.zero)]))
        (fun st => OtherFrame x s st.1)
        (fun a b ha => otherFrame_trans ha (otherFrame_removeLeaf2 a.1 x b))
        (normalizeKeys ks) (s, []) (otherFrame_refl x s)
      rw [← hrun]
      exact otherFrame_trans hfold
        (otherFrame_hashRecomputeAll2 Hf x _ _ s2 r hua)
  · injection hrun with hrun
    rw [← hrun]
    exact otherFrame_removeX s x

/-- C8: any mutation (update, remove, update_all, remove_all, remove_x)
under domain xa leaves the root, branches and leaves of every other domain
xb unchanged, and remove_x resets the mutated domain's root to zero while
touching nothing of any other domain. -/
theorem domain_independence {X : Type} [DecidableEq X] (Hf : HashFn)
    (op : Op2) (xa : X) (s s' : Store2 X)
    (hrun : applyOp2 Hf op xa s = some s') :
    (∀ xb, xb ≠ xa →
      getRoot2 s' xb = getRoot2 s xb ∧
      (∀ bk, s'.branches (xb, bk) = s.branches (xb, bk)) ∧
      (∀ k, s'.leaves (xb, k) = s.leaves (xb, k))) ∧
    (getRoot2 (removeX s xa) xa = 0 ∧
     ∀ xb, xb ≠ xa →
       getRoot2 (removeX s xa) xb = getRoot2 s xb ∧
       (∀ bk, (removeX s xa).branches (xb, bk) = s.branches (xb, bk)) ∧
       (∀ k, (removeX s xa).leaves (xb, k) = s.leaves (xb, k))) := by
  have hfr := otherFrame_applyOp2 Hf op xa s s' hrun
  have hfrx := otherFrame_removeX s xa
  constructor
  · intro xb hxb
    exact ⟨by rw [getRoot2, getRoot2, hfr.1 xb hxb],
      fun bk => hfr.2.1 (xb, bk) hxb, fun k => hfr.2.2 (xb, k) hxb⟩
  constructor
  · show ((if xa = xa then none else s.roots xa).getD 0 : Nat) = 0
    rw [if_pos rfl]
    rfl
  · intro xb hxb
    exact ⟨by rw [getRoot2, getRoot2, hfrx.1 xb hxb],
      fun bk => hfrx.2.1 (xb, bk) hxb, fun k => hfrx.2.2 (xb, k) hxb⟩

/-- Witness for C8: one update under domain 0 of the empty double store. -/
theorem domain_independence_witness :
    (∀ xb : Nat, xb ≠ 0 →
      getRoot2 (update2 toyHf 0 5 7 (emptyStore2 Nat)).1 xb
        = getRoot2 (emptyStore2 Nat) xb ∧
      (∀ bk, (update2 toyHf 0 5 7 (emptyStore2 Nat)).1.branches (xb, bk)
        = (emptyStore2 Nat).branches (xb, bk)) ∧
      (∀ k, (update2 toyHf 0 5 7 (emptyStore2 Nat)).1.leaves (xb, k)
        = (emptyStore2 Nat).leaves (xb, k))) ∧
    (getRoot2 (removeX (emptyStore2 Nat) 0) 0 = 0 ∧
     ∀ xb : Nat, xb ≠ 0 →
       getRoot2 (removeX (emptyStore2 Nat) 0) xb
         = getRoot2 (emptyStore2 Nat) xb ∧
       (∀ bk, (removeX (emptyStore2 Nat) 0).branches (xb, bk)
         = (emptyStore2 Nat).branches (xb, bk)) ∧
       (∀ k, (removeX (emptyStore2 Nat) 0).leaves (xb, k)
         = (emptyStore2 Nat).leaves (xb, k))) :=
  domain_independence toyHf (Op2.upd 5 7) 0 (emptyStore2 Nat)
    (update2 toyHf 0 5 7 (emptyStore2 Nat)).1 rfl

/-! ### The fork-height stack of the merkle_proof walk -/

/-- What the collected bitmap promises: bits at and above 256 are clear, and
a set bit always points at a stored branch with a non-Zero sibling. -/
theorem bitmapOf_spec (s : Store) (k : Nat) :
    (∀ j, 256 ≤ j → (bitmapOf s k).testBit j = false) ∧
    (∀ j, (bitmapOf s k).testBit j = true →
      ∃ br, s.branches (j, parentPath j k) = some br ∧
        (if isRight j k then br.left else br.right).isZero = false) := by
  have hfold := foldl_range_inv
    (fun bm h =>
      match s.branches (h, parentPath h k) with
      | some br =>
          if !(if isRight h k then br.left else br.right).isZero
          then setBit h bm else bm
      | none => bm)
    (fun n bm => (∀ j, n ≤ j → bm.testBit j = false) ∧
      (∀ j, bm.testBit j = true →
        ∃ br, s.branches (j, parentPath j k) = some br ∧
          (if isRight j k then br.left else br.right).isZero = false))
    256 0 ⟨fun j _ => Nat.zero_testBit j, fun j hj =>
      absurd ((Nat.zero_testBit j) ▸ hj) (by simp)⟩
    ?_
  · exact ⟨fun j hj => hfold.1 j hj, hfold.2⟩
  · intro h bm hh hbm
    rcases hbr : s.branches (h, parentPath h k) with _ | br
    · simp only [hbr]
      exact ⟨fun j hj => hbm.1 j (by omega), hbm.2⟩
    · simp only [hbr]
      by_cases hz : (if isRight h k then br.left else br.right).isZero
      · rw [if_neg (by simp [hz])]
        exact ⟨fun j hj => hbm.1 j (by omega), hbm.2⟩
      · rw [if_pos (by simp [hz])]
        have hbit : ∀ j, (setBit h bm).testBit j
            = (bm.testBit j || (2 ^ h).testBit j) := fun j => Nat.testBit_or bm _ j
        constructor
        · intro j hj
          rw [hbit j, hbm.1 j (by omega), Nat.testBit_two_pow]
          simp
          omega
        · intro j hj
          rw [hbit j, Bool.or_eq_true] at hj
          rcases hj with hj | hj
          · exact hbm.2 j hj
          · rw [Nat.testBit_two_pow] at hj
            have hjh : h = j := by simpa using hj
            subst hjh
            exact ⟨br, hbr, by simpa using hz⟩

/-- An ascending stack whose entries all clear the bound survives dropWhile
untouched. -/
theorem dropWhile_ge_all {U : Nat} :
    ∀ l : List Nat, (∀ t ∈ l, U ≤ t) →
    l.dropWhile (fun t => decide (t < U)) = l := by
  intro l hl
  cases l with
  | nil => rfl
  | cons t rest =>
      rw [List.dropWhile_cons, if_neg]
      simp only [decide_eq_true_eq]
      have := hl t (List.mem_cons_self _ _)
      omega

/-- After dropping the low entries of an ascending stack, everything left
clears the bound. -/
theorem dropWhile_ascending_ge {U : Nat} :
    ∀ l : List Nat, List.Pairwise (· < ·) l →
    ∀ f ∈ l.dropWhile (fun t => decide (t < U)), U ≤ f := by
  intro l
  induction l with
  | nil => intro _ f hf; exact absurd hf (List.not_mem_nil f)
  | cons t rest ih =>
      intro hpw f hf
      rw [List.dropWhile_cons] at hf
      split at hf
      · exact ih (List.pairwise_cons.mp hpw).2 f hf
      · next hcond =>
          simp only [decide_eq_true_eq] at hcond
          rcases List.mem_cons.mp hf with rfl | hf2
          · omega
          · have := (List.pairwise_cons.mp hpw).1 f hf2
            omega

/-- A strictly ascending list of heights at most 255 has at most 256
entries. -/
theorem ascending_length_le {l : List Nat} (hpw : List.Pairwise (· < ·) l)
    (hb : ∀ t ∈ l, t ≤ 255) : l.length ≤ 256 := by
  have hnd : l.Nodup := hpw.imp (fun hab => Nat.ne_of_lt hab)
  have hsub : l.toFinset ⊆ Finset.range 256 := by
    intro x hx
    rw [List.mem_toFinset] at hx
    exact Finset.mem_range.mpr (by have := hb x hx; omega)
  have h1 := List.toFinset_card_of_nodup hnd
  have h2 := Finset.card_le_card hsub
  rw [Finset.card_range] at h2
  omega

/-- The inner height loop pops exactly the stack entries below the bound,
never fails (set bitmap bits point at real non-Zero siblings), and leaves
the rest of the stack alone. -/
theorem walkHeights_pops (s : Store) (k bm : Nat)
    (hbm : ∀ h, getBit bm h = true →
      ∃ br, s.branches (h, parentPath h k) = some br ∧
        (if isRight h k then br.left else br.right).isZero = false) :
    ∀ (len lo : Nat) (stack : List Nat) (acc : List MergeValue),
    List.Pairwise (· < ·) stack → (∀ t ∈ stack, lo ≤ t) →
    ∃ acc2, walkHeights s k bm (List.range' lo len) (stack, acc)
      = some (stack.dropWhile (fun t => decide (t < lo + len)), acc2) := by
  intro len
  induction len with
  | zero =>
      intro lo stack acc _ hge
      refine ⟨acc, ?_⟩
      rw [Nat.add_zero, dropWhile_ge_all stack hge]
      rfl
  | succ n ih =>
      intro lo stack acc hpw hge
      rw [List.range'_succ]
      cases stack with
      | nil =>
          have hstep : ∃ acc1, walkStep s k bm ([], acc) lo = some ([], acc1) := by
            rw [walkStep]
            by_cases hbit : getBit bm lo = true
            · rcases hbm lo hbit with ⟨br, hbr, hsz⟩
              rw [if_pos hbit, hbr]
              exact ⟨acc ++ [if isRight lo k then br.left else br.right],
                by simp [hsz]⟩
            · rw [if_neg hbit]
              exact ⟨acc, rfl⟩
          rcases hstep with ⟨acc1, hstep⟩
          have heq : walkHeights s k bm (lo :: List.range' (lo + 1) n) ([], acc)
              = walkHeights s k bm (List.range' (lo + 1) n) ([], acc1) := by
            rw [walkHeights, hstep]
          rcases ih (lo + 1) [] acc1 List.Pairwise.nil
            (fun t ht => absurd ht (List.not_mem_nil t)) with ⟨acc2, hrec⟩
          refine ⟨acc2, ?_⟩
          rw [heq, hrec]
          rfl
      | cons t rest =>
          have hstepeq : walkStep s k bm (t :: rest, acc) lo
              = if t = lo then some (rest, acc)
                else if getBit bm lo then
                  match s.branches (lo, parentPath lo k) with
                  | some br =>
                      let sib := if isRight lo k then br.left else br.right
                      if sib.isZero then none
                      else some (t :: rest, acc ++ [sib])
                  | none => some (t :: rest, acc)
                else some (t :: rest, acc) := rfl
          by_cases hteq : t = lo
          · have hstep : walkStep s k bm (t :: rest, acc) lo
                = some (rest, acc) := by rw [hstepeq, if_pos hteq]
            have heq : walkHeights s k bm (lo :: List.range' (lo + 1) n)
                (t :: rest, acc)
                = walkHeights s k bm (List.range' (lo + 1) n) (rest, acc) := by
              rw [walkHeights, hstep]
            have hger : ∀ f ∈ rest, lo + 1 ≤ f := by
              intro f hf
              have := (List.pairwise_cons.mp hpw).1 f hf
              omega
            rcases ih (lo + 1) rest acc (List.pairwise_cons.mp hpw).2 hger with
              ⟨acc2, hrec⟩
            refine ⟨acc2, ?_⟩
            rw [heq, hrec, List.dropWhile_cons, if_pos]
            · have harith : lo + 1 + n = lo + (n + 1) := by omega
              rw [harith]
            · simp only [decide_eq_true_eq]
              omega
          · have hstep : ∃ acc1, walkStep s k bm (t :: rest, acc) lo
                = some (t :: rest, acc1) := by
              rw [hstepeq, if_neg hteq]
              by_cases hbit : getBit bm lo = true
              · rcases hbm lo hbit with ⟨br, hbr, hsz⟩
                rw [if_pos hbit, hbr]
                exact ⟨acc ++ [if isRight lo k then br.left else br.right],
                  by simp [hsz]⟩
              · rw [if_neg hbit]
                exact ⟨acc, rfl⟩
            rcases hstep with ⟨acc1, hstep⟩
            have heq : walkHeights s k bm (lo :: List.range' (lo + 1) n)
                (t :: rest, acc)
                = walkHeights s k bm (List.range' (lo + 1) n)
                  (t :: rest, acc1) := by
              rw [walkHeights, hstep]
            have hge1 : ∀ f ∈ t :: rest, lo + 1 ≤ f := by
              intro f hf
              rcases List.mem_cons.mp hf with rfl | hf2
              · have := hge f (List.mem_cons_self _ _)
                omega
              · have h1 := hge t (List.mem_cons_self _ _)
                have h2 := (List.pairwise_cons.mp hpw).1 f hf2
                omega
            rcases ih (lo + 1) (t :: rest) acc1 hpw hge1 with ⟨acc2, hrec⟩
            refine ⟨acc2, ?_⟩
            rw [heq, hrec]
            have harith : lo + 1 + n = lo + (n + 1) := by omega
            rw [harith]

/-- The sibling walk over a strictly ascending key list: starting from an
ascending stack of heights at most 255 every one of which is a set bit of
the first key, the walk succeeds, never trips the 257-entry capacity check,
and finishes with the singleton stack [255]. -/
theorem proofWalk_sorted (s : Store) :
    ∀ (ks : List Nat) (stack : List Nat) (acc : List MergeValue),
    List.Pairwise (· < ·) ks → (∀ k ∈ ks, k < 2 ^ 256) →
    List.Pairwise (· < ·) stack → (∀ f ∈ stack, f ≤ 255) →
    (∀ k0, ks.head? = some k0 → ∀ f ∈ stack, k0.testBit f = true) →
    ks ≠ [] →
    ∃ acc2, proofWalk s (ks.zip (ks.map (bitmapOf s))) stack acc
      = some ([255], acc2) := by
  intro ks
  induction ks with
  | nil =>
      intro stack acc _ _ _ _ _ hne
      exact absurd rfl hne
  | cons k rest ih =>
      intro stack acc hks hkb hpw hsb hsbit _
      have hbmk := fun h => (bitmapOf_spec s k).2 h
      cases rest with
      | nil =>
          rcases walkHeights_pops s k (bitmapOf s k) hbmk 256 0 stack acc hpw
            (fun t _ => Nat.zero_le t) with ⟨acc2, hW⟩
          have hnil : stack.dropWhile (fun t => decide (t < 0 + 256)) = [] := by
            rw [List.dropWhile_eq_nil_iff]
            intro x hx
            have := hsb x hx
            simp only [decide_eq_true_eq]
            omega
          rw [hnil] at hW
          refine ⟨acc2, ?_⟩
          rw [List.map_cons, List.map_nil, List.zip_cons_cons,
            List.zip_nil_right, proofWalk, List.range_eq_range' 256, hW]
          rfl
      | cons k2 rest2 =>
          have hkk2 : k < k2 :=
            (List.pairwise_cons.mp hks).1 k2 (List.mem_cons_self _ _)
          have hk2b : k2 < 2 ^ 256 :=
            hkb k2 (List.mem_cons_of_mem _ (List.mem_cons_self _ _))
          have hkb1 : k < 2 ^ 256 := hkb k (List.mem_cons_self _ _)
          have hbits := forkHeight_lt_bits hkk2 hk2b
          rcases walkHeights_pops s k (bitmapOf s k) hbmk (forkHeight k k2) 0
            stack acc hpw (fun t _ => Nat.zero_le t) with ⟨acc2, hW⟩
          set stack1 := stack.dropWhile
            (fun t => decide (t < 0 + forkHeight k k2)) with hstack1
          have hsub : ∀ f ∈ stack1, f ∈ stack :=
            fun f hf => (List.dropWhile_sublist _).subset hf
          have hpw1 : List.Pairwise (· < ·) stack1 :=
            List.Pairwise.sublist (List.dropWhile_sublist _) hpw
          have hge1 : ∀ f ∈ stack1, forkHeight k k2 ≤ f := by
            intro f hf
            have := dropWhile_ascending_ge stack hpw f hf
            omega
          have hgt1 : ∀ f ∈ stack1, forkHeight k k2 < f := by
            intro f hf
            rcases Nat.eq_or_lt_of_le (hge1 f hf) with heqf | hlt
            · exfalso
              have hbitf := hsbit k rfl f (hsub f hf)
              rw [← heqf] at hbitf
              rw [hbits.1] at hbitf
              exact Bool.noConfusion hbitf
            · exact hlt
          have hlen : stack1.length < 257 := by
            have := ascending_length_le hpw1 (fun t ht => hsb t (hsub t ht))
            omega
          have hpush : List.Pairwise (· < ·) (forkHeight k k2 :: stack1) :=
            List.pairwise_cons.mpr ⟨hgt1, hpw1⟩
          have hpushb : ∀ f ∈ forkHeight k k2 :: stack1, f ≤ 255 := by
            intro f hf
            rcases List.mem_cons.mp hf with rfl | hf2
            · exact forkHeight_le_255 k k2
            · exact hsb f (hsub f hf2)
          have hpushbit : ∀ k0, (k2 :: rest2).head? = some k0 →
              ∀ f ∈ forkHeight k k2 :: stack1, k0.testBit f = true := by
            intro k0 hk0 f hf
            injection hk0 with hk0
            subst hk0
            rcases List.mem_cons.mp hf with rfl | hf2
            · exact hbits.2
            · rw [← forkHeight_agree_above hkb1 hk2b (hgt1 f hf2)]
              exact hsbit k rfl f (hsub f hf2)
          rcases ih (forkHeight k k2 :: stack1) acc2
            (List.pairwise_cons.mp hks).2
            (fun q hq => hkb q (List.mem_cons_of_mem _ hq))
            hpush hpushb hpushbit (List.cons_ne_nil _ _) with ⟨acc3, hrec⟩
          refine ⟨acc3, ?_⟩
          rw [List.map_cons, List.map_cons, List.zip_cons_cons,
            List.zip_cons_cons, proofWalk,
            List.range_eq_range' (forkHeight k k2), hW]
          show (if stack1.length < 257 then
              proofWalk s
                ((k2, bitmapOf s k2) :: rest2.zip (rest2.map (bitmapOf s)))
                (forkHeight k k2 :: stack1) acc2
            else none) = some ([255], acc3)
          rw [List.map_cons, List.zip_cons_cons] at hrec
          rw [if_pos hlen, hrec]

/-- C4 (amended: the keys must be pairwise distinct; with duplicated keys
the final stack depth exceeds 1).  For every store and non-empty list of
distinct bounded keys, the sibling-collection walk of merkle_proof stays
within the 257-entry fork-height stack at every push and finishes with
stack depth exactly 1 (the stack is exactly [255]), so merkle_proof
returns. -/
theorem merkle_proof_stack_safe (s : Store) (keys : List Nat)
    (hne : keys ≠ []) (hnd : keys.Nodup) (hb : ∀ k ∈ keys, k < 2 ^ 256) :
    ∃ acc, proofWalk s ((sortNats keys).zip
        ((sortNats keys).map (bitmapOf s))) [] [] = some ([255], acc) ∧
      merkleProof s keys = some ((sortNats keys).map (bitmapOf s), acc) := by
  have hnd2 : (sortNats keys).Nodup := (sortNats_perm keys).nodup_iff.mpr hnd
  have hstrict : List.Pairwise (· < ·) (sortNats keys) :=
    (List.Pairwise.and (sortNats_pairwise keys) hnd2).imp
      (fun hab => lt_of_le_of_ne hab.1 hab.2)
  have hbs : ∀ k ∈ sortNats keys, k < 2 ^ 256 :=
    fun k hk => hb k ((sortNats_perm keys).mem_iff.mp hk)
  have hnes : sortNats keys ≠ [] := by
    intro hcon0
    have := (sortNats_perm keys).length_eq
    rw [hcon0] at this
    exact hne (List.eq_nil_of_length_eq_zero this.symm)
  rcases proofWalk_sorted s (sortNats keys) [] [] hstrict hbs
    List.Pairwise.nil (fun f hf => absurd hf (List.not_mem_nil f))
    (fun k0 _ f hf => absurd hf (List.not_mem_nil f)) hnes with ⟨acc, hw⟩
  refine ⟨acc, hw, ?_⟩
  rw [merkleProof, if_neg hne]
  simp only [hw]

set_option maxHeartbeats 4000000 in
/-- Counterexample to C4 as stated: with the duplicated key list [0, 0, 0]
the walk finishes with the two-entry stack [255, 0], i.e. stack_top = 2, and
the debug assertion stack_top == 1 fails. -/
theorem merkle_proof_stack_counterexample :
    proofWalk emptyStore ((sortNats [0, 0, 0]).zip
      ((sortNats [0, 0, 0]).map (bitmapOf emptyStore))) [] []
      = some ([255, 0], []) ∧ ([255, 0] : List Nat).length ≠ 1 :=
  ⟨rfl, by simp⟩

set_option maxHeartbeats 4000000 in
/-- Witness for C4 at a two-key list over the empty store. -/
theorem merkle_proof_stack_safe_witness :
    ∃ acc, proofWalk emptyStore ((sortNats [1, 0]).zip
        ((sortNats [1, 0]).map (bitmapOf emptyStore))) [] []
        = some ([255], acc) ∧
      merkleProof emptyStore [1, 0]
        = some ((sortNats [1, 0]).map (bitmapOf emptyStore), acc) :=
  merkle_proof_stack_safe emptyStore [1, 0] (by simp) (by decide) (by decide)

end Smt
